import Mathlib

/-!
# Minimum spanning trees: Kruskal (union-find) and Prim (priority queue)

A shallow embedding of `src/main.cpp` (classes `Kruskal`, `Kruskal::DSU` and `Prim`, and
the coding methods of the classes `Prufer` and `Huffmann`) and a verification of its
specification.

Modelling conventions.

* `std::vector<T>` is a `List T`.  A read or write outside the vector is undefined
  behaviour in C++; the model returns `none` there, so every `some` result is a run
  without an out-of-range access.
* `int` values that can be negative (`parent` entries, ranks, weights, keys, costs) are
  `Int`; vertex numbers are `Nat`.  The two accumulators `minCost` are 32-bit: every
  `minCost += ...` is followed by the reduction `wrap32` to the range `[-2^31, 2^31)`
  (two's complement wrap-around).  Ranks and the edge counter stay within `[-1, V]`.
* The recursion of `DSU::findSet` and the `while` loop of `PrimMST` carry a fuel
  argument; running out of fuel is `none`.  The theorems show that the fuel supplied by
  the callers is always enough.
* `std::sort` leaves the order of elements that compare equal unspecified.  The models of
  `KruskalMST` and `PrimMST` therefore take their sort routines as parameters, constrained
  by `IsStdSort` (the output is a permutation of the input in which no element is strictly
  smaller than an earlier one); `stdSort` is the concrete stable instance.
* File output is modelled by the values written: the cost line, the count line and the
  list of printed pairs.
-/

/-- An edge `{u, v, w}` as read from the input (`Kruskal::Edge`, `Prim::Edge`). -/
structure Edge where
  u : Nat
  v : Nat
  w : Int
deriving DecidableEq, Repr

/-- The sentinel `#define INF 1e7`, converted to `int` when stored in `key`. -/
def INF : Int := 10000000

/-- The sentinel `#define NIL (-1)`. -/
def NIL : Int := -1

/-- The value held by a 32-bit `int` after an addition whose exact result is `x`:
the representative of `x` modulo `2^32` in `[-2^31, 2^31)`. -/
def wrap32 (x : Int) : Int := (x + 2147483648) % 4294967296 - 2147483648

/-- Contract of `std::sort` with strict comparator `lt`. -/
def IsStdSort {α : Type} (lt : α → α → Prop) (sort : List α → List α) : Prop :=
  ∀ l, (sort l).Perm l ∧ (sort l).Pairwise (fun a b => ¬ lt b a)

/-- A concrete sort meeting the contract (stable insertion sort). -/
def stdSort {α : Type} (lt : α → α → Prop) [DecidableRel lt] (l : List α) : List α :=
  List.insertionSort (fun a b => ¬ lt b a) l

/-- Comparator of the first sort in `KruskalMST`: `e1.w < e2.w`. -/
def Edge.ltW (e1 e2 : Edge) : Prop := e1.w < e2.w

/-- Comparator of the second sort in `KruskalMST`: lexicographic on `(u, v)`. -/
def Edge.ltUV (e1 e2 : Edge) : Prop :=
  if e1.u = e2.u then e1.v < e2.v else e1.u < e2.u

/-- Comparator of the sort in `PrimMST`: lexicographic on `(first, second)`. -/
def pairLt (e1 e2 : Int × Nat) : Prop :=
  if e1.1 = e2.1 then e1.2 < e2.2 else e1.1 < e2.1

instance : DecidableRel Edge.ltW := fun a b => by unfold Edge.ltW; infer_instance
instance : DecidableRel Edge.ltUV := fun a b => by unfold Edge.ltUV; infer_instance
instance : DecidableRel pairLt := fun a b => by unfold pairLt; infer_instance

/-! ## Graph notions used by the specification -/

/-- Every endpoint lies in `[0, V)`. -/
def ValidEdges (V : Nat) (es : List Edge) : Prop := ∀ e ∈ es, e.u < V ∧ e.v < V

instance (V : Nat) (es : List Edge) : Decidable (ValidEdges V es) := by
  unfold ValidEdges; infer_instance

/-- The graph of the first scenario of the specification (`V = 4`, `E = 5`). -/
def graphA : List Edge := [⟨0, 1, 10⟩, ⟨0, 2, 6⟩, ⟨0, 3, 5⟩, ⟨1, 3, 15⟩, ⟨2, 3, 4⟩]

/-- The disconnected graph of the second scenario (`V = 4`, `E = 2`). -/
def graphB : List Edge := [⟨0, 1, 3⟩, ⟨2, 3, 7⟩]

/-- The graph has an edge of weight `w` between `a` and `b` (in either direction). -/
def HasEdge (G : List Edge) (a b : Nat) (w : Int) : Prop :=
  ∃ e ∈ G, e.w = w ∧ ((e.u = a ∧ e.v = b) ∨ (e.u = b ∧ e.v = a))

/-- A connected graph on two vertices whose only edge weighs exactly `INF`. -/
def graphC : List Edge := [⟨0, 1, 10000000⟩]

/-- A connected graph on two vertices whose only edge weighs more than `INF`. -/
def graphD : List Edge := [⟨0, 1, 20000000⟩]

/-- Some edge of `es` runs from `a` to `b`. -/
def Adj (es : List Edge) (a b : Nat) : Prop := ∃ e ∈ es, e.u = a ∧ e.v = b

/-- Connectivity: the reflexive, symmetric, transitive closure of `Adj`. -/
def Conn (es : List Edge) : Nat → Nat → Prop := Relation.EqvGen (Adj es)

/-- No edge of `F` joins two vertices that the other edges of `F` already connect. -/
def Acyclic (F : List Edge) : Prop :=
  ∀ l₁ e l₂, F = l₁ ++ e :: l₂ → ¬ Conn (l₁ ++ l₂) e.u e.v

/-- A spanning forest of `G`: edges of `G`, acyclic, connecting exactly what `G` connects. -/
def IsSpanningForest (G F : List Edge) : Prop :=
  (∀ e ∈ F, e ∈ G) ∧ Acyclic F ∧ ∀ x y, Conn F x y ↔ Conn G x y

/-- The graph on `[0, V)` is connected. -/
def Connected (V : Nat) (es : List Edge) : Prop := ∀ x < V, ∀ y < V, Conn es x y

/-- Total weight of a list of edges. -/
def weight (es : List Edge) : Int := (es.map Edge.w).sum

/-- Sum of the absolute values of the weights of a list of edges. -/
def absWeight (es : List Edge) : Int := (es.map (fun e => |e.w|)).sum

/-- A labelling of `[0, V)` that is constant exactly on the connected components. -/
def IsLabeling (V : Nat) (es : List Edge) (f : Nat → Nat) : Prop :=
  ∀ x < V, ∀ y < V, (f x = f y ↔ Conn es x y)

/-- The graph on `[0, V)` has exactly `k` connected components: a labelling of the
vertices by component takes `k` distinct values. -/
def HasComponents (V : Nat) (es : List Edge) (k : Nat) : Prop :=
  ∃ f : Nat → Nat, IsLabeling V es f ∧ ((Finset.range V).image f).card = k

/-- A forest built edge by edge, each new edge joining two different components. -/
inductive SeqForest : List Edge → Prop
  | nil : SeqForest []
  | cons {e : Edge} {F : List Edge} : SeqForest F → ¬ Conn F e.u e.v → SeqForest (e :: F)

/-- The edges of weight at most `t`. -/
def upTo (t : Int) (es : List Edge) : List Edge := es.filter (fun e => decide (e.w ≤ t))

/-- Below every weight threshold `F` connects whatever `G` connects there. -/
def ThresholdSpanning (G F : List Edge) : Prop :=
  ∀ t x y, Conn (upTo t G) x y → Conn (upTo t F) x y

namespace Kruskal

/-! ## `Kruskal::DSU` -/

/-- The two vectors of `class DSU`. -/
structure DSU where
  parent : List Int
  rank : List Int
deriving DecidableEq, Repr

/-- The constructor `DSU(int N)`: every `parent[i] = -1`, every `rank[i] = 1`. -/
def DSU.new (N : Nat) : DSU :=
  { parent := List.replicate N (-1), rank := List.replicate N 1 }

/-- The recursive `findSet(i)` with path compression:
`if (parent[i] == -1) return i; return parent[i] = findSet(parent[i]);`. -/
def DSU.findSetFuel : Nat → DSU → Nat → Option (Nat × DSU)
  | 0, _, _ => none
  | fuel + 1, S, i =>
    match S.parent[i]? with
    | none => none
    | some p =>
      if p = -1 then some (i, S)
      else if p < 0 then none
      else
        match DSU.findSetFuel fuel S p.toNat with
        | none => none
        | some (r, S') => some (r, { S' with parent := S'.parent.set i (r : Int) })

/-- The method `findSet(i)`; a parent chain never has more vertices than the vector. -/
def DSU.findSet (S : DSU) (i : Nat) : Option (Nat × DSU) :=
  DSU.findSetFuel S.parent.length S i

/-- The method `unionSet(x, y)`: union by rank of the two representatives. -/
def DSU.unionSet (S : DSU) (x y : Nat) : Option DSU :=
  match S.findSet x with
  | none => none
  | some (s1, S1) =>
    match S1.findSet y with
    | none => none
    | some (s2, S2) =>
      if s1 ≠ s2 then
        match S2.rank[s1]?, S2.rank[s2]? with
        | some r1, some r2 =>
          if r1 < r2 then
            some { S2 with parent := S2.parent.set s1 (s2 : Int) }
          else if r2 < r1 then
            some { S2 with parent := S2.parent.set s2 (s1 : Int) }
          else
            some { parent := S2.parent.set s2 (s1 : Int), rank := S2.rank.set s1 (r1 + 1) }
        | _, _ => none
      else some S2

/-- A call made on a DSU object. -/
inductive Op where
  | find (x : Nat)
  | union (x y : Nat)
deriving DecidableEq, Repr

/-- Arguments of the call are in `[0, n)`. -/
def Op.Valid (n : Nat) : Op → Prop
  | .find x => x < n
  | .union x y => x < n ∧ y < n

/-- Run a sequence of calls, threading the state (results of `findSet` are dropped). -/
def DSU.runOps : DSU → List Op → Option DSU
  | S, [] => some S
  | S, .find x :: ops =>
    match S.findSet x with
    | none => none
    | some (_, S') => DSU.runOps S' ops
  | S, .union x y :: ops =>
    match S.unionSet x y with
    | none => none
    | some S' => DSU.runOps S' ops

/-- The pairs passed to `unionSet` in a sequence of calls. -/
def unioned (ops : List Op) (a b : Nat) : Prop := Op.union a b ∈ ops

/-- States reachable from `DSU(n)` by `findSet` / `unionSet` calls with arguments in `[0, n)`. -/
inductive DSU.Reachable (n : Nat) : DSU → Prop
  | init : DSU.Reachable n (DSU.new n)
  | find {S S' : DSU} {x r : Nat} : DSU.Reachable n S → x < n →
      S.findSet x = some (r, S') → DSU.Reachable n S'
  | union {S S' : DSU} {x y : Nat} : DSU.Reachable n S → x < n → y < n →
      S.unionSet x y = some S' → DSU.Reachable n S'

/-- The vertex `r` is a root: `parent[r] == -1`. -/
def DSU.IsRoot (S : DSU) (r : Nat) : Prop := S.parent[r]? = some (-1)

instance (S : DSU) (r : Nat) : Decidable (S.IsRoot r) := by unfold DSU.IsRoot; infer_instance

/-- One parent-pointer step: `parent[a] == b`. -/
def DSU.Step (S : DSU) (a b : Nat) : Prop := S.parent[a]? = some (b : Int)

/-- Number of sets of the partition: the number of roots. -/
def DSU.numSets (S : DSU) : Nat :=
  ((List.range S.parent.length).filter (fun i => decide (S.IsRoot i))).length

/-- The representative that `findSet` reports, if the call succeeds. -/
def DSU.rep (S : DSU) (x : Nat) : Option Nat := (S.findSet x).map Prod.fst

/-- Root of the tree of `x`, following parent pointers (no compression). -/
inductive RootOf (parent : List Int) : Nat → Nat → Prop
  | root {r : Nat} : parent[r]? = some (-1) → RootOf parent r r
  | step {x p r : Nat} : parent[x]? = some (p : Int) → RootOf parent p r → RootOf parent x r

/-- Well-formedness: both vectors have length `n`, every vertex is a root or points to a
vertex of strictly larger rank. -/
structure DSU.WF (n : Nat) (S : DSU) : Prop where
  plen : S.parent.length = n
  rlen : S.rank.length = n
  valid : ∀ i < n, S.parent[i]? = some (-1) ∨
    ∃ p : Nat, p < n ∧ S.parent[i]? = some (p : Int) ∧ S.rank.getD i 0 < S.rank.getD p 0

/-- The effect of path compression: ranks and length are kept, and every parent entry is
either kept or redirected from a non-root vertex to the root of its tree. -/
def Compresses (S S' : DSU) : Prop :=
  S'.rank = S.rank ∧ S'.parent.length = S.parent.length ∧
    ∀ i, S'.parent[i]? = S.parent[i]? ∨
      (S.parent[i]? ≠ some (-1) ∧ ∃ r : Nat, S'.parent[i]? = some (r : Int) ∧ RootOf S.parent i r)

/-- The number of vertices whose rank is at least the rank of `x`: an upper bound on the
number of vertices on the parent chain of `x`. -/
def chainBound (n : Nat) (S : DSU) (x : Nat) : Nat :=
  ((Finset.range n).filter (fun j => S.rank.getD x 0 ≤ S.rank.getD j 0)).card

/-- The effect of linking root `a` below root `b`: every vertex whose root was `a` now has
root `b`, every other root is kept, and `a` is no longer a root. -/
def Linked (S S' : DSU) (a b : Nat) : Prop :=
  (∀ z r, RootOf S.parent z r → RootOf S'.parent z (if r = a then b else r)) ∧
    ∀ i, S'.parent[i]? = some (-1) ↔ (S.parent[i]? = some (-1) ∧ i ≠ a)

/-- Two vertices have the same root. -/
def DSU.Same (S : DSU) (a b : Nat) : Prop := ∃ r, RootOf S.parent a r ∧ RootOf S.parent b r

/-- The partition of the DSU is the connectivity of the edge list `F` on `[0, n)`. -/
def Represents (n : Nat) (S : DSU) (F : List Edge) : Prop :=
  ∀ a < n, ∀ b < n, (S.Same a b ↔ Conn F a b)

/-- The pairs unioned by a sequence of calls, as edges of weight `0`. -/
def edgesOf : List Op → List Edge
  | [] => []
  | .find _ :: ops => edgesOf ops
  | .union x y :: ops => ⟨x, y, 0⟩ :: edgesOf ops

/-! ## `Kruskal::KruskalMST` -/

/-- The scanning loop `for (auto& edge : edges)` over the weight-sorted edges; the state
is the DSU, `minCost` and `tree`.  The two calls in the test
`S.findSet(x) != S.findSet(y)` are made left to right (C++ leaves the order open). -/
def scan : List Edge → DSU → Int → List Edge → Option (DSU × Int × List Edge)
  | [], S, minCost, tree => some (S, minCost, tree)
  | edge :: rest, S, minCost, tree =>
    match S.findSet edge.u with
    | none => none
    | some (rx, S1) =>
      match S1.findSet edge.v with
      | none => none
      | some (ry, S2) =>
        if rx ≠ ry then
          match S2.unionSet edge.u edge.v with
          | none => none
          | some S3 => scan rest S3 (wrap32 (minCost + edge.w)) (tree ++ [edge])
        else scan rest S2 minCost tree

/-- Selection phase of `KruskalMST`: sort by weight, then scan with a fresh `DSU(V)`. -/
def select (sortW : List Edge → List Edge) (V : Nat) (edges : List Edge) :
    Option (DSU × Int × List Edge) :=
  scan (sortW edges) (DSU.new V) 0 []

/-- What `KruskalMST` writes: the cost, the number of tree edges, the `u v` lines. -/
structure Output where
  minCost : Int
  count : Nat
  lines : List (Nat × Nat)
deriving DecidableEq, Repr

/-- The method `KruskalMST()`. -/
def KruskalMST (sortW sortUV : List Edge → List Edge) (V : Nat) (edges : List Edge) :
    Option Output :=
  match select sortW V edges with
  | none => none
  | some (_, minCost, tree) =>
    some { minCost := minCost, count := tree.length,
           lines := (sortUV tree).map (fun e => (e.u, e.v)) }

instance (n : Nat) (op : Op) : Decidable (op.Valid n) := by
  cases op <;> unfold Op.Valid <;> infer_instance

/-- The state of `DSU(3)` after `unionSet(0, 1)`. -/
def stateA : DSU := ⟨[-1, 0, -1], [2, 1, 1]⟩

/-- The state of `DSU(3)` after `unionSet(0, 1)` and `unionSet(1, 2)`. -/
def stateB : DSU := ⟨[-1, 0, 0], [2, 1, 1]⟩

/-- Loop invariant of `scan` after the prefix `P` of the sorted edge list. -/
structure ScanInv (n : Nat) (P : List Edge) (S : DSU) (minCost : Int) (tree : List Edge) :
    Prop where
  wf : S.WF n
  repr : Represents n S tree
  sets : S.numSets + tree.length = n
  forest : SeqForest tree.reverse
  cost : minCost = wrap32 (weight tree)
  sub : ∀ e ∈ tree, e ∈ P
  spanning : ThresholdSpanning P tree

end Kruskal

namespace Prim

/-! ## `Prim`: adjacency lists and `PrimMST` -/

/-- One iteration of the constructor's loop:
`adj[u].emplace_back(v, w); adj[v].emplace_back(u, w);`. -/
def addEdge (adj : List (List (Nat × Int))) (e : Edge) : Option (List (List (Nat × Int))) :=
  match adj[e.u]? with
  | none => none
  | some lu =>
    let adj1 := adj.set e.u (lu ++ [(e.v, e.w)])
    match adj1[e.v]? with
    | none => none
    | some lv => some (adj1.set e.v (lv ++ [(e.u, e.w)]))

/-- The constructor's loop over the edges of the input. -/
def addEdges : List Edge → List (List (Nat × Int)) → Option (List (List (Nat × Int)))
  | [], adj => some adj
  | e :: es, adj =>
    match addEdge adj e with
    | none => none
    | some adj1 => addEdges es adj1

/-- The adjacency lists built by the constructor: `adj.resize(V)` and the loop. -/
def buildAdj (V : Nat) (edges : List Edge) : Option (List (List (Nat × Int))) :=
  addEdges edges (List.replicate V [])

/-- Local variables of `PrimMST`; `pq` holds the content of the priority queue and
`edges` is the counter started at `-1`. -/
structure State where
  key : List Int
  parent : List Int
  visited : List Bool
  pq : List (Int × Nat)
  edges : Int
deriving DecidableEq, Repr

/-- The element `pq.top()` of the min-queue (`greater<>` on pairs: the least pair in
lexicographic order). -/
def pqTop : List (Int × Nat) → Option (Int × Nat)
  | [] => none
  | a :: l => some (l.foldl (fun m b => if pairLt b m then b else m) a)

/-- The loop `for (auto& u : adj[current])` relaxing the neighbours of `current`. -/
def relax (current : Nat) : List (Nat × Int) → State → Option State
  | [], st => some st
  | (v, w) :: rest, st =>
    match st.key[v]?, st.visited[v]? with
    | some k, some b =>
      if k > w ∧ b = false then
        relax current rest
          { st with key := st.key.set v w, pq := (w, v) :: st.pq,
                    parent := st.parent.set v (current : Int) }
      else relax current rest st
    | _, _ => none

/-- The loop `while (!pq.empty())`. -/
def loop (adj : List (List (Nat × Int))) : Nat → State → Option State
  | 0, st => if st.pq = [] then some st else none
  | fuel + 1, st =>
    match pqTop st.pq with
    | none => some st
    | some top =>
      let current := top.2
      let st1 := { st with pq := st.pq.erase top }
      match st1.visited[current]? with
      | none => none
      | some true => loop adj fuel st1
      | some false =>
        let st2 := { st1 with visited := st1.visited.set current true, edges := st1.edges + 1 }
        match adj[current]? with
        | none => none
        | some nbrs =>
          match relax current nbrs st2 with
          | none => none
          | some st3 => loop adj fuel st3

/-- The state before the `while` loop: every `key[i] = INF`, `parent[i] = NIL`,
`visited[i] = false`, then `pq.emplace(0, root); key[root] = 0;` with `root = 0`. -/
def initState (V : Nat) : Option State :=
  if 0 < V then
    some { key := (List.replicate V INF).set 0 0, parent := List.replicate V NIL,
           visited := List.replicate V false, pq := [(0, 0)], edges := -1 }
  else none

/-- The `while` loop run from the initial state; every queue entry is popped once and at
most `1 + Σ |adj[v]|` entries are ever pushed. -/
def search (V : Nat) (adj : List (List (Nat × Int))) : Option State :=
  match initState V with
  | none => none
  | some st => loop adj ((adj.map List.length).sum + 1) st

/-- The loop collecting the pairs `(parent[i], i)` for
`i != root && visited[i] && visited[parent[i]]`. -/
def collect (st : State) : List Nat → Option (List (Int × Nat))
  | [] => some []
  | i :: is =>
    match st.visited[i]? with
    | none => none
    | some vi =>
      if i ≠ 0 ∧ vi = true then
        match st.parent[i]? with
        | none => none
        | some p =>
          if p < 0 then none
          else
            match st.visited[p.toNat]? with
            | none => none
            | some vp =>
              match collect st is with
              | none => none
              | some t => if vp = true then some ((p, i) :: t) else some t
      else collect st is

/-- The loop `for (int i = 0; i < V; i++) minCost += key[i];` on the 32-bit `minCost`. -/
def sumKeys (key : List Int) : Int := key.foldl (fun acc k => wrap32 (acc + k)) 0

/-- What `PrimMST` writes: the cost, the counter `edges`, the `parent child` lines. -/
structure Output where
  minCost : Int
  edges : Int
  lines : List (Int × Nat)
deriving DecidableEq, Repr

/-- The method `PrimMST()` on the adjacency lists `adj` of a graph with `V` vertices. -/
def primOn (sortP : List (Int × Nat) → List (Int × Nat)) (V : Nat)
    (adj : List (List (Nat × Int))) : Option Output :=
  match search V adj with
  | none => none
  | some st =>
    match collect st (List.range V) with
    | none => none
    | some tree => some { minCost := sumKeys st.key, edges := st.edges, lines := sortP tree }

/-- The constructor of `Prim` followed by `PrimMST()`. -/
def PrimMST (sortP : List (Int × Nat) → List (Int × Nat)) (V : Nat) (edges : List Edge) :
    Option Output :=
  match buildAdj V edges with
  | none => none
  | some adj => primOn sortP V adj

/-! ### Invariants of `PrimMST` -/

/-- The entry `key[v]`. -/
def keyAt (st : State) (v : Nat) : Int := st.key.getD v INF

/-- The entry `parent[v]`. -/
def parAt (st : State) (v : Nat) : Int := st.parent.getD v NIL

/-- The flag `visited[v]` is set. -/
def vis (st : State) (v : Nat) : Prop := st.visited[v]? = some true

instance (st : State) (v : Nat) : Decidable (vis st v) := by unfold vis; infer_instance

/-- The adjacency lists describe the graph `G` on `[0, V)`. -/
structure AdjOK (V : Nat) (G : List Edge) (adj : List (List (Nat × Int))) : Prop where
  len : adj.length = V
  mem : ∀ x nbrs, adj[x]? = some nbrs → ∀ v w, (v, w) ∈ nbrs ↔ HasEdge G x v w

/-- Some visited-to-unvisited edge of weight at most `t` leaves `a`. -/
def Crossing (G : List Edge) (st : State) (a : Nat) (t : Int) : Prop :=
  ∃ z w, ¬ vis st z ∧ HasEdge G a z w ∧ w ≤ t

/-- Invariant of the `while` loop once the root is visited; `F` lists the tree edges
`(parent[v], v, key[v])` of the visited vertices `v ≠ 0`, most recent first. -/
structure PCore (V : Nat) (G : List Edge) (st : State) (F : List Edge) : Prop where
  klen : st.key.length = V
  plen : st.parent.length = V
  vlen : st.visited.length = V
  root : vis st 0
  rootKey : keyAt st 0 = 0
  forest : SeqForest F
  tree : ∀ e ∈ F, e.v ≠ 0 ∧ vis st e.v ∧ vis st e.u ∧ parAt st e.v = (e.u : Int) ∧
    keyAt st e.v = e.w ∧ HasEdge G e.u e.v e.w
  cover : ∀ v, vis st v → v ≠ 0 → ∃ e ∈ F, e.v = v
  nodup : (F.map Edge.v).Nodup
  conn : ∀ v, vis st v → Conn F 0 v
  count : st.edges = F.length
  keyLe : ∀ v, keyAt st v ≤ INF
  pending : ∀ v < V, ¬ vis st v → keyAt st v = INF ∨
    ∃ p : Nat, parAt st v = (p : Int) ∧ vis st p ∧ HasEdge G p v (keyAt st v) ∧
      (keyAt st v, v) ∈ st.pq
  queue : ∀ q ∈ st.pq, q.2 < V ∧ q.1 < INF ∧ (¬ vis st q.2 → keyAt st q.2 ≤ q.1)
  cut : ∀ a b t, vis st a → vis st b → Crossing G st a t → Crossing G st b t →
    Conn (upTo t F) a b
  cyc : ∀ a b w, vis st a → vis st b → HasEdge G a b w → Conn (upTo w F) a b

/-- The keys of the unvisited vertices are at most the weight of every edge from a visited
vertex that has been relaxed (`ok` selects the relaxed edges). -/
def Relaxed (G : List Edge) (st : State) (ok : Nat → Nat → Int → Prop) : Prop :=
  ∀ v, ¬ vis st v → ∀ a w, vis st a → HasEdge G a v w → ok a v w → keyAt st v ≤ w

/-- The edges relaxed so far while the neighbours of `c` are scanned: all edges from the
other visited vertices, and the entries `done` of `adj[c]`. -/
def okOf (c : Nat) (done : List (Nat × Int)) (a v : Nat) (w : Int) : Prop :=
  a ≠ c ∨ (v, w) ∈ done

/-- The pairs `(parent[v], v)` of the visited vertices `v ≠ 0`, by increasing `v`. -/
def treePairs (st : State) (V : Nat) : List (Int × Nat) :=
  ((List.range V).filter (fun v => decide (v ≠ 0 ∧ vis st v))).map (fun v => (parAt st v, v))

/-- The state after the first iteration has marked the root, before its neighbours are
relaxed. -/
def rootState (V : Nat) : State :=
  { key := (List.replicate V INF).set 0 0, parent := List.replicate V NIL,
    visited := (List.replicate V false).set 0 true, pq := [], edges := 0 }

/-- Number of adjacency entries of the unvisited vertices. -/
def pend (adj : List (List (Nat × Int))) (V : Nat) (st : State) : Nat :=
  ∑ v in Finset.range V, if vis st v then 0 else (adj.getD v []).length

/-- Termination measure of the `while` loop. -/
def loopMeasure (adj : List (List (Nat × Int))) (V : Nat) (st : State) : Nat :=
  st.pq.length + pend adj V st

end Prim

/-! ## Further notions for the remaining properties -/

/-- The same undirected edge with its two endpoints exchanged. -/
def Edge.swap (e : Edge) : Edge := ⟨e.v, e.u, e.w⟩

/-- The edge list `es'` is `es` re-ordered, with the endpoints of some edges exchanged. -/
def Reordered (es es' : List Edge) : Prop :=
  ∃ mid, es.Perm mid ∧ List.Forall₂ (fun e e' => e' = e ∨ e' = e.swap) mid es'

/-- A triangle with three edges of equal weight. -/
def graphE : List Edge := [⟨0, 1, 1⟩, ⟨1, 2, 1⟩, ⟨0, 2, 1⟩]

/-- The triangle `graphE` with its edge list in another order. -/
def graphF : List Edge := [⟨0, 2, 1⟩, ⟨0, 1, 1⟩, ⟨1, 2, 1⟩]

/-- The graph `graphA` re-ordered, with the endpoints of two edges exchanged. -/
def graphG : List Edge := [⟨3, 2, 4⟩, ⟨0, 1, 10⟩, ⟨3, 1, 15⟩, ⟨0, 2, 6⟩, ⟨0, 3, 5⟩]

/-- A path on three vertices whose two edges weigh `-2 * 10^9` each. -/
def graphH : List Edge := [⟨0, 1, -2000000000⟩, ⟨1, 2, -2000000000⟩]

/-- A path on three vertices whose two edges weigh `2 * 10^9` each. -/
def graphI : List Edge := [⟨0, 1, 2000000000⟩, ⟨1, 2, 2000000000⟩]

namespace Kruskal

/-- The vertex `x` reaches `y` in exactly `d` parent-pointer steps. -/
inductive DSU.StepsTo (S : DSU) : Nat → Nat → Nat → Prop
  | zero {x : Nat} : DSU.StepsTo S 0 x x
  | succ {d x y z : Nat} : S.Step x y → DSU.StepsTo S d y z → DSU.StepsTo S (d + 1) x z

/-- Every rank is at least `1`. -/
def DSU.RankPos (n : Nat) (S : DSU) : Prop := ∀ i < n, 1 ≤ S.rank.getD i 0

end Kruskal

namespace Prufer

/-! ## `Prufer::PruferCoding` -/

/-- The inner loop `for (int j = 0; j < size; j++)`: the least `j` with `exists[j]` and
`parent[j] != -1`, or `INF` when there is none. -/
def minLeaf (parent : List Int) (ex : List Bool) : List Nat → Int → Option Int
  | [], m => some m
  | j :: js, m =>
    match ex[j]?, parent[j]? with
    | some b, some p =>
      if b = true ∧ p ≠ -1 ∧ (j : Int) < m then minLeaf parent ex js (j : Int)
      else minLeaf parent ex js m
    | _, _ => none

/-- The outer loop `for (int i = 0; i < size - 1; i++)`; the state is `parent`, `exists`
and `code`. -/
def codingLoop (size : Nat) : Nat → List Int → List Bool → List Int → Option (List Int)
  | 0, _, _, code => some code
  | steps + 1, parent, ex, code =>
    match minLeaf parent ex (List.range size) INF with
    | none => none
    | some m =>
      if m < 0 then none
      else
        match parent[m.toNat]? with
        | none => none
        | some p =>
          codingLoop size steps (parent.set m.toNat (-1)) (ex.set m.toNat false) (code ++ [p])

/-- The method `PruferCoding()` on the `size` parent values read from the input; the result
is the sequence `code` that is written. -/
def PruferCoding (size : Nat) (parent : List Int) : Option (List Int) :=
  if parent.length = size then
    codingLoop size (size - 1) parent (List.replicate size true) []
  else none

/-- The vertex `j` is a current leaf: it remains, it is not the root, and none of the
remaining vertices has it as parent. -/
def IsLeaf (size : Nat) (parent : List Int) (ex : List Bool) (j : Nat) : Prop :=
  ex[j]? = some true ∧ parent[j]? ≠ some (-1) ∧
    ∀ c < size, ex[c]? = some true → parent[c]? ≠ some (j : Int)

instance (size : Nat) (parent : List Int) (ex : List Bool) (j : Nat) :
    Decidable (IsLeaf size parent ex j) := by
  unfold IsLeaf; infer_instance

/-- The path `1 → 0 → 2` rooted at `2`, as a parent array. -/
def pathTree : List Int := [2, 0, -1]

end Prufer

namespace Huffmann

/-! ## `Huffmann::HuffmanCoding` and `Huffmann::HuffmannDecoding`

Strings are lists of characters.  A character indexes the arrays `freq[256]` and
`code[256]` by its code; a code outside `[0, 256)` is an access outside the array (`none`).
The texts evaluated below are ASCII, for which `int(ch)` is the code whether `char` is
signed or not. -/

/-- The key `struct freqPair` of the queue. -/
structure freqPair where
  freq : Nat
  ch : Char
deriving DecidableEq, Repr

/-- The comparison `operator<` of `freqPair`. -/
def freqPair.lt (a b : freqPair) : Prop :=
  a.freq < b.freq ∨ (a.freq = b.freq ∧ a.ch < b.ch)

instance : DecidableRel freqPair.lt := fun a b => by unfold freqPair.lt; infer_instance

/-- The call `Q.insert` of `multimap<freqPair, string>`: the entry goes after every entry
whose key is not greater. -/
def insertQ (k : freqPair) (s : List Char) :
    List (freqPair × List Char) → List (freqPair × List Char)
  | [] => [(k, s)]
  | (k', s') :: rest =>
    if k.lt k' then (k, s) :: (k', s') :: rest else (k', s') :: insertQ k s rest

/-- The loop `for (auto &chr : x.second) code[int(chr)] = bit + code[int(chr)];`. -/
def prepend (bit : Char) : List Char → List (List Char) → Option (List (List Char))
  | [], code => some code
  | chr :: rest, code =>
    match code[chr.toNat]? with
    | none => none
    | some c => prepend bit rest (code.set chr.toNat (bit :: c))

/-- The loop `while (--letters)`, run `steps` times: the two least entries of the queue are
merged, `0` is put in front of the codes of the first and `1` in front of those of the
second. -/
def buildCodes : Nat → List (freqPair × List Char) → List (List Char) →
    Option (List (List Char))
  | 0, _, code => some code
  | steps + 1, Q, code =>
    match Q with
    | (kx, sx) :: (ky, sy) :: rest =>
      match prepend '0' sx code with
      | none => none
      | some code1 =>
        match prepend '1' sy code1 with
        | none => none
        | some code2 =>
          buildCodes steps
            (insertQ ⟨kx.freq + ky.freq, if ky.ch < kx.ch then ky.ch else kx.ch⟩ (sx ++ sy) rest)
            code2
    | _ => none

/-- The counting loop `for (auto &ch : text) freq[int(ch)]++`. -/
def countFreq : List Char → List Nat → Option (List Nat)
  | [], freq => some freq
  | ch :: rest, freq =>
    match freq[ch.toNat]? with
    | none => none
    | some f => countFreq rest (freq.set ch.toNat (f + 1))

/-- What `HuffmanCoding` writes: the number of symbols, the symbol / frequency lines and
the bit string. -/
structure Coded where
  letters : Nat
  table : List (Char × Nat)
  bits : List Char
deriving DecidableEq, Repr

/-- The queue filled by the loop over `i = 0 .. 255`, from the table lines in that order. -/
def fillQ : List (Char × Nat) → List (freqPair × List Char) → List (freqPair × List Char)
  | [], Q => Q
  | (c, f) :: rest, Q => fillQ rest (insertQ ⟨f, c⟩ [c] Q)

/-- The final loop `for (auto &chr : text) fout << code[int(chr)];`. -/
def emit (code : List (List Char)) : List Char → Option (List Char)
  | [] => some []
  | chr :: rest =>
    match code[chr.toNat]?, emit code rest with
    | some c, some out => some (c ++ out)
    | _, _ => none

/-- The method `HuffmanCoding()` on the line `text`; nothing is written (`none`) for the
empty text. -/
def HuffmanCoding (text : List Char) : Option Coded :=
  if text = [] then none
  else
    match countFreq text (List.replicate 256 0) with
    | none => none
    | some freq =>
      let table := (List.range 256).filterMap
        (fun i => if freq.getD i 0 ≠ 0 then some (Char.ofNat i, freq.getD i 0) else none)
      let letters := table.length
      match buildCodes (letters - 1) (fillQ table []) (List.replicate 256 []) with
      | none => none
      | some code =>
        match emit code text with
        | none => none
        | some bits => some { letters := letters, table := table, bits := bits }

/-- The map `codes` filled by `if (code[i] != "\0") codes.insert({code[i], i})`: the symbols
with a non-empty code, by increasing `i`. -/
def codeMap (code : List (List Char)) : List (List Char × Char) :=
  (List.range 256).filterMap
    (fun i => if code.getD i [] ≠ [] then some (code.getD i [], Char.ofNat i) else none)

/-- The position `encoded.find(currentCode)` of the first occurrence, counted from `pos`. -/
def findSub (pat : List Char) : List Char → Nat → Option Nat
  | [], pos => if pat = [] then some pos else none
  | c :: s, pos => if pat.isPrefixOf (c :: s) then some pos else findSub pat s (pos + 1)

/-- The decoding loop `while (!encoded.empty())`; the state is `encoded`, `currentCode`,
`ind` and `text`. -/
def decodeLoop (codes : List (List Char × Char)) :
    Nat → List Char → List Char → Nat → List Char → Option (List Char)
  | 0, encoded, _, _, text => if encoded = [] then some text else none
  | fuel + 1, encoded, currentCode, ind, text =>
    if encoded = [] then some text
    else
      match encoded[ind]? with
      | none => none
      | some b =>
        let cur := currentCode ++ [b]
        match codes.find? (fun kv => decide (kv.1 = cur)) with
        | some kv =>
          match findSub cur encoded 0 with
          | none => none
          | some pos =>
            decodeLoop codes fuel (encoded.take pos ++ encoded.drop (pos + cur.length)) [] 0
              (text ++ [kv.2])
        | none => decodeLoop codes fuel encoded cur (ind + 1) text

/-- The method `HuffmannDecoding()` on what `HuffmanCoding` wrote; the result is the text
that is written. -/
def HuffmannDecoding (file : Coded) : Option (List Char) :=
  if file.table.length = file.letters ∧ 0 < file.letters then
    match buildCodes (file.letters - 1) (fillQ file.table []) (List.replicate 256 []) with
    | none => none
    | some code =>
      decodeLoop (codeMap code) ((file.bits.length + 1) * (file.bits.length + 1))
        file.bits [] 0 []
  else none

end Huffmann

/-! ## Connectivity -/

theorem Conn.refl (es : List Edge) (a : Nat) : Conn es a a := Relation.EqvGen.refl a

theorem Conn.symm {es : List Edge} {a b : Nat} (h : Conn es a b) : Conn es b a :=
  Relation.EqvGen.symm _ _ h

theorem Conn.trans {es : List Edge} {a b c : Nat} (h₁ : Conn es a b) (h₂ : Conn es b c) :
    Conn es a c := Relation.EqvGen.trans _ _ _ h₁ h₂

theorem Conn.of_edge {es : List Edge} {e : Edge} (h : e ∈ es) : Conn es e.u e.v :=
  Relation.EqvGen.rel _ _ ⟨e, h, rfl, rfl⟩

/-- Connectivity is the least equivalence containing the edges. -/
theorem Conn.le_of_edges {es : List Edge} {R : Nat → Nat → Prop}
    (hrefl : ∀ a, R a a) (hsymm : ∀ a b, R a b → R b a)
    (htrans : ∀ a b c, R a b → R b c → R a c)
    (hedge : ∀ e ∈ es, R e.u e.v) {a b : Nat} (h : Conn es a b) : R a b := by
  induction h with
  | rel x y hxy =>
    obtain ⟨e, he, rfl, rfl⟩ := hxy
    exact hedge e he
  | refl x => exact hrefl x
  | symm x y _ ih => exact hsymm _ _ ih
  | trans x y z _ _ ih₁ ih₂ => exact htrans _ _ _ ih₁ ih₂

theorem Conn.mono {es es' : List Edge} (h : ∀ e ∈ es, e ∈ es') {a b : Nat}
    (hab : Conn es a b) : Conn es' a b :=
  Conn.le_of_edges (Conn.refl es') (fun _ _ => Conn.symm) (fun _ _ _ => Conn.trans)
    (fun e he => Conn.of_edge (h e he)) hab

theorem Conn.le_of_conn {es es' : List Edge} (h : ∀ e ∈ es, Conn es' e.u e.v) {a b : Nat}
    (hab : Conn es a b) : Conn es' a b :=
  Conn.le_of_edges (Conn.refl es') (fun _ _ => Conn.symm) (fun _ _ _ => Conn.trans) h hab

theorem Conn.nil_iff {a b : Nat} : Conn [] a b ↔ a = b := by
  constructor
  · intro h
    exact Conn.le_of_edges (R := fun a b => a = b) (fun _ => rfl) (fun _ _ h => h.symm)
      (fun _ _ _ h₁ h₂ => h₁.trans h₂) (fun e he => by simp at he) h
  · rintro rfl
    exact Conn.refl _ _

/-- Adding one edge merges the components of its endpoints and nothing else. -/
theorem Conn.cons_iff {e : Edge} {F : List Edge} {a b : Nat} :
    Conn (e :: F) a b ↔
      Conn F a b ∨ (Conn F a e.u ∧ Conn F e.v b) ∨ (Conn F a e.v ∧ Conn F e.u b) := by
  constructor
  · intro h
    refine Conn.le_of_edges
      (R := fun a b => Conn F a b ∨ (Conn F a e.u ∧ Conn F e.v b) ∨ (Conn F a e.v ∧ Conn F e.u b))
      ?_ ?_ ?_ ?_ h
    · intro a; exact Or.inl (Conn.refl _ _)
    · rintro a b (h | ⟨h₁, h₂⟩ | ⟨h₁, h₂⟩)
      · exact Or.inl h.symm
      · exact Or.inr (Or.inr ⟨h₂.symm, h₁.symm⟩)
      · exact Or.inr (Or.inl ⟨h₂.symm, h₁.symm⟩)
    · rintro a b c (h | ⟨h₁, h₂⟩ | ⟨h₁, h₂⟩) (k | ⟨k₁, k₂⟩ | ⟨k₁, k₂⟩)
      · exact Or.inl (h.trans k)
      · exact Or.inr (Or.inl ⟨h.trans k₁, k₂⟩)
      · exact Or.inr (Or.inr ⟨h.trans k₁, k₂⟩)
      · exact Or.inr (Or.inl ⟨h₁, h₂.trans k⟩)
      · exact Or.inr (Or.inl ⟨h₁, k₂⟩)
      · exact Or.inl (h₁.trans k₂)
      · exact Or.inr (Or.inr ⟨h₁, h₂.trans k⟩)
      · exact Or.inl (h₁.trans k₂)
      · exact Or.inr (Or.inr ⟨h₁, k₂⟩)
    · intro f hf
      rcases List.mem_cons.1 hf with rfl | hf
      · exact Or.inr (Or.inl ⟨Conn.refl _ _, Conn.refl _ _⟩)
      · exact Or.inl (Conn.of_edge hf)
  · have hm : ∀ {x y}, Conn F x y → Conn (e :: F) x y :=
      fun h => Conn.mono (fun f hf => List.mem_cons_of_mem _ hf) h
    have he : Conn (e :: F) e.u e.v := Conn.of_edge (List.mem_cons_self _ _)
    rintro (h | ⟨h₁, h₂⟩ | ⟨h₁, h₂⟩)
    · exact hm h
    · exact (hm h₁).trans (he.trans (hm h₂))
    · exact (hm h₁).trans (he.symm.trans (hm h₂))

theorem Conn.cons_of_conn {e : Edge} {F : List Edge} (h : Conn F e.u e.v) {a b : Nat} :
    Conn (e :: F) a b ↔ Conn F a b := by
  rw [Conn.cons_iff]
  constructor
  · rintro (k | ⟨k₁, k₂⟩ | ⟨k₁, k₂⟩)
    · exact k
    · exact k₁.trans (h.trans k₂)
    · exact k₁.trans (h.symm.trans k₂)
  · exact Or.inl

theorem Conn.congr {es es' : List Edge} (h : ∀ e, e ∈ es ↔ e ∈ es') {a b : Nat} :
    Conn es a b ↔ Conn es' a b :=
  ⟨Conn.mono fun e he => (h e).1 he, Conn.mono fun e he => (h e).2 he⟩

theorem Conn.perm {es es' : List Edge} (h : es.Perm es') {a b : Nat} :
    Conn es a b ↔ Conn es' a b :=
  Conn.congr fun _ => h.mem_iff

/-- Vertices outside `[0, V)` are isolated. -/
theorem Conn.lt_of_valid {V : Nat} {es : List Edge} (hv : ValidEdges V es) {a b : Nat}
    (h : Conn es a b) : a = b ∨ (a < V ∧ b < V) := by
  refine Conn.le_of_edges (R := fun a b => a = b ∨ (a < V ∧ b < V)) ?_ ?_ ?_ ?_ h
  · intro a; exact Or.inl rfl
  · rintro a b (rfl | ⟨h₁, h₂⟩)
    · exact Or.inl rfl
    · exact Or.inr ⟨h₂, h₁⟩
  · rintro a b c (rfl | ⟨h₁, h₂⟩) (rfl | ⟨k₁, k₂⟩)
    · exact Or.inl rfl
    · exact Or.inr ⟨k₁, k₂⟩
    · exact Or.inr ⟨h₁, h₂⟩
    · exact Or.inr ⟨h₁, k₂⟩
  · intro e he
    exact Or.inr (hv e he)

/-! ## Forests -/

theorem upTo_cons (t : Int) (e : Edge) (es : List Edge) :
    upTo t (e :: es) = if e.w ≤ t then e :: upTo t es else upTo t es := by
  unfold upTo
  by_cases h : e.w ≤ t <;> simp [List.filter_cons, h]

theorem upTo_append (t : Int) (l₁ l₂ : List Edge) :
    upTo t (l₁ ++ l₂) = upTo t l₁ ++ upTo t l₂ := by
  unfold upTo; simp

theorem mem_upTo {t : Int} {e : Edge} {es : List Edge} : e ∈ upTo t es ↔ e ∈ es ∧ e.w ≤ t := by
  unfold upTo; simp

theorem upTo_eq_self {t : Int} {es : List Edge} (h : ∀ e ∈ es, e.w ≤ t) : upTo t es = es := by
  unfold upTo
  exact List.filter_eq_self.2 (fun e he => by simpa using h e he)

theorem Acyclic.tail {e : Edge} {F : List Edge} (h : Acyclic (e :: F)) : Acyclic F := by
  intro l₁ f l₂ hF hc
  refine h (e :: l₁) f l₂ (by simp [hF]) ?_
  exact Conn.mono (fun g hg => by simp at hg ⊢; tauto) hc

theorem Acyclic.seqForest {F : List Edge} (h : Acyclic F) : SeqForest F := by
  induction F with
  | nil => exact SeqForest.nil
  | cons e F ih => exact SeqForest.cons (ih h.tail) (h [] e F rfl)

theorem SeqForest.acyclic {F : List Edge} (h : SeqForest F) : Acyclic F := by
  induction h with
  | nil =>
    intro l₁ e l₂ hF
    simp at hF
  | @cons e F _ hne ih =>
    intro l₁ f l₂ hF hc
    cases l₁ with
    | nil =>
      simp at hF
      obtain ⟨rfl, rfl⟩ := hF
      exact hne (by simpa using hc)
    | cons g l₁ =>
      simp at hF
      obtain ⟨rfl, rfl⟩ := hF
      have hf : Conn (l₁ ++ f :: l₂) f.u f.v := Conn.of_edge (by simp)
      have hm : ∀ {x y}, Conn (l₁ ++ l₂) x y → Conn (l₁ ++ f :: l₂) x y :=
        fun k => Conn.mono (fun g hg => by simp at hg ⊢; tauto) k
      have hc' : Conn (e :: (l₁ ++ l₂)) f.u f.v := by simpa using hc
      rcases Conn.cons_iff.1 hc' with k | ⟨k₁, k₂⟩ | ⟨k₁, k₂⟩
      · exact ih l₁ f l₂ rfl k
      · exact hne ((hm k₁).symm.trans (hf.trans (hm k₂).symm))
      · exact hne ((hm k₂).trans (hf.symm.trans (hm k₁)))

theorem SeqForest.upTo {F : List Edge} (h : SeqForest F) (t : Int) : SeqForest (upTo t F) := by
  induction h with
  | nil => exact SeqForest.nil
  | @cons e F _ hne ih =>
    rw [upTo_cons]
    split
    · exact SeqForest.cons ih (fun hc => hne (Conn.mono (fun g hg => (mem_upTo.1 hg).1) hc))
    · exact ih

theorem Acyclic.of_perm {F F' : List Edge} (h : Acyclic F) (hp : F.Perm F') : Acyclic F' := by
  intro l₁ e l₂ hF hc
  have he : e ∈ F := hp.mem_iff.2 (by simp [hF])
  obtain ⟨m₁, m₂, hm⟩ := List.append_of_mem he
  have hperm : (m₁ ++ m₂).Perm (l₁ ++ l₂) := by
    have h1 : (e :: (m₁ ++ m₂)).Perm (e :: (l₁ ++ l₂)) := by
      have h2 : (m₁ ++ e :: m₂).Perm (l₁ ++ e :: l₂) := by rw [← hm, ← hF]; exact hp
      exact (List.perm_middle.symm.trans h2).trans List.perm_middle
    exact List.Perm.cons_inv h1
  exact h m₁ e m₂ hm ((Conn.perm hperm).2 hc)

/-! ## Counting components -/

/-- A coarser relation has at most as many classes. -/
theorem card_labels_le {V : Nat} {F F' : List Edge} {f f' : Nat → Nat}
    (hf : IsLabeling V F f) (hf' : IsLabeling V F' f')
    (hle : ∀ x < V, ∀ y < V, Conn F x y → Conn F' x y) :
    ((Finset.range V).image f').card ≤ ((Finset.range V).image f).card := by
  refine Finset.card_le_card_of_forall_subsingleton
    (fun l' l => ∃ a < V, f a = l ∧ f' a = l') ?_ ?_
  · intro l' hl'
    obtain ⟨a, ha, rfl⟩ := Finset.mem_image.1 hl'
    exact ⟨f a, Finset.mem_image.2 ⟨a, ha, rfl⟩, a, Finset.mem_range.1 ha, rfl, rfl⟩
  · intro l _ l₁ h₁ l₂ h₂
    obtain ⟨_, a₁, ha₁, hfa₁, rfl⟩ := h₁
    obtain ⟨_, a₂, ha₂, hfa₂, rfl⟩ := h₂
    exact (hf' a₁ ha₁ a₂ ha₂).2 (hle a₁ ha₁ a₂ ha₂ ((hf a₁ ha₁ a₂ ha₂).1 (hfa₁.trans hfa₂.symm)))

/-- The number of components is well defined. -/
theorem HasComponents.count_unique {V : Nat} {es : List Edge} {k k' : Nat}
    (h : HasComponents V es k) (h' : HasComponents V es k') : k = k' := by
  obtain ⟨f, hf, rfl⟩ := h
  obtain ⟨f', hf', rfl⟩ := h'
  exact le_antisymm (card_labels_le hf' hf fun _ _ _ _ h => h)
    (card_labels_le hf hf' fun _ _ _ _ h => h)

theorem label_merge_iff (fa fb fu fv : Nat) :
    ((if fa = fv then fu else fa) = (if fb = fv then fu else fb)) ↔
      (fa = fb ∨ (fa = fu ∧ fv = fb) ∨ (fa = fv ∧ fu = fb)) := by
  split_ifs <;> constructor <;> intro h <;> omega

/-- Merging the label of `y` into the label of `x`. -/
theorem IsLabeling.cons {V : Nat} {F : List Edge} {f : Nat → Nat} (hf : IsLabeling V F f)
    {e : Edge} (hu : e.u < V) (hv : e.v < V) :
    IsLabeling V (e :: F) (fun a => if f a = f e.v then f e.u else f a) := by
  intro a ha b hb
  rw [Conn.cons_iff, ← hf a ha b hb, ← hf a ha e.u hu, ← hf e.v hv b hb, ← hf a ha e.v hv,
    ← hf e.u hu b hb]
  exact label_merge_iff _ _ _ _

theorem card_labels_cons {V : Nat} {F : List Edge} {f : Nat → Nat} (hf : IsLabeling V F f)
    {e : Edge} (hu : e.u < V) (hv : e.v < V) (hne : ¬ Conn F e.u e.v) :
    ((Finset.range V).image (fun a => if f a = f e.v then f e.u else f a)).card + 1 =
      ((Finset.range V).image f).card := by
  have hfne : f e.u ≠ f e.v := fun h => hne ((hf _ hu _ hv).1 h)
  have hmem : f e.v ∈ (Finset.range V).image f :=
    Finset.mem_image.2 ⟨e.v, Finset.mem_range.2 hv, rfl⟩
  have heq : (Finset.range V).image (fun a => if f a = f e.v then f e.u else f a) =
      ((Finset.range V).image f).erase (f e.v) := by
    ext l
    simp only [Finset.mem_image, Finset.mem_range, Finset.mem_erase]
    constructor
    · rintro ⟨a, ha, rfl⟩
      by_cases h : f a = f e.v
      · simp only [h, if_true]
        exact ⟨hfne, e.u, hu, rfl⟩
      · simp only [h, if_false]
        exact ⟨h, a, ha, rfl⟩
    · rintro ⟨hl, a, ha, rfl⟩
      exact ⟨a, ha, by simp [hl]⟩
  rw [heq, Finset.card_erase_of_mem hmem]
  have : 0 < ((Finset.range V).image f).card := Finset.card_pos.2 ⟨_, hmem⟩
  omega

/-- A forest on `[0, V)` with `m` edges has `V - m` components. -/
theorem SeqForest.exists_labeling {V : Nat} {F : List Edge} (h : SeqForest F)
    (hv : ValidEdges V F) :
    ∃ f, IsLabeling V F f ∧ ((Finset.range V).image f).card + F.length = V := by
  induction h with
  | nil =>
    refine ⟨id, fun x _ y _ => by simp [Conn.nil_iff], by simp⟩
  | @cons e F _ hne ih =>
    obtain ⟨f, hf, hcard⟩ := ih (fun g hg => hv g (List.mem_cons_of_mem _ hg))
    obtain ⟨hu, hw⟩ := hv e (List.mem_cons_self _ _)
    refine ⟨_, hf.cons hu hw, ?_⟩
    have := card_labels_cons hf hu hw hne
    simp only [List.length_cons]
    omega

/-- A forest inside a coarser forest has no more edges. -/
theorem SeqForest.length_le {V : Nat} {T F : List Edge} (hT : SeqForest T) (hF : SeqForest F)
    (hvT : ValidEdges V T) (hvF : ValidEdges V F)
    (hle : ∀ x y, Conn T x y → Conn F x y) : T.length ≤ F.length := by
  obtain ⟨f, hf, hcf⟩ := hT.exists_labeling hvT
  obtain ⟨g, hg, hcg⟩ := hF.exists_labeling hvF
  have := card_labels_le hf hg (fun x _ y _ h => hle x y h)
  omega

/-! ## Comparing sums through threshold counts -/

theorem sum_eq_threshold (L U : Int) (l : List Int) (h : ∀ x ∈ l, L ≤ x ∧ x ≤ U) :
    l.sum = l.length * U - ∑ t in Finset.Ico L U, (l.countP (fun x => decide (x ≤ t)) : Int) := by
  induction l with
  | nil => simp
  | cons a l ih =>
    have ih' := ih (fun x hx => h x (List.mem_cons_of_mem _ hx))
    obtain ⟨hL, hU⟩ := h a (List.mem_cons_self _ _)
    have hone : ∑ t in Finset.Ico L U, (if a ≤ t then (1 : Int) else 0) = U - a := by
      rw [← Finset.sum_filter]
      have : (Finset.Ico L U).filter (fun t => a ≤ t) = Finset.Ico a U := by
        ext t
        simp only [Finset.mem_filter, Finset.mem_Ico]
        omega
      rw [this]
      simp [Int.card_Ico]
      omega
    have hsplit : ∑ t in Finset.Ico L U, ((a :: l).countP (fun x => decide (x ≤ t)) : Int) =
        ∑ t in Finset.Ico L U, (l.countP (fun x => decide (x ≤ t)) : Int) + (U - a) := by
      rw [← hone, ← Finset.sum_add_distrib]
      refine Finset.sum_congr rfl (fun t _ => ?_)
      rw [List.countP_cons]
      by_cases hat : a ≤ t <;> simp [hat]
    rw [hsplit, List.sum_cons, ih']
    simp only [List.length_cons]
    push_cast
    ring

theorem exists_bounds (l : List Int) : ∃ L U : Int, ∀ x ∈ l, L ≤ x ∧ x ≤ U := by
  induction l with
  | nil => exact ⟨0, 0, fun x hx => by simp at hx⟩
  | cons a l ih =>
    obtain ⟨L, U, h⟩ := ih
    refine ⟨min L a, max U a, fun x hx => ?_⟩
    rcases List.mem_cons.1 hx with rfl | hx
    · exact ⟨min_le_right _ _, le_max_right _ _⟩
    · exact ⟨(min_le_left _ _).trans (h x hx).1, (h x hx).2.trans (le_max_left _ _)⟩

/-- If `A` has at least as many entries below every threshold as `B`, and the two lists have
the same length, then the sum of `A` is at most the sum of `B`. -/
theorem sum_le_of_threshold {A B : List Int} (hlen : A.length = B.length)
    (hcnt : ∀ t : Int, B.countP (fun x => decide (x ≤ t)) ≤ A.countP (fun x => decide (x ≤ t))) :
    A.sum ≤ B.sum := by
  obtain ⟨L, U, hb⟩ := exists_bounds (A ++ B)
  have hA := sum_eq_threshold L U A (fun x hx => hb x (by simp [hx]))
  have hB := sum_eq_threshold L U B (fun x hx => hb x (by simp [hx]))
  have hs : ∑ t in Finset.Ico L U, (B.countP (fun x => decide (x ≤ t)) : Int) ≤
      ∑ t in Finset.Ico L U, (A.countP (fun x => decide (x ≤ t)) : Int) :=
    Finset.sum_le_sum (fun t _ => by exact_mod_cast hcnt t)
  rw [hA, hB, hlen]
  linarith

theorem length_upTo (t : Int) (es : List Edge) :
    (upTo t es).length = (es.map Edge.w).countP (fun x => decide (x ≤ t)) := by
  unfold upTo
  rw [List.countP_map, List.countP_eq_length_filter]
  rfl

theorem ThresholdSpanning.conn {G F : List Edge} (h : ThresholdSpanning G F) {x y : Nat}
    (hc : Conn G x y) : Conn F x y := by
  obtain ⟨L, U, hb⟩ := exists_bounds (G.map Edge.w)
  have hG : upTo U G = G := upTo_eq_self (fun e he => (hb e.w (List.mem_map_of_mem _ he)).2)
  have := h U x y (by rw [hG]; exact hc)
  exact Conn.mono (fun e he => (mem_upTo.1 he).1) this

theorem HasEdge.conn_upTo {G : List Edge} {a b : Nat} {w t : Int} (h : HasEdge G a b w)
    (hw : w ≤ t) : Conn (upTo t G) a b := by
  obtain ⟨e, he, hew, (⟨rfl, rfl⟩ | ⟨rfl, rfl⟩)⟩ := h
  · exact Conn.of_edge (mem_upTo.2 ⟨he, by omega⟩)
  · exact (Conn.of_edge (mem_upTo.2 ⟨he, by omega⟩)).symm

theorem HasEdge.toConn {G : List Edge} {a b : Nat} {w : Int} (h : HasEdge G a b w) :
    Conn G a b :=
  Conn.mono (fun _ he => (mem_upTo.1 he).1) (h.conn_upTo (le_refl w))

theorem HasEdge.valid {V : Nat} {G : List Edge} (hv : ValidEdges V G) {a b : Nat} {w : Int}
    (h : HasEdge G a b w) : a < V ∧ b < V := by
  obtain ⟨e, he, _, (⟨rfl, rfl⟩ | ⟨rfl, rfl⟩)⟩ := h
  · exact hv e he
  · exact ⟨(hv e he).2, (hv e he).1⟩

theorem HasEdge.swap {G : List Edge} {a b : Nat} {w : Int} (h : HasEdge G a b w) :
    HasEdge G b a w := by
  obtain ⟨e, he, hw, h⟩ := h
  exact ⟨e, he, hw, h.symm⟩

theorem HasEdge.of_mem {G : List Edge} {e : Edge} (h : e ∈ G) : HasEdge G e.u e.v e.w :=
  ⟨e, h, rfl, Or.inl ⟨rfl, rfl⟩⟩

/-- A threshold-spanning forest weighs no more than any spanning forest. -/
theorem weight_le_of_thresholdSpanning {V : Nat} {G F T : List Edge}
    (hvG : ValidEdges V G) (hFG : ∀ e ∈ F, HasEdge G e.u e.v e.w) (hF : SeqForest F)
    (hts : ThresholdSpanning G F) (hTG : ∀ e ∈ T, HasEdge G e.u e.v e.w) (hT : SeqForest T)
    (hTs : ∀ x y, Conn G x y → Conn T x y) : weight F ≤ weight T := by
  have hvF : ValidEdges V F := fun e he => (hFG e he).valid hvG
  have hvT : ValidEdges V T := fun e he => (hTG e he).valid hvG
  have hlen : F.length = T.length := by
    apply le_antisymm
    · exact hF.length_le hT hvF hvT
        (fun x y h => hTs x y (Conn.le_of_conn (fun e he => (hFG e he).toConn) h))
    · exact hT.length_le hF hvT hvF
        (fun x y h => hts.conn (Conn.le_of_conn (fun e he => (hTG e he).toConn) h))
  unfold weight
  refine sum_le_of_threshold (by simpa using hlen) (fun t => ?_)
  rw [← length_upTo, ← length_upTo]
  refine (hT.upTo t).length_le (hF.upTo t) (fun e he => hvT e (mem_upTo.1 he).1)
    (fun e he => hvF e (mem_upTo.1 he).1) (fun x y h => hts t x y ?_)
  exact Conn.le_of_conn
    (fun e he => (hTG e (mem_upTo.1 he).1).conn_upTo (mem_upTo.1 he).2) h

/-- Connected vertices are equal or both endpoints of edges. -/
theorem Conn.of_endpoints {P : Nat → Prop} {es : List Edge} (hP : ∀ e ∈ es, P e.u ∧ P e.v)
    {a b : Nat} (h : Conn es a b) : a = b ∨ (P a ∧ P b) := by
  refine Conn.le_of_edges (R := fun a b => a = b ∨ (P a ∧ P b)) ?_ ?_ ?_ ?_ h
  · intro a; exact Or.inl rfl
  · rintro a b (rfl | ⟨h₁, h₂⟩)
    · exact Or.inl rfl
    · exact Or.inr ⟨h₂, h₁⟩
  · rintro a b c (rfl | ⟨h₁, h₂⟩) (rfl | ⟨k₁, k₂⟩)
    · exact Or.inl rfl
    · exact Or.inr ⟨k₁, k₂⟩
    · exact Or.inr ⟨h₁, h₂⟩
    · exact Or.inr ⟨h₁, k₂⟩
  · intro e he
    exact Or.inr (hP e he)

namespace Kruskal

/-! ## Roots -/

theorem RootOf.isRoot {p : List Int} {x r : Nat} (h : RootOf p x r) : p[r]? = some (-1) := by
  induction h with
  | root h => exact h
  | step _ _ ih => exact ih

theorem RootOf.unique {p : List Int} {x r r' : Nat} (h : RootOf p x r) (h' : RootOf p x r') :
    r = r' := by
  induction h with
  | root hr =>
    cases h' with
    | root _ => rfl
    | step hs _ =>
      rw [hr] at hs
      simp only [Option.some.injEq] at hs
      omega
  | step hs _ ih =>
    cases h' with
    | root hr =>
      rw [hr] at hs
      simp only [Option.some.injEq] at hs
      omega
    | step hs' h'' =>
      rw [hs] at hs'
      simp only [Option.some.injEq, Nat.cast_inj] at hs'
      subst hs'
      exact ih h''

theorem RootOf.of_isRoot {p : List Int} {x r : Nat} (h : RootOf p x r) (hx : p[x]? = some (-1)) :
    r = x :=
  h.unique (RootOf.root hx)

theorem DSU.WF.root_lt {n : Nat} {S : DSU} (hS : S.WF n) {x r : Nat}
    (h : RootOf S.parent x r) (hx : x < n) :
    r < n ∧ S.rank.getD x 0 ≤ S.rank.getD r 0 ∧
      (S.parent[x]? ≠ some (-1) → S.rank.getD x 0 < S.rank.getD r 0) := by
  induction h with
  | root hr => exact ⟨hx, le_refl _, fun h => absurd hr h⟩
  | @step x p r hs _ ih =>
    rcases hS.valid x hx with h1 | ⟨q, hq, h2, hlt⟩
    · rw [h1] at hs
      simp only [Option.some.injEq] at hs
      omega
    · rw [h2] at hs
      simp only [Option.some.injEq, Nat.cast_inj] at hs
      subst hs
      obtain ⟨hr, hle, _⟩ := ih hq
      exact ⟨hr, by omega, fun _ => by omega⟩

/-! ## Path compression -/

theorem Compresses.id (S : DSU) : Compresses S S := ⟨rfl, rfl, fun _ => Or.inl rfl⟩

theorem Compresses.isRoot_iff {S S' : DSU} (h : Compresses S S') (i : Nat) :
    S'.parent[i]? = some (-1) ↔ S.parent[i]? = some (-1) := by
  rcases h.2.2 i with h1 | ⟨hne, r, hr, _⟩
  · rw [h1]
  · constructor
    · intro h'
      rw [hr] at h'
      simp only [Option.some.injEq] at h'
      omega
    · intro h'
      exact absurd h' hne

theorem Compresses.rootOf {S S' : DSU} (h : Compresses S S') {y r : Nat}
    (hy : RootOf S.parent y r) : RootOf S'.parent y r := by
  induction hy with
  | root hr => exact RootOf.root ((h.isRoot_iff _).2 hr)
  | @step x p r hs hp ih =>
    rcases h.2.2 x with h1 | ⟨_, r', hr', hroot⟩
    · exact RootOf.step (h1.trans hs) ih
    · have : r' = r := hroot.unique (RootOf.step hs hp)
      subst this
      exact RootOf.step hr' (RootOf.root ((h.isRoot_iff _).2 hp.isRoot))

theorem Compresses.rootOf_inv {S S' : DSU} (h : Compresses S S') {y r : Nat}
    (hy : RootOf S'.parent y r) : RootOf S.parent y r := by
  induction hy with
  | root hr => exact RootOf.root ((h.isRoot_iff _).1 hr)
  | @step x p r hs _ ih =>
    rcases h.2.2 x with h1 | ⟨_, r', hr', hroot⟩
    · exact RootOf.step (h1.symm.trans hs) ih
    · rw [hr'] at hs
      simp only [Option.some.injEq, Nat.cast_inj] at hs
      subst hs
      have : r = r' := ih.unique (RootOf.root hroot.isRoot)
      subst this
      exact hroot

theorem Compresses.rootOf_iff {S S' : DSU} (h : Compresses S S') {y r : Nat} :
    RootOf S'.parent y r ↔ RootOf S.parent y r :=
  ⟨h.rootOf_inv, h.rootOf⟩

theorem Compresses.comp {S S₁ S₂ : DSU} (h : Compresses S S₁) (h' : Compresses S₁ S₂) :
    Compresses S S₂ := by
  refine ⟨h'.1.trans h.1, h'.2.1.trans h.2.1, fun i => ?_⟩
  rcases h'.2.2 i with h1 | ⟨hne, r, hr, hroot⟩
  · rw [h1]
    exact h.2.2 i
  · refine Or.inr ⟨fun hc => hne ((h.isRoot_iff i).2 hc), r, hr, h.rootOf_inv hroot⟩

theorem Compresses.wf_of {n : Nat} {S S' : DSU} (h : Compresses S S') (hS : S.WF n) : S'.WF n := by
  refine ⟨h.2.1.trans hS.plen, by rw [h.1]; exact hS.rlen, fun i hi => ?_⟩
  rw [h.1]
  rcases h.2.2 i with h1 | ⟨hne, r, hr, hroot⟩
  · rw [h1]
    exact hS.valid i hi
  · obtain ⟨hr', _, hlt⟩ := hS.root_lt hroot hi
    exact Or.inr ⟨r, hr', hr, hlt hne⟩

/-! ## `findSet` -/

theorem chainBound_le (n : Nat) (S : DSU) (x : Nat) : chainBound n S x ≤ n := by
  unfold chainBound
  calc _ ≤ (Finset.range n).card := Finset.card_filter_le _ _
    _ = n := Finset.card_range n

theorem chainBound_lt {n : Nat} {S : DSU} {x q : Nat} (hx : x < n)
    (h : S.rank.getD x 0 < S.rank.getD q 0) : chainBound n S q < chainBound n S x := by
  unfold chainBound
  apply Finset.card_lt_card
  constructor
  · intro j hj
    simp only [Finset.mem_filter, Finset.mem_range] at hj ⊢
    exact ⟨hj.1, by omega⟩
  · intro hsub
    have : x ∈ (Finset.range n).filter (fun j => S.rank.getD q 0 ≤ S.rank.getD j 0) :=
      hsub (by simp [hx])
    simp only [Finset.mem_filter, Finset.mem_range] at this
    omega

theorem findSetFuel_spec {n : Nat} {S : DSU} (hS : S.WF n) :
    ∀ (fuel x : Nat), x < n → chainBound n S x ≤ fuel →
      ∃ r S', S.findSetFuel fuel x = some (r, S') ∧ RootOf S.parent x r ∧ Compresses S S' := by
  intro fuel
  induction fuel with
  | zero =>
    intro x hx hb
    have : 0 < chainBound n S x := by
      unfold chainBound
      exact Finset.card_pos.2 ⟨x, by simp [hx]⟩
    omega
  | succ fuel ih =>
    intro x hx hb
    rcases hS.valid x hx with h1 | ⟨q, hq, h2, hlt⟩
    · exact ⟨x, S, by simp [DSU.findSetFuel, h1], RootOf.root h1, Compresses.id S⟩
    · obtain ⟨r, S₁, hfind, hroot, hc⟩ := ih q hq (by have := chainBound_lt hx hlt; omega)
      have hq1 : (q : Int) ≠ -1 := by omega
      have hq2 : ¬ (q : Int) < 0 := by omega
      refine ⟨r, { S₁ with parent := S₁.parent.set x (r : Int) }, ?_, RootOf.step h2 hroot, ?_⟩
      · simp [DSU.findSetFuel, h2, hq1, hq2, hfind]
      · refine ⟨hc.1, by simp [hc.2.1], fun i => ?_⟩
        by_cases hix : x = i
        · subst hix
          refine Or.inr ⟨by rw [h2]; simp, r, ?_, RootOf.step h2 hroot⟩
          simp [List.getElem?_set, hc.2.1, hS.plen, hx]
        · simp only [List.getElem?_set_ne hix]
          exact hc.2.2 i

theorem findSet_spec {n : Nat} {S : DSU} (hS : S.WF n) {x : Nat} (hx : x < n) :
    ∃ r S', S.findSet x = some (r, S') ∧ RootOf S.parent x r ∧ Compresses S S' := by
  unfold DSU.findSet
  rw [hS.plen]
  exact findSetFuel_spec hS n x hx (chainBound_le n S x)

theorem DSU.WF.exists_root {n : Nat} {S : DSU} (hS : S.WF n) {x : Nat} (hx : x < n) :
    ∃ r, r < n ∧ RootOf S.parent x r := by
  obtain ⟨r, _, _, hr, _⟩ := findSet_spec hS hx
  exact ⟨r, (hS.root_lt hr hx).1, hr⟩

/-! ## `unionSet` -/

theorem link_rootOf {p : List Int} {a b : Nat} (ha : p[a]? = some (-1))
    (hb : p[b]? = some (-1)) (hab : a ≠ b) {z r : Nat} (h : RootOf p z r) :
    RootOf (p.set a (b : Int)) z (if r = a then b else r) := by
  have hlen : a < p.length := by
    by_contra hc
    rw [List.getElem?_eq_none (by omega)] at ha
    cases ha
  have hb' : (p.set a (b : Int))[b]? = some (-1) := by
    rw [List.getElem?_set_ne hab]; exact hb
  induction h with
  | @root r hr =>
    by_cases hra : r = a
    · subst hra
      simp only [if_true]
      exact RootOf.step (by simp [List.getElem?_set, hlen]) (RootOf.root hb')
    · simp only [hra, if_false]
      exact RootOf.root (by rw [List.getElem?_set_ne (Ne.symm hra)]; exact hr)
  | @step x q r hs _ ih =>
    have hxa : a ≠ x := by
      rintro rfl
      rw [ha] at hs
      simp only [Option.some.injEq] at hs
      omega
    exact RootOf.step (by rw [List.getElem?_set_ne hxa]; exact hs) ih

theorem link_wf {n : Nat} {S : DSU} (hS : S.WF n) {a b : Nat}
    (hb : S.parent[b]? = some (-1)) (hab : a ≠ b) (hbn : b < n) (rank' : List Int)
    (hlen : rank'.length = n)
    (hother : ∀ i, i ≠ b → rank'.getD i 0 = S.rank.getD i 0)
    (hle : S.rank.getD b 0 ≤ rank'.getD b 0) (hlt : S.rank.getD a 0 < rank'.getD b 0) :
    DSU.WF n { parent := S.parent.set a (b : Int), rank := rank' } := by
  refine ⟨by simp [hS.plen], hlen, fun i hi => ?_⟩
  by_cases hia : a = i
  · subst hia
    refine Or.inr ⟨b, hbn, by simp [List.getElem?_set, hS.plen, hi], ?_⟩
    simp only; rw [hother a hab]; exact hlt
  · simp only [List.getElem?_set_ne hia]
    rcases hS.valid i hi with h1 | ⟨q, hq, h2, hr⟩
    · exact Or.inl h1
    · refine Or.inr ⟨q, hq, h2, ?_⟩
      have hib : i ≠ b := by
        rintro rfl
        rw [hb] at h2
        simp only [Option.some.injEq] at h2
        omega
      rw [hother i hib]
      by_cases hqb : q = b
      · subst hqb; omega
      · rw [hother q hqb]; exact hr

theorem link_linked {S : DSU} {a b : Nat} (ha : S.parent[a]? = some (-1))
    (hb : S.parent[b]? = some (-1)) (hab : a ≠ b) (rank' : List Int) :
    Linked S { parent := S.parent.set a (b : Int), rank := rank' } a b := by
  refine ⟨fun z r h => link_rootOf ha hb hab h, fun i => ?_⟩
  have hlen : a < S.parent.length := by
    by_contra hc
    rw [List.getElem?_eq_none (by omega)] at ha
    cases ha
  by_cases hia : a = i
  · subst hia
    simp [List.getElem?_set, hlen]
  · simp only [List.getElem?_set_ne hia]
    exact ⟨fun h => ⟨h, Ne.symm hia⟩, fun h => h.1⟩

theorem Linked.after_compress {S S₂ S' : DSU} {a b : Nat} (hc : Compresses S S₂)
    (hl : Linked S₂ S' a b) : Linked S S' a b :=
  ⟨fun z r h => hl.1 z r (hc.rootOf h), fun i => by rw [hl.2 i, hc.isRoot_iff]⟩

theorem getD_set_ne {l : List Int} {i j : Nat} (h : j ≠ i) (v : Int) :
    (l.set i v).getD j 0 = l.getD j 0 := by
  simp [List.getD_eq_getElem?_getD, List.getElem?_set_ne (Ne.symm h)]

theorem getD_set_self {l : List Int} {i : Nat} (h : i < l.length) (v : Int) :
    (l.set i v).getD i 0 = v := by
  simp [List.getD_eq_getElem?_getD, List.getElem?_set, h]

theorem getD_of_getElem? {l : List Int} {i : Nat} {v : Int} (h : l[i]? = some v) :
    l.getD i 0 = v := by
  simp [List.getD_eq_getElem?_getD, h]

/-- What `unionSet(x, y)` does to a well-formed state. -/
theorem unionSet_spec {n : Nat} {S : DSU} (hS : S.WF n) {x y : Nat} (hx : x < n) (hy : y < n) :
    ∃ S' rx ry, S.unionSet x y = some S' ∧ S'.WF n ∧ S'.rank.length = n ∧
      RootOf S.parent x rx ∧ RootOf S.parent y ry ∧
      ((rx = ry ∧ Compresses S S') ∨
        (rx ≠ ry ∧ ((Linked S S' rx ry) ∨ (Linked S S' ry rx)))) := by
  obtain ⟨s1, S₁, hf1, hr1, hc1⟩ := findSet_spec hS hx
  have hS₁ := hc1.wf_of hS
  obtain ⟨s2, S₂, hf2, hr2, hc2⟩ := findSet_spec hS₁ hy
  have hS₂ := hc2.wf_of hS₁
  have hc := hc1.comp hc2
  have hr2' : RootOf S.parent y s2 := hc1.rootOf_inv hr2
  have hs1 : s1 < n := (hS.root_lt hr1 hx).1
  have hs2 : s2 < n := (hS.root_lt hr2' hy).1
  have hroot1 : S₂.parent[s1]? = some (-1) := (hc.isRoot_iff _).2 hr1.isRoot
  have hroot2 : S₂.parent[s2]? = some (-1) := (hc.isRoot_iff _).2 hr2'.isRoot
  by_cases heq : s1 = s2
  · refine ⟨S₂, s1, s2, ?_, hS₂, hS₂.rlen, hr1, hr2', Or.inl ⟨heq, hc⟩⟩
    simp [DSU.unionSet, hf1, hf2, heq]
  · obtain ⟨r1, hrk1⟩ : ∃ r1, S₂.rank[s1]? = some r1 :=
      ⟨_, List.getElem?_eq_getElem (by rw [hS₂.rlen]; exact hs1)⟩
    obtain ⟨r2, hrk2⟩ : ∃ r2, S₂.rank[s2]? = some r2 :=
      ⟨_, List.getElem?_eq_getElem (by rw [hS₂.rlen]; exact hs2)⟩
    have hg1 := getD_of_getElem? hrk1
    have hg2 := getD_of_getElem? hrk2
    by_cases hlt : r1 < r2
    · refine ⟨{ S₂ with parent := S₂.parent.set s1 (s2 : Int) }, s1, s2, ?_, ?_, hS₂.rlen,
        hr1, hr2', Or.inr ⟨heq, Or.inl ?_⟩⟩
      · simp [DSU.unionSet, hf1, hf2, heq, hrk1, hrk2, hlt]
      · exact link_wf hS₂ hroot2 heq hs2 S₂.rank hS₂.rlen (fun _ _ => rfl) (le_refl _)
          (by omega)
      · exact Linked.after_compress hc (link_linked hroot1 hroot2 heq _)
    · by_cases hgt : r2 < r1
      · refine ⟨{ S₂ with parent := S₂.parent.set s2 (s1 : Int) }, s1, s2, ?_, ?_, hS₂.rlen,
          hr1, hr2', Or.inr ⟨heq, Or.inr ?_⟩⟩
        · simp [DSU.unionSet, hf1, hf2, heq, hrk1, hrk2, hlt, hgt]
        · exact link_wf hS₂ hroot1 (Ne.symm heq) hs1 S₂.rank hS₂.rlen (fun _ _ => rfl) (le_refl _)
            (by omega)
        · exact Linked.after_compress hc (link_linked hroot2 hroot1 (Ne.symm heq) _)
      · refine ⟨{ parent := S₂.parent.set s2 (s1 : Int), rank := S₂.rank.set s1 (r1 + 1) },
          s1, s2, ?_, ?_, by simp [hS₂.rlen], hr1, hr2', Or.inr ⟨heq, Or.inr ?_⟩⟩
        · simp [DSU.unionSet, hf1, hf2, heq, hrk1, hrk2, hlt, hgt]
        · refine link_wf hS₂ hroot1 (Ne.symm heq) hs1 _ (by simp [hS₂.rlen])
            (fun i hi => getD_set_ne hi _) ?_ ?_
          · rw [getD_set_self (by rw [hS₂.rlen]; exact hs1)]; omega
          · rw [getD_set_self (by rw [hS₂.rlen]; exact hs1)]; omega
        · exact Linked.after_compress hc (link_linked hroot2 hroot1 (Ne.symm heq) _)

/-! ## The partition represented by a state -/

theorem DSU.WF.exists_rootFn {n : Nat} {S : DSU} (hS : S.WF n) :
    ∃ ρ : Nat → Nat, ∀ z < n, ρ z < n ∧ RootOf S.parent z (ρ z) := by
  have h : ∀ z, ∃ r, z < n → (r < n ∧ RootOf S.parent z r) := by
    intro z
    by_cases hz : z < n
    · obtain ⟨r, hr⟩ := hS.exists_root hz
      exact ⟨r, fun _ => hr⟩
    · exact ⟨0, fun h => absurd h hz⟩
  choose ρ hρ using h
  exact ⟨ρ, hρ⟩

theorem same_iff_of_roots {S : DSU} {a b ra rb : Nat} (ha : RootOf S.parent a ra)
    (hb : RootOf S.parent b rb) : S.Same a b ↔ ra = rb := by
  constructor
  · rintro ⟨r, h1, h2⟩
    rw [ha.unique h1, hb.unique h2]
  · rintro rfl
    exact ⟨ra, ha, hb⟩

theorem Compresses.same_iff {S S' : DSU} (h : Compresses S S') {a b : Nat} :
    S'.Same a b ↔ S.Same a b := by
  unfold DSU.Same
  simp only [h.rootOf_iff]

theorem Linked.same_iff_merge {n : Nat} {S S' : DSU} (hS : S.WF n) {p q x y : Nat}
    (hl : Linked S S' p q) (hx : RootOf S.parent x p) (hy : RootOf S.parent y q)
    {c d : Nat} (hc : c < n) (hd : d < n) :
    S'.Same c d ↔ S.Same c d ∨ (S.Same c x ∧ S.Same y d) ∨ (S.Same c y ∧ S.Same x d) := by
  obtain ⟨rc, _, hrc⟩ := hS.exists_root hc
  obtain ⟨rd, _, hrd⟩ := hS.exists_root hd
  rw [same_iff_of_roots (hl.1 _ _ hrc) (hl.1 _ _ hrd), same_iff_of_roots hrc hrd,
    same_iff_of_roots hrc hx, same_iff_of_roots hy hrd, same_iff_of_roots hrc hy,
    same_iff_of_roots hx hrd, label_merge_iff]
  omega

theorem new_wf (n : Nat) : (DSU.new n).WF n := by
  refine ⟨by simp [DSU.new], by simp [DSU.new], fun i hi => Or.inl ?_⟩
  simp [DSU.new, List.getElem?_replicate, hi]

theorem new_rootOf {n : Nat} {a : Nat} (ha : a < n) : RootOf (DSU.new n).parent a a :=
  RootOf.root (by simp [DSU.new, List.getElem?_replicate, ha])

theorem new_represents (n : Nat) : Represents n (DSU.new n) [] := by
  intro a ha b hb
  rw [same_iff_of_roots (new_rootOf ha) (new_rootOf hb), Conn.nil_iff]

theorem Represents.congr_edges {n : Nat} {S : DSU} {F F' : List Edge} (h : Represents n S F)
    (hm : ∀ e, e ∈ F ↔ e ∈ F') : Represents n S F' :=
  fun a ha b hb => (h a ha b hb).trans (Conn.congr hm)

theorem Represents.of_compresses {n : Nat} {S S' : DSU} {F : List Edge}
    (h : Represents n S F) (hc : Compresses S S') : Represents n S' F :=
  fun a ha b hb => hc.same_iff.trans (h a ha b hb)

/-- After `unionSet(e.u, e.v)` the state represents the edge list extended by `e`. -/
theorem Represents.union {n : Nat} {S S' : DSU} {F : List Edge} (hS : S.WF n)
    (h : Represents n S F) {e : Edge} (hu : e.u < n) (hv : e.v < n) {rx ry : Nat}
    (hrx : RootOf S.parent e.u rx) (hry : RootOf S.parent e.v ry)
    (hcase : (rx = ry ∧ Compresses S S') ∨ (rx ≠ ry ∧ (Linked S S' rx ry ∨ Linked S S' ry rx))) :
    Represents n S' (e :: F) := by
  intro a ha b hb
  rcases hcase with ⟨heq, hc⟩ | ⟨_, hl | hl⟩
  · have hconn : Conn F e.u e.v := (h _ hu _ hv).1 ((same_iff_of_roots hrx hry).2 heq)
    rw [Conn.cons_of_conn hconn]
    exact hc.same_iff.trans (h a ha b hb)
  · rw [hl.same_iff_merge hS hrx hry ha hb, Conn.cons_iff, h a ha b hb, h a ha _ hu, h _ hv b hb,
      h a ha _ hv, h _ hu b hb]
  · rw [hl.same_iff_merge hS hry hrx ha hb, Conn.cons_iff, h a ha b hb, h a ha _ hu, h _ hv b hb,
      h a ha _ hv, h _ hu b hb]
    tauto

/-! ## Counting the sets -/

theorem numSets_eq_card (S : DSU) :
    S.numSets = ((Finset.range S.parent.length).filter (fun i => S.IsRoot i)).card := by
  unfold DSU.numSets
  rfl

theorem Compresses.numSets_eq {S S' : DSU} (h : Compresses S S') : S'.numSets = S.numSets := by
  rw [numSets_eq_card, numSets_eq_card, h.2.1]
  congr 1
  ext i
  simp only [Finset.mem_filter, DSU.IsRoot, h.isRoot_iff]

theorem Linked.numSets_succ {S S' : DSU} {a b : Nat} (h : Linked S S' a b)
    (hlen : S'.parent.length = S.parent.length) (ha : S.parent[a]? = some (-1)) :
    S'.numSets + 1 = S.numSets := by
  have halt : a < S.parent.length := by
    by_contra hc
    rw [List.getElem?_eq_none (by omega)] at ha
    cases ha
  have hmem : a ∈ (Finset.range S.parent.length).filter (fun i => S.IsRoot i) := by
    simp [DSU.IsRoot, ha, halt]
  have heq : (Finset.range S'.parent.length).filter (fun i => S'.IsRoot i) =
      ((Finset.range S.parent.length).filter (fun i => S.IsRoot i)).erase a := by
    ext i
    simp only [Finset.mem_filter, Finset.mem_erase, Finset.mem_range, DSU.IsRoot, h.2 i, hlen]
    tauto
  rw [numSets_eq_card, numSets_eq_card, heq, Finset.card_erase_of_mem hmem]
  have := Finset.card_pos.2 ⟨a, hmem⟩
  omega

/-- The roots label the components: a state representing `F` witnesses the number of
components of `F`. -/
theorem Represents.components {n : Nat} {S : DSU} {F : List Edge} (hS : S.WF n)
    (h : Represents n S F) : HasComponents n F S.numSets := by
  obtain ⟨ρ, hρ⟩ := hS.exists_rootFn
  refine ⟨ρ, fun x hx y hy => ?_, ?_⟩
  · rw [← h x hx y hy, same_iff_of_roots (hρ x hx).2 (hρ y hy).2]
  · rw [numSets_eq_card, hS.plen]
    congr 1
    ext r
    simp only [Finset.mem_image, Finset.mem_range, Finset.mem_filter, DSU.IsRoot]
    constructor
    · rintro ⟨z, hz, rfl⟩
      exact ⟨(hρ z hz).1, (hρ z hz).2.isRoot⟩
    · rintro ⟨hr, hroot⟩
      exact ⟨r, hr, ((hρ r hr).2.of_isRoot hroot)⟩

end Kruskal

/-! ## The greedy scan -/

theorem wrap32_add_left (a b : Int) : wrap32 (wrap32 a + b) = wrap32 (a + b) := by
  unfold wrap32
  omega

theorem wrap32_of_range {x : Int} (h₁ : -2147483648 ≤ x) (h₂ : x < 2147483648) :
    wrap32 x = x := by
  unfold wrap32
  omega

theorem weight_append (l₁ l₂ : List Edge) : weight (l₁ ++ l₂) = weight l₁ + weight l₂ := by
  simp [weight]

theorem ThresholdSpanning.accept {P T : List Edge} (h : ThresholdSpanning P T) (e : Edge) :
    ThresholdSpanning (P ++ [e]) (T ++ [e]) := by
  intro t x y hxy
  refine Conn.le_of_conn (fun g hg => ?_) hxy
  rw [upTo_append, List.mem_append] at hg
  rcases hg with hg | hg
  · exact Conn.mono (fun f hf => by rw [upTo_append]; exact List.mem_append_left _ hf)
      (h t _ _ (Conn.of_edge hg))
  · exact Conn.of_edge (by rw [upTo_append]; exact List.mem_append_right _ hg)

theorem ThresholdSpanning.reject {P T : List Edge} (h : ThresholdSpanning P T) {e : Edge}
    (hc : Conn T e.u e.v) (hw : ∀ g ∈ T, g.w ≤ e.w) : ThresholdSpanning (P ++ [e]) T := by
  intro t x y hxy
  refine Conn.le_of_conn (fun g hg => ?_) hxy
  rw [upTo_append, List.mem_append] at hg
  rcases hg with hg | hg
  · exact h t _ _ (Conn.of_edge hg)
  · obtain ⟨hge, hgt⟩ := mem_upTo.1 hg
    simp only [List.mem_singleton] at hge
    subst hge
    rw [upTo_eq_self (fun f hf => (hw f hf).trans hgt)]
    exact hc

theorem ThresholdSpanning.perm_graph {G G' F : List Edge} (h : ThresholdSpanning G F)
    (hp : G.Perm G') : ThresholdSpanning G' F := by
  intro t x y hxy
  refine h t x y (Conn.mono (fun e he => ?_) hxy)
  rw [mem_upTo] at he ⊢
  exact ⟨hp.mem_iff.2 he.1, he.2⟩

namespace Kruskal

theorem scanInv_init (n : Nat) : ScanInv n [] (DSU.new n) 0 [] := by
  refine ⟨new_wf n, new_represents n, ?_, SeqForest.nil, rfl, fun e he => by simp at he,
    fun t x y h => h⟩
  rw [numSets_eq_card]
  simp [DSU.new, DSU.IsRoot, List.getElem?_replicate]
  rw [Finset.filter_true_of_mem (fun i hi => Finset.mem_range.1 hi)]
  simp

/-- One iteration of the scanning loop keeps the invariant. -/
theorem scan_step {n : Nat} {P : List Edge} {S : DSU} {c : Int} {tree : List Edge}
    (inv : ScanInv n P S c tree) {e : Edge} (hu : e.u < n) (hv : e.v < n)
    (hw : ∀ p ∈ P, p.w ≤ e.w) :
    ∃ rx ry S₁ S₂, S.findSet e.u = some (rx, S₁) ∧ S₁.findSet e.v = some (ry, S₂) ∧
      RootOf S.parent e.u rx ∧ RootOf S.parent e.v ry ∧
      ((rx = ry ∧ ScanInv n (P ++ [e]) S₂ c tree) ∨
        (rx ≠ ry ∧ ∃ S₃, S₂.unionSet e.u e.v = some S₃ ∧
          ScanInv n (P ++ [e]) S₃ (wrap32 (c + e.w)) (tree ++ [e]))) := by
  obtain ⟨rx, S₁, hf1, hr1, hc1⟩ := findSet_spec inv.wf hu
  have hS₁ := hc1.wf_of inv.wf
  obtain ⟨ry, S₂, hf2, hr2, hc2⟩ := findSet_spec hS₁ hv
  have hS₂ := hc2.wf_of hS₁
  have hc := hc1.comp hc2
  have hr2' : RootOf S.parent e.v ry := hc1.rootOf_inv hr2
  refine ⟨rx, ry, S₁, S₂, hf1, hf2, hr1, hr2', ?_⟩
  have hsame : S.Same e.u e.v ↔ rx = ry := same_iff_of_roots hr1 hr2'
  by_cases heq : rx = ry
  · refine Or.inl ⟨heq, hS₂, inv.repr.of_compresses hc, ?_, inv.forest, inv.cost,
      fun g hg => List.mem_append_left _ (inv.sub g hg), ?_⟩
    · rw [hc.numSets_eq]; exact inv.sets
    · exact inv.spanning.reject ((inv.repr _ hu _ hv).1 (hsame.2 heq))
        (fun g hg => hw g (inv.sub g hg))
  · obtain ⟨S₃, rx', ry', hun, hS₃, _, hrx', hry', hcase⟩ := unionSet_spec hS₂ hu hv
    have e1 : rx' = rx := hrx'.unique (hc.rootOf hr1)
    have e2 : ry' = ry := hry'.unique (hc.rootOf hr2')
    subst e1 e2
    have hnc : ¬ Conn tree e.u e.v := fun h => heq (hsame.1 ((inv.repr _ hu _ hv).2 h))
    refine Or.inr ⟨heq, S₃, hun, hS₃, ?_, ?_, ?_, ?_, ?_, inv.spanning.accept e⟩
    · exact (Represents.union hS₂ (inv.repr.of_compresses hc) hu hv hrx' hry' hcase).congr_edges
        (fun g => by simp [or_comm])
    · have hlen : S₃.parent.length = S₂.parent.length := hS₃.plen.trans hS₂.plen.symm
      have h2 : S₂.numSets = S.numSets := hc.numSets_eq
      have h3 : S₃.numSets + 1 = S₂.numSets := by
        rcases hcase with ⟨h, _⟩ | ⟨_, hl | hl⟩
        · exact absurd h heq
        · exact hl.numSets_succ hlen hrx'.isRoot
        · exact hl.numSets_succ hlen hry'.isRoot
      have := inv.sets
      simp only [List.length_append, List.length_singleton]
      omega
    · rw [List.reverse_append]
      exact SeqForest.cons inv.forest
        (fun h => hnc (Conn.mono (fun g hg => List.mem_reverse.1 hg) h))
    · rw [weight_append, inv.cost, wrap32_add_left]; simp [weight]
    · intro g hg
      rcases List.mem_append.1 hg with hg | hg
      · exact List.mem_append_left _ (inv.sub g hg)
      · exact List.mem_append_right _ hg

/-- The scan of a weight-sorted list succeeds and keeps the invariant. -/
theorem scan_spec {n : Nat} : ∀ (rest P : List Edge) (S : DSU) (c : Int) (tree : List Edge),
    ScanInv n P S c tree → ValidEdges n rest → (∀ p ∈ P, ∀ f ∈ rest, p.w ≤ f.w) →
    rest.Pairwise (fun a b => a.w ≤ b.w) →
    ∃ S' c' tree', scan rest S c tree = some (S', c', tree') ∧
      ScanInv n (P ++ rest) S' c' tree' := by
  intro rest
  induction rest with
  | nil =>
    intro P S c tree inv _ _ _
    exact ⟨S, c, tree, rfl, by simpa using inv⟩
  | cons e rest ih =>
    intro P S c tree inv hvalid hP hsorted
    obtain ⟨hu, hv⟩ := hvalid e (List.mem_cons_self _ _)
    have hvalid' : ValidEdges n rest := fun g hg => hvalid g (List.mem_cons_of_mem _ hg)
    have hP' : ∀ p ∈ P ++ [e], ∀ f ∈ rest, p.w ≤ f.w := by
      intro p hp f hf
      rcases List.mem_append.1 hp with hp | hp
      · exact hP p hp f (List.mem_cons_of_mem _ hf)
      · simp only [List.mem_singleton] at hp
        subst hp
        exact List.rel_of_pairwise_cons hsorted hf
    have hsorted' := List.Pairwise.of_cons hsorted
    obtain ⟨rx, ry, S₁, S₂, hf1, hf2, _, _, hcase⟩ :=
      scan_step inv hu hv (fun p hp => hP p hp e (List.mem_cons_self _ _))
    rcases hcase with ⟨heq, inv'⟩ | ⟨hne, S₃, hun, inv'⟩
    · obtain ⟨S', c', tree', hs, hinv⟩ := ih _ _ _ _ inv' hvalid' hP' hsorted'
      refine ⟨S', c', tree', ?_, by simpa using hinv⟩
      simp [scan, hf1, hf2, heq, hs]
    · obtain ⟨S', c', tree', hs, hinv⟩ := ih _ _ _ _ inv' hvalid' hP' hsorted'
      refine ⟨S', c', tree', ?_, by simpa using hinv⟩
      simp [scan, hf1, hf2, hne, hun, hs]

theorem IsStdSort.sorted_w {sortW : List Edge → List Edge} (h : IsStdSort Edge.ltW sortW)
    (l : List Edge) : (sortW l).Pairwise (fun a b => a.w ≤ b.w) :=
  (h l).2.imp (fun {a b} hab => by unfold Edge.ltW at hab; omega)

/-- The selection phase succeeds on valid input; its result satisfies the invariant for the
whole edge list. -/
theorem select_spec {sortW : List Edge → List Edge} (hW : IsStdSort Edge.ltW sortW)
    {V : Nat} {edges : List Edge} (hv : ValidEdges V edges) :
    ∃ S c tree, select sortW V edges = some (S, c, tree) ∧ ScanInv V edges S c tree := by
  have hperm := (hW edges).1
  obtain ⟨S, c, tree, hs, inv⟩ := scan_spec (sortW edges) [] (DSU.new V) 0 []
    (scanInv_init V) (fun e he => hv e (hperm.mem_iff.1 he)) (fun p hp => by simp at hp)
    (IsStdSort.sorted_w hW edges)
  refine ⟨S, c, tree, hs, inv.wf, inv.repr, inv.sets, inv.forest, inv.cost, ?_, ?_⟩
  · intro e he
    exact hperm.mem_iff.1 (by simpa using inv.sub e he)
  · exact ThresholdSpanning.perm_graph (by simpa using inv.spanning) hperm

/-! ## Reachable states -/

theorem DSU.Reachable.wellFormed {n : Nat} {S : DSU} (h : DSU.Reachable n S) : S.WF n := by
  induction h with
  | init => exact new_wf n
  | @find S S' x r _ hx hf ih =>
    obtain ⟨r', S'', hf', _, hc⟩ := findSet_spec ih hx
    rw [hf] at hf'
    simp only [Option.some.injEq, Prod.mk.injEq] at hf'
    rw [hf'.2]
    exact hc.wf_of ih
  | @union S S' x y _ hx hy hu ih =>
    obtain ⟨S'', _, _, hu', hwf, _⟩ := unionSet_spec ih hx hy
    rw [hu] at hu'
    simp only [Option.some.injEq] at hu'
    rw [hu']
    exact hwf

theorem rep_spec {n : Nat} {S : DSU} (hS : S.WF n) {x : Nat} (hx : x < n) :
    ∃ r, S.rep x = some r ∧ r < n ∧ RootOf S.parent x r := by
  obtain ⟨r, S', hf, hr, _⟩ := findSet_spec hS hx
  exact ⟨r, by simp [DSU.rep, hf], (hS.root_lt hr hx).1, hr⟩

theorem rep_eq_of_rootOf {n : Nat} {S : DSU} (hS : S.WF n) {x r : Nat} (hx : x < n)
    (hr : RootOf S.parent x r) : S.rep x = some r := by
  obtain ⟨r', h1, _, h2⟩ := rep_spec hS hx
  rw [h1, h2.unique hr]

theorem rep_eq_iff {n : Nat} {S : DSU} (hS : S.WF n) {a b : Nat} (ha : a < n) (hb : b < n) :
    S.rep a = S.rep b ↔ S.Same a b := by
  obtain ⟨ra, h1, _, hra⟩ := rep_spec hS ha
  obtain ⟨rb, h2, _, hrb⟩ := rep_spec hS hb
  rw [h1, h2, same_iff_of_roots hra hrb]
  simp

theorem RootOf.reach {S : DSU} {x r : Nat} (h : RootOf S.parent x r) :
    Relation.ReflTransGen S.Step x r := by
  induction h with
  | root _ => exact Relation.ReflTransGen.refl
  | step hs _ ih => exact Relation.ReflTransGen.head hs ih

theorem Compresses.rep_eq {n : Nat} {S S' : DSU} (hS : S.WF n) (hc : Compresses S S')
    {y : Nat} (hy : y < n) : S'.rep y = S.rep y := by
  obtain ⟨r, h1, _, hr⟩ := rep_spec hS hy
  rw [h1]
  exact rep_eq_of_rootOf (hc.wf_of hS) hy (hc.rootOf hr)

/-! ## Sequences of calls -/

theorem mem_edgesOf {ops : List Op} {e : Edge} :
    e ∈ edgesOf ops ↔ ∃ x y, Op.union x y ∈ ops ∧ e = ⟨x, y, 0⟩ := by
  induction ops with
  | nil => simp [edgesOf]
  | cons op ops ih =>
    cases op with
    | find z =>
      simp only [edgesOf, ih, List.mem_cons, false_or, reduceCtorEq]
    | union a b =>
      simp only [edgesOf, List.mem_cons, ih, Op.union.injEq]
      constructor
      · rintro (rfl | ⟨x, y, h, rfl⟩)
        · exact ⟨a, b, Or.inl ⟨rfl, rfl⟩, rfl⟩
        · exact ⟨x, y, Or.inr h, rfl⟩
      · rintro ⟨x, y, (⟨rfl, rfl⟩ | h), rfl⟩
        · exact Or.inl rfl
        · exact Or.inr ⟨x, y, h, rfl⟩

theorem conn_edgesOf_iff (ops : List Op) (a b : Nat) :
    Conn (edgesOf ops) a b ↔ Relation.EqvGen (unioned ops) a b := by
  constructor
  · intro h
    refine Relation.EqvGen.mono (fun x y hxy => ?_) h
    obtain ⟨e, he, rfl, rfl⟩ := hxy
    obtain ⟨x, y, hm, rfl⟩ := mem_edgesOf.1 he
    exact hm
  · intro h
    refine Relation.EqvGen.mono (fun x y hxy => ?_) h
    exact ⟨⟨x, y, 0⟩, mem_edgesOf.2 ⟨x, y, hxy, rfl⟩, rfl, rfl⟩

theorem runOps_spec {n : Nat} : ∀ (ops : List Op) (S : DSU) (F : List Edge), S.WF n →
    Represents n S F → (∀ op ∈ ops, op.Valid n) →
    ∃ S', S.runOps ops = some S' ∧ S'.WF n ∧ Represents n S' (edgesOf ops ++ F) := by
  intro ops
  induction ops with
  | nil =>
    intro S F hS hR _
    exact ⟨S, rfl, hS, by simpa [edgesOf] using hR⟩
  | cons op ops ih =>
    intro S F hS hR hv
    have hv' : ∀ op ∈ ops, op.Valid n := fun o ho => hv o (List.mem_cons_of_mem _ ho)
    have hop := hv op (List.mem_cons_self _ _)
    cases op with
    | find x =>
      obtain ⟨r, S₁, hf, _, hc⟩ := findSet_spec hS (show x < n from hop)
      obtain ⟨S', hrun, hS', hR'⟩ := ih S₁ F (hc.wf_of hS) (hR.of_compresses hc) hv'
      exact ⟨S', by simp [DSU.runOps, hf, hrun], hS', by simpa [edgesOf] using hR'⟩
    | union x y =>
      obtain ⟨hx, hy⟩ : x < n ∧ y < n := hop
      obtain ⟨S₁, rx, ry, hu, hS₁, _, hrx, hry, hcase⟩ := unionSet_spec hS hx hy
      have hR₁ : Represents n S₁ (⟨x, y, 0⟩ :: F) :=
        Represents.union hS hR (e := ⟨x, y, 0⟩) hx hy hrx hry hcase
      obtain ⟨S', hrun, hS', hR'⟩ := ih S₁ _ hS₁ hR₁ hv'
      refine ⟨S', by simp [DSU.runOps, hu, hrun], hS', hR'.congr_edges (fun e => ?_)⟩
      simp only [edgesOf, List.mem_append, List.mem_cons]
      tauto

/-! ## Properties of the DSU -/

/-- C4: starting from `DSU(n)`, where `findSet(x) = x` for every `x` in `[0, n)`, any finite
sequence of `unionSet` / `findSet` calls with arguments in `[0, n)` runs without failure,
and afterwards `findSet(x) == findSet(y)` (the two calls made one after the other, or each
on the state reached) holds exactly when `x` and `y` are related by the
reflexive-symmetric-transitive closure of the unioned pairs. -/
theorem dsu_same_rep_iff_unioned (n : Nat) (ops : List Op) (hops : ∀ op ∈ ops, op.Valid n) :
    (∀ x < n, (DSU.new n).rep x = some x) ∧
    ∃ S, (DSU.new n).runOps ops = some S ∧
      ∀ x < n, ∀ y < n, ∃ rx ry, S.rep x = some rx ∧ S.rep y = some ry ∧
        (∃ S₁ S₂, S.findSet x = some (rx, S₁) ∧ S₁.findSet y = some (ry, S₂)) ∧
        (rx = ry ↔ Relation.EqvGen (unioned ops) x y) := by
  refine ⟨fun x hx => rep_eq_of_rootOf (new_wf n) hx (new_rootOf hx), ?_⟩
  obtain ⟨S, hrun, hS, hR⟩ := runOps_spec ops (DSU.new n) [] (new_wf n) (new_represents n) hops
  refine ⟨S, hrun, fun x hx y hy => ?_⟩
  obtain ⟨rx, S₁, hf1, hrx, hc1⟩ := findSet_spec hS hx
  obtain ⟨ry, S₂, hf2, hry', _⟩ := findSet_spec (hc1.wf_of hS) hy
  have hry : RootOf S.parent y ry := hc1.rootOf_inv hry'
  refine ⟨rx, ry, rep_eq_of_rootOf hS hx hrx, rep_eq_of_rootOf hS hy hry,
    ⟨S₁, S₂, hf1, hf2⟩, ?_⟩
  rw [← same_iff_of_roots hrx hry, hR x hx y hy, ← conn_edgesOf_iff]
  exact Conn.congr (fun e => by simp)

/-- Witness for C4: three calls on `DSU(3)`. -/
theorem dsu_same_rep_iff_unioned_witness :
    (∀ op ∈ [Op.union 0 1, Op.find 1, Op.union 1 0], op.Valid 3) ∧
    ((∀ x < 3, (DSU.new 3).rep x = some x) ∧
    ∃ S, (DSU.new 3).runOps [Op.union 0 1, Op.find 1, Op.union 1 0] = some S ∧
      ∀ x < 3, ∀ y < 3, ∃ rx ry, S.rep x = some rx ∧ S.rep y = some ry ∧
        (∃ S₁ S₂, S.findSet x = some (rx, S₁) ∧ S₁.findSet y = some (ry, S₂)) ∧
        (rx = ry ↔ Relation.EqvGen (unioned [Op.union 0 1, Op.find 1, Op.union 1 0]) x y)) :=
  ⟨by decide, dsu_same_rep_iff_unioned 3 [Op.union 0 1, Op.find 1, Op.union 1 0] (by decide)⟩

/-- C7: in every state reachable from `DSU(n)` and for every `x` in `[0, n)`, `findSet(x)`
returns the root `r` of the tree of `x` (`parent[r] == -1`, reached from `x` by parent
pointers); the call changes no rank and does not change the partition: the number of sets
is the same and every `findSet(y)` returns the same representative after the call as
before it. -/
theorem findSet_returns_root_keeps_partition (n : Nat) (S : DSU) (hS : DSU.Reachable n S)
    (x : Nat) (hx : x < n) :
    ∃ r S', S.findSet x = some (r, S') ∧ r < n ∧ S.IsRoot r ∧
      Relation.ReflTransGen S.Step x r ∧ S'.rank = S.rank ∧ S'.numSets = S.numSets ∧
      ∀ y < n, ∃ ry, S.rep y = some ry ∧ S'.rep y = some ry := by
  have hwf := hS.wellFormed
  obtain ⟨r, S', hf, hr, hc⟩ := findSet_spec hwf hx
  refine ⟨r, S', hf, (hwf.root_lt hr hx).1, hr.isRoot, hr.reach, hc.1, hc.numSets_eq,
    fun y hy => ?_⟩
  obtain ⟨ry, h1, _, _⟩ := rep_spec hwf hy
  exact ⟨ry, h1, by rw [hc.rep_eq hwf hy, h1]⟩

theorem stateA_reachable : DSU.Reachable 3 stateA :=
  @DSU.Reachable.union 3 (DSU.new 3) stateA 0 1 DSU.Reachable.init (by decide) (by decide) rfl

theorem stateB_reachable : DSU.Reachable 3 stateB :=
  @DSU.Reachable.union 3 stateA stateB 1 2 stateA_reachable (by decide) (by decide) rfl

/-- Witness for C7: `findSet(2)` in the state after `unionSet(0, 1)`, `unionSet(1, 2)` on
`DSU(3)`. -/
theorem findSet_returns_root_keeps_partition_witness :
    DSU.Reachable 3 stateB ∧ 2 < 3 ∧
    ∃ r S', stateB.findSet 2 = some (r, S') ∧ r < 3 ∧ stateB.IsRoot r ∧
      Relation.ReflTransGen stateB.Step 2 r ∧ S'.rank = stateB.rank ∧
      S'.numSets = stateB.numSets ∧
      ∀ y < 3, ∃ ry, stateB.rep y = some ry ∧ S'.rep y = some ry :=
  ⟨stateB_reachable, by decide,
    findSet_returns_root_keeps_partition 3 stateB stateB_reachable 2 (by decide)⟩

/-- C8: in every reachable state and for `x`, `y` in `[0, n)`, `unionSet(x, y)` succeeds.
If `findSet(x) != findSet(y)`, two vertices are in the same set afterwards exactly when they
were before or one was in the set of `x` and the other in the set of `y`; every vertex
outside these two sets keeps its representative, and the number of sets drops by exactly
one.  If `findSet(x) == findSet(y)`, every representative, every rank and the number of
sets are unchanged. -/
theorem unionSet_merges_exactly_two_sets (n : Nat) (S : DSU) (hS : DSU.Reachable n S)
    (x y : Nat) (hx : x < n) (hy : y < n) :
    ∃ rx ry S', S.rep x = some rx ∧ S.rep y = some ry ∧ S.unionSet x y = some S' ∧
      (rx ≠ ry →
        (∀ a < n, ∀ b < n, (S'.rep a = S'.rep b ↔
          (S.rep a = S.rep b ∨ (S.rep a = S.rep x ∧ S.rep y = S.rep b) ∨
            (S.rep a = S.rep y ∧ S.rep x = S.rep b)))) ∧
        (∀ a < n, S.rep a ≠ S.rep x → S.rep a ≠ S.rep y → S'.rep a = S.rep a) ∧
        S'.numSets + 1 = S.numSets) ∧
      (rx = ry →
        (∀ a < n, S'.rep a = S.rep a) ∧ S'.rank = S.rank ∧ S'.numSets = S.numSets) := by
  have hwf := hS.wellFormed
  obtain ⟨S', rx, ry, hu, hwf', _, hrx, hry, hcase⟩ := unionSet_spec hwf hx hy
  have hrepx := rep_eq_of_rootOf hwf hx hrx
  have hrepy := rep_eq_of_rootOf hwf hy hry
  refine ⟨rx, ry, S', hrepx, hrepy, hu, fun hne => ?_, fun heq => ?_⟩
  · have key : ∀ {p q u v : Nat}, Linked S S' p q → RootOf S.parent u p → RootOf S.parent v q →
        p ≠ q → S.rep u = some p → S.rep v = some q →
        (∀ a < n, ∀ b < n, (S'.rep a = S'.rep b ↔
          (S.rep a = S.rep b ∨ (S.rep a = S.rep u ∧ S.rep v = S.rep b) ∨
            (S.rep a = S.rep v ∧ S.rep u = S.rep b)))) ∧
        (∀ a < n, S.rep a ≠ S.rep u → S.rep a ≠ S.rep v → S'.rep a = S.rep a) ∧
        S'.numSets + 1 = S.numSets := by
      intro p q u v hl hp hq _ hu' hv'
      have hu0 : u < n := by
        by_contra hc
        have : S.parent[u]? = none := List.getElem?_eq_none (by rw [hwf.plen]; omega)
        cases hp with
        | root h => rw [this] at h; cases h
        | step h _ => rw [this] at h; cases h
      have hv0 : v < n := by
        by_contra hc
        have : S.parent[v]? = none := List.getElem?_eq_none (by rw [hwf.plen]; omega)
        cases hq with
        | root h => rw [this] at h; cases h
        | step h _ => rw [this] at h; cases h
      refine ⟨fun a ha b hb => ?_, fun a ha h1 h2 => ?_, ?_⟩
      · rw [rep_eq_iff hwf' ha hb, rep_eq_iff hwf ha hb, rep_eq_iff hwf ha hu0,
          rep_eq_iff hwf hv0 hb, rep_eq_iff hwf ha hv0, rep_eq_iff hwf hu0 hb]
        exact hl.same_iff_merge hwf hp hq ha hb
      · obtain ⟨ra, hra, _, hroot⟩ := rep_spec hwf ha
        have hne1 : ra ≠ p := fun h => h1 (by rw [hra, hu', h])
        have := hl.1 a ra hroot
        rw [if_neg hne1] at this
        rw [hra]
        exact rep_eq_of_rootOf hwf' ha this
      · exact hl.numSets_succ (hwf'.plen.trans hwf.plen.symm) hp.isRoot
    rcases hcase with ⟨h, _⟩ | ⟨_, hl | hl⟩
    · exact absurd h hne
    · exact key hl hrx hry hne hrepx hrepy
    · obtain ⟨k1, k2, k3⟩ := key hl hry hrx (Ne.symm hne) hrepy hrepx
      refine ⟨fun a ha b hb => ?_, fun a ha h1 h2 => k2 a ha h2 h1, k3⟩
      rw [k1 a ha b hb]
      tauto
  · rcases hcase with ⟨_, hc⟩ | ⟨h, _⟩
    · exact ⟨fun a ha => hc.rep_eq hwf ha, hc.1, hc.numSets_eq⟩
    · exact absurd heq h

/-- Witness for C8: `unionSet(1, 2)` in the state after `unionSet(0, 1)` on `DSU(3)`. -/
theorem unionSet_merges_exactly_two_sets_witness :
    DSU.Reachable 3 stateA ∧ 1 < 3 ∧ 2 < 3 ∧
    ∃ rx ry S', stateA.rep 1 = some rx ∧ stateA.rep 2 = some ry ∧
      stateA.unionSet 1 2 = some S' ∧
      (rx ≠ ry →
        (∀ a < 3, ∀ b < 3, (S'.rep a = S'.rep b ↔
          (stateA.rep a = stateA.rep b ∨ (stateA.rep a = stateA.rep 1 ∧
            stateA.rep 2 = stateA.rep b) ∨
            (stateA.rep a = stateA.rep 2 ∧ stateA.rep 1 = stateA.rep b)))) ∧
        (∀ a < 3, stateA.rep a ≠ stateA.rep 1 → stateA.rep a ≠ stateA.rep 2 →
          S'.rep a = stateA.rep a) ∧
        S'.numSets + 1 = stateA.numSets) ∧
      (rx = ry →
        (∀ a < 3, S'.rep a = stateA.rep a) ∧ S'.rank = stateA.rank ∧
        S'.numSets = stateA.numSets) :=
  ⟨stateA_reachable, by decide, by decide,
    unionSet_merges_exactly_two_sets 3 stateA stateA_reachable 1 2 (by decide) (by decide)⟩

end Kruskal

/-! ## The concrete sort meets the contract of `std::sort` -/

theorem stdSort_ltW : IsStdSort Edge.ltW (stdSort Edge.ltW) := by
  intro l
  have h1 : IsTotal Edge (fun a b => ¬ Edge.ltW b a) :=
    ⟨fun a b => by unfold Edge.ltW; omega⟩
  have h2 : IsTrans Edge (fun a b => ¬ Edge.ltW b a) :=
    ⟨fun a b c h h' => by unfold Edge.ltW at *; omega⟩
  exact ⟨List.perm_insertionSort _ l, List.sorted_insertionSort _ l⟩

theorem stdSort_ltUV : IsStdSort Edge.ltUV (stdSort Edge.ltUV) := by
  intro l
  have h1 : IsTotal Edge (fun a b => ¬ Edge.ltUV b a) :=
    ⟨fun a b => by unfold Edge.ltUV; split_ifs <;> omega⟩
  have h2 : IsTrans Edge (fun a b => ¬ Edge.ltUV b a) :=
    ⟨fun a b c h h' => by unfold Edge.ltUV at *; split_ifs at * <;> omega⟩
  exact ⟨List.perm_insertionSort _ l, List.sorted_insertionSort _ l⟩

theorem stdSort_pairLt : IsStdSort pairLt (stdSort pairLt) := by
  intro l
  have h1 : IsTotal (Int × Nat) (fun a b => ¬ pairLt b a) :=
    ⟨fun a b => by unfold pairLt; split_ifs <;> omega⟩
  have h2 : IsTrans (Int × Nat) (fun a b => ¬ pairLt b a) :=
    ⟨fun a b c h h' => by unfold pairLt at *; split_ifs at * <;> omega⟩
  exact ⟨List.perm_insertionSort _ l, List.sorted_insertionSort _ l⟩

theorem SeqForest.nodup {F : List Edge} (h : SeqForest F) : F.Nodup := by
  induction h with
  | nil => exact List.nodup_nil
  | cons _ hn ih => exact List.nodup_cons.2 ⟨fun hmem => hn (Conn.of_edge hmem), ih⟩

theorem abs_weight_le (es : List Edge) : |weight es| ≤ absWeight es := by
  induction es with
  | nil => simp [weight, absWeight]
  | cons e es ih =>
    have h1 : weight (e :: es) = e.w + weight es := by simp [weight]
    have h2 : absWeight (e :: es) = |e.w| + absWeight es := by simp [absWeight]
    rw [h1, h2]
    exact (abs_add _ _).trans (add_le_add_left ih _)

namespace Kruskal

theorem KruskalMST_of_select {sortW sortUV : List Edge → List Edge} {V : Nat}
    {edges : List Edge} {S : DSU} {c : Int} {tree : List Edge}
    (h : select sortW V edges = some (S, c, tree)) :
    KruskalMST sortW sortUV V edges =
      some ⟨c, tree.length, (sortUV tree).map (fun e => (e.u, e.v))⟩ := by
  simp [KruskalMST, h]

theorem ScanInv.tree_acyclic {n : Nat} {P : List Edge} {S : DSU} {c : Int} {tree : List Edge}
    (inv : ScanInv n P S c tree) : Acyclic tree :=
  inv.forest.acyclic.of_perm (List.reverse_perm tree)

theorem ScanInv.conn_iff {n : Nat} {P : List Edge} {S : DSU} {c : Int} {tree : List Edge}
    (inv : ScanInv n P S c tree) (x y : Nat) : Conn tree x y ↔ Conn P x y :=
  ⟨Conn.mono inv.sub, inv.spanning.conn⟩

theorem ScanInv.tree_components {n : Nat} {P : List Edge} {S : DSU} {c : Int}
    {tree : List Edge} (inv : ScanInv n P S c tree) : HasComponents n P S.numSets :=
  Represents.components inv.wf (fun a ha b hb => (inv.repr a ha b hb).trans (inv.conn_iff a b))

/-- The number of roots left by the selection phase is the number of components. -/
theorem hasComponents_of_select {sortW : List Edge → List Edge} (hW : IsStdSort Edge.ltW sortW)
    {V : Nat} {edges : List Edge} (hv : ValidEdges V edges) {S : DSU} {c : Int}
    {tree : List Edge} (h : select sortW V edges = some (S, c, tree)) :
    HasComponents V edges S.numSets := by
  obtain ⟨S', c', tree', h', inv⟩ := select_spec hW hv
  rw [h] at h'
  simp only [Option.some.injEq, Prod.mk.injEq] at h'
  obtain ⟨rfl, rfl, rfl⟩ := h'
  exact inv.tree_components

/-- Every accepted edge was scanned in a state in which its endpoints had different
representatives. -/
theorem scan_trace {n : Nat} : ∀ (L P : List Edge) (S : DSU) (c : Int) (tree : List Edge),
    ScanInv n P S c tree → ValidEdges n L → (∀ p ∈ P, ∀ f ∈ L, p.w ≤ f.w) →
    L.Pairwise (fun a b => a.w ≤ b.w) →
    ∀ S' c' tree', scan L S c tree = some (S', c', tree') →
    ∃ acc, tree' = tree ++ acc ∧ ∀ a₁ e a₂, acc = a₁ ++ e :: a₂ →
      ∃ L₁ L₂ S₀ c₀, L = L₁ ++ e :: L₂ ∧ scan L₁ S c tree = some (S₀, c₀, tree ++ a₁) ∧
        ∃ rx ry, S₀.rep e.u = some rx ∧ S₀.rep e.v = some ry ∧ rx ≠ ry := by
  intro L
  induction L with
  | nil =>
    intro P S c tree _ _ _ _ S' c' tree' hs
    simp only [scan, Option.some.injEq, Prod.mk.injEq] at hs
    refine ⟨[], by simp [hs.2.2], fun a₁ e a₂ h => ?_⟩
    simp at h
  | cons e rest ih =>
    intro P S c tree inv hvalid hP hsorted S' c' tree' hs
    obtain ⟨hu, hv⟩ := hvalid e (List.mem_cons_self _ _)
    have hvalid' : ValidEdges n rest := fun g hg => hvalid g (List.mem_cons_of_mem _ hg)
    have hP' : ∀ p ∈ P ++ [e], ∀ f ∈ rest, p.w ≤ f.w := by
      intro p hp f hf
      rcases List.mem_append.1 hp with hp | hp
      · exact hP p hp f (List.mem_cons_of_mem _ hf)
      · simp only [List.mem_singleton] at hp
        subst hp
        exact List.rel_of_pairwise_cons hsorted hf
    have hsorted' := List.Pairwise.of_cons hsorted
    obtain ⟨rx, ry, S₁, S₂, hf1, hf2, hrx, hry, hcase⟩ :=
      scan_step inv hu hv (fun p hp => hP p hp e (List.mem_cons_self _ _))
    rcases hcase with ⟨heq, inv'⟩ | ⟨hne, S₃, hun, inv'⟩
    · have hs' : scan rest S₂ c tree = some (S', c', tree') := by
        simpa [scan, hf1, hf2, heq] using hs
      obtain ⟨acc, hacc, htr⟩ := ih _ _ _ _ inv' hvalid' hP' hsorted' _ _ _ hs'
      refine ⟨acc, hacc, fun a₁ f a₂ hsplit => ?_⟩
      obtain ⟨L₁, L₂, S₀, c₀, hL, hscan, hrep⟩ := htr a₁ f a₂ hsplit
      exact ⟨e :: L₁, L₂, S₀, c₀, by simp [hL], by simpa [scan, hf1, hf2, heq] using hscan, hrep⟩
    · have hs' : scan rest S₃ (wrap32 (c + e.w)) (tree ++ [e]) = some (S', c', tree') := by
        simpa [scan, hf1, hf2, hne, hun] using hs
      obtain ⟨acc, hacc, htr⟩ := ih _ _ _ _ inv' hvalid' hP' hsorted' _ _ _ hs'
      refine ⟨e :: acc, by simp [hacc], fun a₁ f a₂ hsplit => ?_⟩
      cases a₁ with
      | nil =>
        simp only [List.nil_append, List.cons.injEq] at hsplit
        obtain ⟨rfl, _⟩ := hsplit
        exact ⟨[], rest, S, c, rfl, by simp [scan], rx, ry,
          rep_eq_of_rootOf inv.wf hu hrx, rep_eq_of_rootOf inv.wf hv hry, hne⟩
      | cons g a₁ =>
        simp only [List.cons_append, List.cons.injEq] at hsplit
        obtain ⟨rfl, hsplit⟩ := hsplit
        obtain ⟨L₁, L₂, S₀, c₀, hL, hscan, hrep⟩ := htr a₁ f a₂ hsplit
        exact ⟨e :: L₁, L₂, S₀, c₀, by simp [hL],
          by simpa [scan, hf1, hf2, hne, hun] using hscan, hrep⟩

/-- The accepted edges are distinct edges of the input, so their absolute weights sum to
at most the sum over the input. -/
theorem ScanInv.absWeight_tree_le {n : Nat} {P : List Edge} {S : DSU} {c : Int}
    {tree : List Edge} (inv : ScanInv n P S c tree) : absWeight tree ≤ absWeight P := by
  have hnd : tree.Nodup := List.nodup_reverse.1 inv.forest.nodup
  have hsub : tree.Subperm P := List.subperm_of_subset hnd (fun e he => inv.sub e he)
  obtain ⟨l, hl, hlP⟩ := hsub
  have h1 : absWeight l = absWeight tree := by
    unfold absWeight
    exact (hl.map _).sum_eq
  rw [← h1]
  unfold absWeight
  exact (hlP.map _).sum_le_sum (fun a ha => by
    obtain ⟨e, _, rfl⟩ := List.mem_map.1 ha
    exact abs_nonneg _)

/-! ## Properties of `KruskalMST` -/

/-- C2, as amended: on every graph with `V ≥ 0` vertices, valid endpoints and integer
weights, `KruskalMST` succeeds and the accepted edges form a spanning forest of the graph
(edges of the graph, acyclic, joining two vertices iff the graph connects them) whose total
weight is at most the total weight of every spanning forest of the graph; the reported
`minCost` is that total weight reduced to the 32-bit range, and when the absolute values of
the weights sum to at most `2^31 - 1` it is the sum of the accepted weights itself and is
at most the total weight of every spanning forest of the graph. -/
theorem kruskal_minimum_spanning_forest (sortW sortUV : List Edge → List Edge)
    (hW : IsStdSort Edge.ltW sortW) (V : Nat) (edges : List Edge) (hv : ValidEdges V edges) :
    ∃ S tree out, select sortW V edges = some (S, out.minCost, tree) ∧
      KruskalMST sortW sortUV V edges = some out ∧
      IsSpanningForest edges tree ∧
      (∀ T, IsSpanningForest edges T → weight tree ≤ weight T) ∧
      out.minCost = wrap32 (weight tree) ∧
      (absWeight edges < 2147483648 →
        out.minCost = weight tree ∧ ∀ T, IsSpanningForest edges T → out.minCost ≤ weight T) := by
  obtain ⟨S, c, tree, hsel, inv⟩ := select_spec hW hv
  have hmin : ∀ T, IsSpanningForest edges T → weight tree ≤ weight T := fun T hT =>
    weight_le_of_thresholdSpanning hv (fun e he => HasEdge.of_mem (inv.sub e he))
      inv.tree_acyclic.seqForest inv.spanning (fun e he => HasEdge.of_mem (hT.1 e he))
      hT.2.1.seqForest (fun x y h => (hT.2.2 x y).2 h)
  refine ⟨S, tree, _, hsel, KruskalMST_of_select hsel, ⟨inv.sub, inv.tree_acyclic, inv.conn_iff⟩,
    hmin, inv.cost, fun hb => ?_⟩
  have habs := abs_le.1 ((abs_weight_le tree).trans (inv.absWeight_tree_le))
  have hc : c = weight tree := by
    rw [inv.cost]
    exact wrap32_of_range (by omega) (by omega)
  exact ⟨hc, fun T hT => by simp only [hc]; exact hmin T hT⟩

/-- Witness for the amended C2: the first scenario of the specification, whose weights sum
to `40`. -/
theorem kruskal_minimum_spanning_forest_witness :
    IsStdSort Edge.ltW (stdSort Edge.ltW) ∧ ValidEdges 4 graphA ∧
    absWeight graphA < 2147483648 ∧
    ∃ S tree out, select (stdSort Edge.ltW) 4 graphA = some (S, out.minCost, tree) ∧
      KruskalMST (stdSort Edge.ltW) (stdSort Edge.ltUV) 4 graphA = some out ∧
      IsSpanningForest graphA tree ∧
      (∀ T, IsSpanningForest graphA T → weight tree ≤ weight T) ∧
      out.minCost = wrap32 (weight tree) ∧
      (absWeight graphA < 2147483648 →
        out.minCost = weight tree ∧ ∀ T, IsSpanningForest graphA T → out.minCost ≤ weight T) :=
  ⟨stdSort_ltW, by decide, by decide,
    kruskal_minimum_spanning_forest (stdSort Edge.ltW) (stdSort Edge.ltUV) stdSort_ltW 4 graphA
      (by decide)⟩

/-- Counterexample to C2 as stated: on the path with two edges of weight `-2 * 10^9` both
edges are accepted and form a spanning forest of total weight `-4 * 10^9`, but the 32-bit
`minCost` that is reported is `294967296`: it is not the sum of the accepted weights and it
is larger than the total weight of a spanning forest.  With two edges of weight `2 * 10^9`
the reported cost is `-294967296`, not `4 * 10^9`. -/
theorem kruskal_minimum_spanning_forest_counterexample :
    ValidEdges 3 graphH ∧
    (∃ S tree out, select (stdSort Edge.ltW) 3 graphH = some (S, out.minCost, tree) ∧
      KruskalMST (stdSort Edge.ltW) (stdSort Edge.ltUV) 3 graphH = some out ∧
      IsSpanningForest graphH tree ∧ out.minCost = 294967296 ∧
      weight tree = -4000000000 ∧ out.minCost ≠ weight tree ∧
      ¬ ∀ T, IsSpanningForest graphH T → out.minCost ≤ weight T) ∧
    KruskalMST (stdSort Edge.ltW) (stdSort Edge.ltUV) 3 graphI
      = some ⟨-294967296, 2, [(0, 1), (1, 2)]⟩ ∧
    weight graphI = 4000000000 := by
  have hv : ValidEdges 3 graphH := by decide
  obtain ⟨S, c, tree, hsel, inv⟩ := select_spec stdSort_ltW hv
  have hval : (select (stdSort Edge.ltW) 3 graphH).map (fun r => (r.2.1, r.2.2))
      = some (294967296, graphH) := by decide
  rw [hsel] at hval
  simp only [Option.map_some', Option.some.injEq, Prod.mk.injEq] at hval
  obtain ⟨hc, ht⟩ := hval
  subst hc ht
  have hsf : IsSpanningForest graphH graphH := ⟨inv.sub, inv.tree_acyclic, inv.conn_iff⟩
  have hw : weight graphH = -4000000000 := by decide
  refine ⟨hv, ⟨S, graphH, ⟨294967296, 2, [(0, 1), (1, 2)]⟩, hsel, by decide, hsf, rfl, hw,
    by rw [hw]; decide, fun h => ?_⟩, by decide, by decide⟩
  have := h graphH hsf
  rw [hw] at this
  exact absurd this (by decide)

/-- C3: on every graph with `V` vertices and valid endpoints (self-loops and parallel edges
allowed) that has `k` connected components, `KruskalMST` reports exactly `V - k` tree edges;
the accepted edges are acyclic, none is a self-loop, and every accepted edge was scanned in
a DSU state (the one reached after the edges sorted before it) in which its two endpoints
had different representatives. -/
theorem kruskal_count_and_acyclic (sortW sortUV : List Edge → List Edge)
    (hW : IsStdSort Edge.ltW sortW) (V : Nat) (edges : List Edge) (hv : ValidEdges V edges)
    (k : Nat) (hk : HasComponents V edges k) :
    ∃ S c tree out, select sortW V edges = some (S, c, tree) ∧
      KruskalMST sortW sortUV V edges = some out ∧ out.count = tree.length ∧
      out.count = V - k ∧ k ≤ V ∧ Acyclic tree ∧ (∀ e ∈ tree, e.u ≠ e.v) ∧
      ∀ t₁ e t₂, tree = t₁ ++ e :: t₂ →
        ∃ L₁ L₂ S₀ c₀, sortW edges = L₁ ++ e :: L₂ ∧
          scan L₁ (DSU.new V) 0 [] = some (S₀, c₀, t₁) ∧
          ∃ rx ry, S₀.rep e.u = some rx ∧ S₀.rep e.v = some ry ∧ rx ≠ ry := by
  obtain ⟨S, c, tree, hsel, inv⟩ := select_spec hW hv
  have hkS : k = S.numSets := hk.count_unique inv.tree_components
  have hsets := inv.sets
  have hperm := (hW edges).1
  obtain ⟨acc, hacc, htr⟩ := scan_trace (sortW edges) [] (DSU.new V) 0 [] (scanInv_init V)
    (fun e he => hv e (hperm.mem_iff.1 he)) (fun p hp => by simp at hp)
    (IsStdSort.sorted_w hW edges) S c tree hsel
  simp only [List.nil_append] at hacc htr
  subst hacc
  refine ⟨S, c, tree, _, hsel, KruskalMST_of_select hsel, rfl, by simp only; omega, by omega,
    inv.tree_acyclic, fun e he heq => ?_, htr⟩
  obtain ⟨l₁, l₂, hl⟩ := List.append_of_mem he
  exact inv.tree_acyclic l₁ e l₂ hl (by rw [heq]; exact Conn.refl _ _)

/-- Witness for C3: the disconnected second scenario has two components. -/
theorem kruskal_count_and_acyclic_witness :
    IsStdSort Edge.ltW (stdSort Edge.ltW) ∧ ValidEdges 4 graphB ∧ HasComponents 4 graphB 2 ∧
    ∃ S c tree out, select (stdSort Edge.ltW) 4 graphB = some (S, c, tree) ∧
      KruskalMST (stdSort Edge.ltW) (stdSort Edge.ltUV) 4 graphB = some out ∧
      out.count = tree.length ∧ out.count = 4 - 2 ∧ 2 ≤ 4 ∧ Acyclic tree ∧
      (∀ e ∈ tree, e.u ≠ e.v) ∧
      ∀ t₁ e t₂, tree = t₁ ++ e :: t₂ →
        ∃ L₁ L₂ S₀ c₀, stdSort Edge.ltW graphB = L₁ ++ e :: L₂ ∧
          scan L₁ (DSU.new 4) 0 [] = some (S₀, c₀, t₁) ∧
          ∃ rx ry, S₀.rep e.u = some rx ∧ S₀.rep e.v = some ry ∧ rx ≠ ry :=
  ⟨stdSort_ltW, by decide,
    hasComponents_of_select stdSort_ltW (by decide : ValidEdges 4 graphB)
      (rfl : select (stdSort Edge.ltW) 4 graphB = some (⟨[-1, 0, -1, 2], [2, 1, 2, 1]⟩, 10,
        [⟨0, 1, 3⟩, ⟨2, 3, 7⟩])),
    kruskal_count_and_acyclic (stdSort Edge.ltW) (stdSort Edge.ltUV) stdSort_ltW 4 graphB
      (by decide) 2
      (hasComponents_of_select stdSort_ltW (by decide : ValidEdges 4 graphB)
        (rfl : select (stdSort Edge.ltW) 4 graphB = some (⟨[-1, 0, -1, 2], [2, 1, 2, 1]⟩, 10,
          [⟨0, 1, 3⟩, ⟨2, 3, 7⟩])))⟩

/-- C9: on every valid graph the edge list written by `KruskalMST` is a permutation of the
accepted edges (edges of the input, printed with their endpoints as given), is in ascending
lexicographic `(u, v)` order, and its length is the reported tree-edge count.  On the first
scenario (`V = 4`, edges `(0,1,10), (0,2,6), (0,3,5), (1,3,15), (2,3,4)`) it reports cost
`19`, count `3` and the list `(0,1), (0,3), (2,3)`. -/
theorem kruskal_output_sorted_permutation (sortW sortUV : List Edge → List Edge)
    (hW : IsStdSort Edge.ltW sortW) (hUV : IsStdSort Edge.ltUV sortUV) (V : Nat)
    (edges : List Edge) (hv : ValidEdges V edges) :
    (∃ S c tree out, select sortW V edges = some (S, c, tree) ∧
      KruskalMST sortW sortUV V edges = some out ∧
      (∀ e ∈ tree, e ∈ edges) ∧
      out.lines.Perm (tree.map (fun e => (e.u, e.v))) ∧
      out.lines.Pairwise (fun a b => a.1 < b.1 ∨ (a.1 = b.1 ∧ a.2 ≤ b.2)) ∧
      out.lines.length = out.count ∧ out.count = tree.length) ∧
    KruskalMST (stdSort Edge.ltW) (stdSort Edge.ltUV) 4 graphA =
      some ⟨19, 3, [(0, 1), (0, 3), (2, 3)]⟩ := by
  refine ⟨?_, rfl⟩
  obtain ⟨S, c, tree, hsel, inv⟩ := select_spec hW hv
  refine ⟨S, c, tree, _, hsel, KruskalMST_of_select hsel, inv.sub, ?_, ?_, ?_, rfl⟩
  · exact (hUV tree).1.map _
  · simp only [List.pairwise_map]
    refine (hUV tree).2.imp (fun {a b} hab => ?_)
    unfold Edge.ltUV at hab
    split_ifs at hab <;> omega
  · simp [(hUV tree).1.length_eq]

/-- Witness for C9: the first scenario of the specification. -/
theorem kruskal_output_sorted_permutation_witness :
    IsStdSort Edge.ltW (stdSort Edge.ltW) ∧ IsStdSort Edge.ltUV (stdSort Edge.ltUV) ∧
    ValidEdges 4 graphA ∧
    ((∃ S c tree out, select (stdSort Edge.ltW) 4 graphA = some (S, c, tree) ∧
      KruskalMST (stdSort Edge.ltW) (stdSort Edge.ltUV) 4 graphA = some out ∧
      (∀ e ∈ tree, e ∈ graphA) ∧
      out.lines.Perm (tree.map (fun e => (e.u, e.v))) ∧
      out.lines.Pairwise (fun a b => a.1 < b.1 ∨ (a.1 = b.1 ∧ a.2 ≤ b.2)) ∧
      out.lines.length = out.count ∧ out.count = tree.length) ∧
    KruskalMST (stdSort Edge.ltW) (stdSort Edge.ltUV) 4 graphA =
      some ⟨19, 3, [(0, 1), (0, 3), (2, 3)]⟩) :=
  ⟨stdSort_ltW, stdSort_ltUV, by decide,
    kruskal_output_sorted_permutation (stdSort Edge.ltW) (stdSort Edge.ltUV) stdSort_ltW
      stdSort_ltUV 4 graphA (by decide)⟩

end Kruskal

/-! ## Lists as vectors -/

theorem getD_set_eq {α : Type} (l : List α) (i j : Nat) (a d : α) :
    (l.set i a).getD j d = if i = j ∧ i < l.length then a else l.getD j d := by
  simp only [List.getD_eq_getElem?_getD, List.getElem?_set]
  by_cases h : i = j
  · subst h
    by_cases h' : i < l.length
    · simp [h']
    · simp [h', List.getElem?_eq_none (not_lt.1 h')]
  · simp [h]

theorem getElem?_of_lt {α : Type} {l : List α} {i : Nat} (h : i < l.length) (d : α) :
    l[i]? = some (l.getD i d) := by
  simp [List.getD_eq_getElem?_getD, List.getElem?_eq_getElem h]

namespace Prim

/-! ## The priority queue -/

theorem foldl_min_spec (l : List (Int × Nat)) (a : Int × Nat) :
    (l.foldl (fun m b => if pairLt b m then b else m) a ∈ a :: l) ∧
      ∀ q ∈ a :: l, (l.foldl (fun m b => if pairLt b m then b else m) a).1 ≤ q.1 := by
  induction l generalizing a with
  | nil => simp
  | cons b l ih =>
    simp only [List.foldl_cons]
    obtain ⟨h1, h2⟩ := ih (if pairLt b a then b else a)
    constructor
    · rcases List.mem_cons.1 h1 with h | h
      · rw [h]
        split_ifs <;> simp
      · simp [h]
    · intro q hq
      have hmin : (if pairLt b a then b else a).1 ≤ a.1 ∧ (if pairLt b a then b else a).1 ≤ b.1 := by
        unfold pairLt
        split_ifs <;> constructor <;> omega
      have h0 := h2 _ (List.mem_cons_self _ _)
      rcases List.mem_cons.1 hq with rfl | hq
      · omega
      · rcases List.mem_cons.1 hq with rfl | hq
        · omega
        · exact h2 q (List.mem_cons_of_mem _ hq)

theorem pqTop_spec {pq : List (Int × Nat)} {top : Int × Nat} (h : pqTop pq = some top) :
    top ∈ pq ∧ ∀ q ∈ pq, top.1 ≤ q.1 := by
  cases pq with
  | nil => simp [pqTop] at h
  | cons a l =>
    simp only [pqTop, Option.some.injEq] at h
    subst h
    exact foldl_min_spec l a

theorem pqTop_eq_none {pq : List (Int × Nat)} (h : pqTop pq = none) : pq = [] := by
  cases pq with
  | nil => rfl
  | cons a l => simp [pqTop] at h

/-! ## Adjacency lists -/

theorem adjOK_init (V : Nat) : AdjOK V [] (List.replicate V []) := by
  refine ⟨by simp, fun x nbrs h v w => ?_⟩
  rw [List.getElem?_replicate] at h
  split at h
  · simp only [Option.some.injEq] at h
    subst h
    simp [HasEdge]
  · cases h

theorem hasEdge_cons {G : List Edge} {e : Edge} {a b : Nat} {w : Int} :
    HasEdge (e :: G) a b w ↔
      (e.w = w ∧ ((e.u = a ∧ e.v = b) ∨ (e.u = b ∧ e.v = a))) ∨ HasEdge G a b w := by
  simp [HasEdge]

theorem push_spec {adj : List (List (Nat × Int))} {R : Nat → Nat → Int → Prop}
    (h : ∀ x nbrs, adj[x]? = some nbrs → ∀ v w, (v, w) ∈ nbrs ↔ R x v w)
    {a : Nat} (ha : a < adj.length) (b : Nat) (w0 : Int) :
    ∃ l, adj[a]? = some l ∧ ∀ x nbrs, (adj.set a (l ++ [(b, w0)]))[x]? = some nbrs →
      ∀ v w, (v, w) ∈ nbrs ↔ (R x v w ∨ (x = a ∧ v = b ∧ w = w0)) := by
  refine ⟨adj[a], List.getElem?_eq_getElem ha, fun x nbrs hx v w => ?_⟩
  by_cases hax : a = x
  · subst hax
    rw [List.getElem?_set_self ha] at hx
    simp only [Option.some.injEq] at hx
    subst hx
    simp only [List.mem_append, List.mem_singleton, Prod.mk.injEq,
      h a _ (List.getElem?_eq_getElem ha) v w, true_and]
  · rw [List.getElem?_set_ne hax] at hx
    rw [h x nbrs hx v w]
    constructor
    · exact Or.inl
    · rintro (h1 | ⟨h1, _⟩)
      · exact h1
      · exact absurd h1.symm hax

theorem addEdge_spec {V : Nat} {G : List Edge} {adj : List (List (Nat × Int))}
    (h : AdjOK V G adj) {e : Edge} (hu : e.u < V) (hv : e.v < V) :
    ∃ adj', addEdge adj e = some adj' ∧ AdjOK V (e :: G) adj' := by
  obtain ⟨lu, hlu, h1⟩ := push_spec h.mem (by rw [h.len]; exact hu) e.v e.w
  obtain ⟨lv, hlv, h2⟩ := push_spec h1 (a := e.v) (by simp [h.len, hv]) e.u e.w
  refine ⟨(adj.set e.u (lu ++ [(e.v, e.w)])).set e.v (lv ++ [(e.u, e.w)]), ?_,
    by simp [h.len], fun x nbrs hx v w => ?_⟩
  · simp [addEdge, hlu, hlv]
  rw [h2 x nbrs hx v w, hasEdge_cons]
  constructor
  · rintro ((h3 | ⟨rfl, rfl, rfl⟩) | ⟨rfl, rfl, rfl⟩)
    · exact Or.inr h3
    · exact Or.inl ⟨rfl, Or.inl ⟨rfl, rfl⟩⟩
    · exact Or.inl ⟨rfl, Or.inr ⟨rfl, rfl⟩⟩
  · rintro (⟨rfl, (⟨rfl, rfl⟩ | ⟨rfl, rfl⟩)⟩ | h3)
    · exact Or.inl (Or.inr ⟨rfl, rfl, rfl⟩)
    · exact Or.inr ⟨rfl, rfl, rfl⟩
    · exact Or.inl (Or.inl h3)

theorem addEdges_spec {V : Nat} : ∀ (es G : List Edge) (adj : List (List (Nat × Int))),
    AdjOK V G adj → ValidEdges V es →
    ∃ adj', addEdges es adj = some adj' ∧ AdjOK V (es.reverse ++ G) adj' := by
  intro es
  induction es with
  | nil =>
    intro G adj h _
    exact ⟨adj, rfl, by simpa using h⟩
  | cons e es ih =>
    intro G adj h hv
    obtain ⟨hu, hw⟩ := hv e (List.mem_cons_self _ _)
    obtain ⟨adj1, h1, hok⟩ := addEdge_spec h hu hw
    obtain ⟨adj', h2, hok'⟩ := ih (e :: G) adj1 hok (fun g hg => hv g (List.mem_cons_of_mem _ hg))
    exact ⟨adj', by simp [addEdges, h1, h2], by simpa using hok'⟩

theorem AdjOK.congr_graph {V : Nat} {G G' : List Edge} {adj : List (List (Nat × Int))}
    (h : AdjOK V G adj) (hm : ∀ e, e ∈ G ↔ e ∈ G') : AdjOK V G' adj := by
  refine ⟨h.len, fun x nbrs hx v w => ?_⟩
  rw [h.mem x nbrs hx v w]
  unfold HasEdge
  simp only [hm]

theorem buildAdj_spec {V : Nat} {edges : List Edge} (hv : ValidEdges V edges) :
    ∃ adj, buildAdj V edges = some adj ∧ AdjOK V edges adj := by
  obtain ⟨adj, h1, h2⟩ := addEdges_spec edges [] _ (adjOK_init V) hv
  exact ⟨adj, h1, h2.congr_graph (fun e => by simp)⟩

/-! ## Visiting a vertex -/

theorem vis_lt {st : State} {v : Nat} (h : vis st v) : v < st.visited.length := by
  by_contra hc
  unfold vis at h
  rw [List.getElem?_eq_none (by omega)] at h
  cases h

theorem vis_set {st st' : State} {c : Nat} (hc : c < st.visited.length)
    (h : st'.visited = st.visited.set c true) (v : Nat) : vis st' v ↔ v = c ∨ vis st v := by
  unfold vis
  rw [h, List.getElem?_set]
  by_cases hv : c = v
  · subst hv; simp [hc]
  · simp [hv, Ne.symm hv]

theorem keyAt_congr {st st' : State} (h : st'.key = st.key) (v : Nat) :
    keyAt st' v = keyAt st v := by
  unfold keyAt; rw [h]

theorem parAt_congr {st st' : State} (h : st'.parent = st.parent) (v : Nat) :
    parAt st' v = parAt st v := by
  unfold parAt; rw [h]

theorem vis_congr {st st' : State} (h : st'.visited = st.visited) (v : Nat) :
    vis st' v ↔ vis st v := by
  unfold vis; rw [h]

theorem INF_pos : (0 : Int) < INF := by unfold INF; omega

/-- The popped vertex has the least key among all edges leaving the visited set. -/
theorem crossing_min {V : Nat} {G : List Edge} {st : State} {F : List Edge}
    (hcore : PCore V G st F) (hrel : Relaxed G st (fun _ _ _ => True))
    (hv : ValidEdges V G) {top : Int × Nat} (htop : pqTop st.pq = some top)
    (hnv : ¬ vis st top.2) {a z : Nat} {w : Int} (ha : vis st a) (hz : ¬ vis st z)
    (he : HasEdge G a z w) : keyAt st top.2 ≤ w := by
  obtain ⟨hmem, hmin⟩ := pqTop_spec htop
  obtain ⟨_, hlt, hle⟩ := hcore.queue top hmem
  have hk := hle hnv
  have hzV : z < V := (he.valid hv).2
  have hzw := hrel z hz a w ha he trivial
  rcases hcore.pending z hzV hz with h | ⟨_, _, _, _, hq⟩
  · omega
  · have := hmin _ hq
    simp only at this
    omega

theorem visit_spec {V : Nat} {G : List Edge} {st st2 : State} {F : List Edge}
    (hcore : PCore V G st F) (hrel : Relaxed G st (fun _ _ _ => True))
    (hv : ValidEdges V G) {top : Int × Nat} (htop : pqTop st.pq = some top)
    (hnv : ¬ vis st top.2)
    (hkey : st2.key = st.key) (hpar : st2.parent = st.parent)
    (hvis : st2.visited = st.visited.set top.2 true) (hpq : st2.pq = st.pq.erase top)
    (hedges : st2.edges = st.edges + 1) :
    ∃ p : Nat, PCore V G st2 (⟨p, top.2, keyAt st top.2⟩ :: F) ∧
      Relaxed G st2 (fun a _ _ => a ≠ top.2) := by
  obtain ⟨hmem, hmin⟩ := pqTop_spec htop
  obtain ⟨hcV, hlt, hle⟩ := hcore.queue top hmem
  have hk := hle hnv
  have hcl : top.2 < st.visited.length := by rw [hcore.vlen]; exact hcV
  have hvs := vis_set hcl hvis
  have hka := keyAt_congr hkey
  have hpa := parAt_congr hpar
  have hmono : ∀ v, vis st v → vis st2 v := fun v h => (hvs v).2 (Or.inr h)
  have hunv : ∀ v, ¬ vis st2 v → v ≠ top.2 ∧ ¬ vis st v :=
    fun v h => ⟨fun hc => h ((hvs v).2 (Or.inl hc)), fun hc => h (hmono v hc)⟩
  rcases hcore.pending top.2 hcV hnv with h | ⟨p, hp, hpv, hpe, _⟩
  · omega
  have hc0 : top.2 ≠ 0 := fun h => hnv (h ▸ hcore.root)
  have hCM : ∀ {a z : Nat} {w : Int}, vis st a → ¬ vis st z → HasEdge G a z w →
      keyAt st top.2 ≤ w := fun ha hz he => crossing_min hcore hrel hv htop hnv ha hz he
  have hcross : ∀ {x : Nat} {t : Int}, Crossing G st2 x t → Crossing G st x t := by
    rintro x t ⟨z, w, hz, he, hw⟩
    exact ⟨z, w, (hunv z hz).2, he, hw⟩
  have hmonoF : ∀ {t : Int} {x y : Nat}, Conn (upTo t F) x y →
      Conn (upTo t (⟨p, top.2, keyAt st top.2⟩ :: F)) x y :=
    fun h => Conn.mono (fun e he => by
      rw [mem_upTo] at he ⊢
      exact ⟨List.mem_cons_of_mem _ he.1, he.2⟩) h
  have hnew : ∀ {t : Int}, keyAt st top.2 ≤ t →
      Conn (upTo t (⟨p, top.2, keyAt st top.2⟩ :: F)) p top.2 := fun ht =>
    (Conn.of_edge (e := ⟨p, top.2, keyAt st top.2⟩)
      (mem_upTo.2 ⟨List.mem_cons_self _ _, ht⟩))
  have hpc : ∀ {t : Int}, keyAt st top.2 ≤ t → Crossing G st p t :=
    fun ht => ⟨top.2, _, hnv, hpe, ht⟩
  refine ⟨p, ?_, ?_⟩
  · refine
      { klen := by rw [hkey]; exact hcore.klen
        plen := by rw [hpar]; exact hcore.plen
        vlen := by rw [hvis, List.length_set]; exact hcore.vlen
        root := hmono 0 hcore.root
        rootKey := by rw [hka]; exact hcore.rootKey
        forest := SeqForest.cons hcore.forest ?_
        tree := ?_
        cover := ?_
        nodup := ?_
        conn := ?_
        count := by rw [hedges, hcore.count]; simp
        keyLe := fun v => by rw [hka]; exact hcore.keyLe v
        pending := ?_
        queue := ?_
        cut := ?_
        cyc := ?_ }
    · intro hc
      rcases Conn.of_endpoints (P := fun x => vis st x)
        (fun e he => ⟨(hcore.tree e he).2.2.1, (hcore.tree e he).2.1⟩) hc with h | ⟨_, h⟩
      · exact hnv (by simp only at h; rw [← h]; exact hpv)
      · exact hnv h
    · intro e he
      rcases List.mem_cons.1 he with rfl | he
      · exact ⟨hc0, (hvs _).2 (Or.inl rfl), hmono _ hpv, by rw [hpa]; exact hp,
          by rw [hka], hpe⟩
      · obtain ⟨h1, h2, h3, h4, h5, h6⟩ := hcore.tree e he
        exact ⟨h1, hmono _ h2, hmono _ h3, by rw [hpa]; exact h4, by rw [hka]; exact h5, h6⟩
    · intro v hvv hv0
      rcases (hvs v).1 hvv with rfl | h
      · exact ⟨_, List.mem_cons_self _ _, rfl⟩
      · obtain ⟨e, he, hev⟩ := hcore.cover v h hv0
        exact ⟨e, List.mem_cons_of_mem _ he, hev⟩
    · simp only [List.map_cons, List.nodup_cons]
      refine ⟨fun hc => ?_, hcore.nodup⟩
      obtain ⟨e, he, hev⟩ := List.mem_map.1 hc
      exact hnv (hev ▸ (hcore.tree e he).2.1)
    · intro v hvv
      rcases (hvs v).1 hvv with rfl | h
      · exact (Conn.mono (fun e he => List.mem_cons_of_mem _ he) (hcore.conn p hpv)).trans
          (Conn.of_edge (e := ⟨p, top.2, keyAt st top.2⟩) (List.mem_cons_self _ _))
      · exact Conn.mono (fun e he => List.mem_cons_of_mem _ he) (hcore.conn v h)
    · intro v hvV hvn
      obtain ⟨hne, hvn'⟩ := hunv v hvn
      rw [hka, hpa]
      rcases hcore.pending v hvV hvn' with h | ⟨q, hq1, hq2, hq3, hq4⟩
      · exact Or.inl h
      · refine Or.inr ⟨q, hq1, hmono _ hq2, hq3, ?_⟩
        rw [hpq]
        exact (List.mem_erase_of_ne (fun hc => hne (by rw [← hc]))).2 hq4
    · intro q hq
      rw [hpq] at hq
      obtain ⟨h1, h2, h3⟩ := hcore.queue q (List.mem_of_mem_erase hq)
      exact ⟨h1, h2, fun hn => by rw [hka]; exact h3 (hunv _ hn).2⟩
    · intro a b t ha hb hca hcb
      rcases (hvs a).1 ha with rfl | ha' <;> rcases (hvs b).1 hb with rfl | hb'
      · exact Conn.refl _ _
      · obtain ⟨z, w, hz, he, hw⟩ := hcb
        have hkt : keyAt st top.2 ≤ t := (hCM hb' (hunv z hz).2 he).trans hw
        exact ((hnew hkt).symm).trans
          (hmonoF (hcore.cut p b t hpv hb' (hpc hkt) (hcross ⟨z, w, hz, he, hw⟩)))
      · obtain ⟨z, w, hz, he, hw⟩ := hca
        have hkt : keyAt st top.2 ≤ t := (hCM ha' (hunv z hz).2 he).trans hw
        exact (hmonoF (hcore.cut a p t ha' hpv (hcross ⟨z, w, hz, he, hw⟩) (hpc hkt))).trans
          (hnew hkt)
      · exact hmonoF (hcore.cut a b t ha' hb' (hcross hca) (hcross hcb))
    · intro a b w ha hb he
      rcases (hvs a).1 ha with rfl | ha' <;> rcases (hvs b).1 hb with rfl | hb'
      · exact Conn.refl _ _
      · have hkw : keyAt st top.2 ≤ w := hCM hb' hnv he.swap
        exact ((hnew hkw).symm).trans
          (hmonoF (hcore.cut p b w hpv hb' (hpc hkw) ⟨top.2, w, hnv, he.swap, le_refl _⟩))
      · have hkw : keyAt st top.2 ≤ w := hCM ha' hnv he
        exact (hmonoF (hcore.cut a p w ha' hpv ⟨top.2, w, hnv, he, le_refl _⟩ (hpc hkw))).trans
          (hnew hkw)
      · exact hmonoF (hcore.cyc a b w ha' hb' he)
  · intro v hvn a w ha he hne
    obtain ⟨_, hvn'⟩ := hunv v hvn
    rcases (hvs a).1 ha with h | h
    · exact absurd h hne
    · rw [hka]
      exact hrel v hvn' a w h he trivial

/-! ## Skipping a stale queue entry -/

theorem skip_spec {V : Nat} {G : List Edge} {st st1 : State} {F : List Edge}
    (hcore : PCore V G st F) (hrel : Relaxed G st (fun _ _ _ => True))
    {top : Int × Nat} (hvt : vis st top.2)
    (hkey : st1.key = st.key) (hpar : st1.parent = st.parent)
    (hvis : st1.visited = st.visited) (hpq : st1.pq = st.pq.erase top)
    (hedges : st1.edges = st.edges) :
    PCore V G st1 F ∧ Relaxed G st1 (fun _ _ _ => True) := by
  have hvs := vis_congr hvis
  have hka := keyAt_congr hkey
  have hpa := parAt_congr hpar
  have hcross : ∀ {x : Nat} {t : Int}, Crossing G st1 x t → Crossing G st x t := by
    rintro x t ⟨z, w, hz, he, hw⟩
    exact ⟨z, w, fun h => hz ((hvs z).2 h), he, hw⟩
  constructor
  · refine
      { klen := by rw [hkey]; exact hcore.klen
        plen := by rw [hpar]; exact hcore.plen
        vlen := by rw [hvis]; exact hcore.vlen
        root := (hvs 0).2 hcore.root
        rootKey := by rw [hka]; exact hcore.rootKey
        forest := hcore.forest
        tree := ?_
        cover := fun v hv h0 => hcore.cover v ((hvs v).1 hv) h0
        nodup := hcore.nodup
        conn := fun v hv => hcore.conn v ((hvs v).1 hv)
        count := by rw [hedges]; exact hcore.count
        keyLe := fun v => by rw [hka]; exact hcore.keyLe v
        pending := ?_
        queue := ?_
        cut := fun a b t ha hb hca hcb =>
          hcore.cut a b t ((hvs a).1 ha) ((hvs b).1 hb) (hcross hca) (hcross hcb)
        cyc := fun a b w ha hb he => hcore.cyc a b w ((hvs a).1 ha) ((hvs b).1 hb) he }
    · intro e he
      obtain ⟨h1, h2, h3, h4, h5, h6⟩ := hcore.tree e he
      exact ⟨h1, (hvs _).2 h2, (hvs _).2 h3, by rw [hpa]; exact h4, by rw [hka]; exact h5, h6⟩
    · intro v hvV hvn
      rw [hka, hpa]
      rcases hcore.pending v hvV (fun h => hvn ((hvs v).2 h)) with h | ⟨q, hq1, hq2, hq3, hq4⟩
      · exact Or.inl h
      · refine Or.inr ⟨q, hq1, (hvs _).2 hq2, hq3, ?_⟩
        rw [hpq]
        refine (List.mem_erase_of_ne (fun hc => hvn ?_)).2 hq4
        rw [hvs]
        have : v = top.2 := by rw [← hc]
        rw [this]; exact hvt
    · intro q hq
      rw [hpq] at hq
      obtain ⟨h1, h2, h3⟩ := hcore.queue q (List.mem_of_mem_erase hq)
      exact ⟨h1, h2, fun hn => by rw [hka]; exact h3 (fun h => hn ((hvs _).2 h))⟩
  · intro v hvn a w ha he _
    rw [hka]
    exact hrel v (fun h => hvn ((hvs v).2 h)) a w ((hvs a).1 ha) he trivial

/-! ## Relaxing the neighbours -/

theorem Relaxed.weaken {G : List Edge} {st : State} {ok ok' : Nat → Nat → Int → Prop}
    (h : Relaxed G st ok) (himp : ∀ a v w, HasEdge G a v w → ok' a v w → ok a v w) :
    Relaxed G st ok' :=
  fun v hv a w ha he hok => h v hv a w ha he (himp a v w he hok)

theorem keyAt_set {st st' : State} {v : Nat} {w : Int} (hv : v < st.key.length)
    (h : st'.key = st.key.set v w) (x : Nat) :
    keyAt st' x = if x = v then w else keyAt st x := by
  unfold keyAt
  rw [h, getD_set_eq]
  by_cases hx : v = x
  · subst hx; simp [hv]
  · simp [hx, Ne.symm hx]

theorem parAt_set {st st' : State} {v : Nat} {p : Int} (hv : v < st.parent.length)
    (h : st'.parent = st.parent.set v p) (x : Nat) :
    parAt st' x = if x = v then p else parAt st x := by
  unfold parAt
  rw [h, getD_set_eq]
  by_cases hx : v = x
  · subst hx; simp [hv]
  · simp [hx, Ne.symm hx]

/-- The update `key[v] = w; pq.emplace(w, v); parent[v] = current;` keeps the invariant. -/
theorem relax_update {V : Nat} {G : List Edge} {st st' : State} {F : List Edge}
    {ok : Nat → Nat → Int → Prop} (hcore : PCore V G st F) (hrel : Relaxed G st ok)
    {c v : Nat} {w : Int} (hc : vis st c) (he : HasEdge G c v w) (hvV : v < V)
    (hgt : keyAt st v > w) (hnv : ¬ vis st v)
    (hkey : st'.key = st.key.set v w) (hpar : st'.parent = st.parent.set v (c : Int))
    (hvis : st'.visited = st.visited) (hpq : st'.pq = (w, v) :: st.pq)
    (hedges : st'.edges = st.edges) :
    PCore V G st' F ∧ Relaxed G st' (fun a x y => ok a x y ∨ (a = c ∧ x = v ∧ y = w)) := by
  have hvs := vis_congr hvis
  have hka := keyAt_set (by rw [hcore.klen]; exact hvV) hkey
  have hpa := parAt_set (by rw [hcore.plen]; exact hvV) hpar
  have hkle := hcore.keyLe v
  have hcross : ∀ {x : Nat} {t : Int}, Crossing G st' x t → Crossing G st x t := by
    rintro x t ⟨z, y, hz, hxe, hw⟩
    exact ⟨z, y, fun h => hz ((hvs z).2 h), hxe, hw⟩
  have hne_of_vis : ∀ x, vis st x → x ≠ v := fun x hx hxv => hnv (hxv ▸ hx)
  constructor
  · refine
      { klen := by rw [hkey, List.length_set]; exact hcore.klen
        plen := by rw [hpar, List.length_set]; exact hcore.plen
        vlen := by rw [hvis]; exact hcore.vlen
        root := (hvs 0).2 hcore.root
        rootKey := by rw [hka, if_neg (hne_of_vis 0 hcore.root)]; exact hcore.rootKey
        forest := hcore.forest
        tree := ?_
        cover := fun x hx h0 => hcore.cover x ((hvs x).1 hx) h0
        nodup := hcore.nodup
        conn := fun x hx => hcore.conn x ((hvs x).1 hx)
        count := by rw [hedges]; exact hcore.count
        keyLe := ?_
        pending := ?_
        queue := ?_
        cut := fun a b t ha hb hca hcb =>
          hcore.cut a b t ((hvs a).1 ha) ((hvs b).1 hb) (hcross hca) (hcross hcb)
        cyc := fun a b y ha hb hab => hcore.cyc a b y ((hvs a).1 ha) ((hvs b).1 hb) hab }
    · intro e hmem
      obtain ⟨h1, h2, h3, h4, h5, h6⟩ := hcore.tree e hmem
      have := hne_of_vis _ h2
      exact ⟨h1, (hvs _).2 h2, (hvs _).2 h3, by rw [hpa, if_neg this]; exact h4,
        by rw [hka, if_neg this]; exact h5, h6⟩
    · intro x
      rw [hka]
      split_ifs
      · omega
      · exact hcore.keyLe x
    · intro x hxV hxn
      rw [hka, hpa, hpq]
      by_cases hxv : x = v
      · subst hxv
        simp only [if_true]
        exact Or.inr ⟨c, rfl, (hvs c).2 hc, he, List.mem_cons_self _ _⟩
      · simp only [hxv, if_false]
        rcases hcore.pending x hxV (fun h => hxn ((hvs x).2 h)) with h | ⟨q, hq1, hq2, hq3, hq4⟩
        · exact Or.inl h
        · exact Or.inr ⟨q, hq1, (hvs _).2 hq2, hq3, List.mem_cons_of_mem _ hq4⟩
    · intro q hq
      rw [hpq] at hq
      rcases List.mem_cons.1 hq with rfl | hq
      · refine ⟨hvV, by simp only; omega, fun _ => ?_⟩
        rw [hka]; simp
      · obtain ⟨h1, h2, h3⟩ := hcore.queue q hq
        refine ⟨h1, h2, fun hn => ?_⟩
        have h3' := h3 (fun h => hn ((hvs _).2 h))
        rw [hka]
        split_ifs with hqv
        · rw [hqv] at h3'; omega
        · exact h3'
  · intro x hxn a y ha hxe hok
    have hxn' : ¬ vis st x := fun h => hxn ((hvs x).2 h)
    have ha' := (hvs a).1 ha
    rw [hka]
    split_ifs with hxv
    · rcases hok with hok | ⟨_, _, rfl⟩
      · have := hrel x hxn' a y ha' hxe hok
        rw [hxv] at this
        omega
      · exact le_refl _
    · rcases hok with hok | ⟨_, hxv', _⟩
      · exact hrel x hxn' a y ha' hxe hok
      · exact absurd hxv' hxv

/-- Leaving `key[v]` alone is right when the test `key[v] > w && !visited[v]` fails. -/
theorem relax_keep {G : List Edge} {st : State} {ok : Nat → Nat → Int → Prop}
    (hrel : Relaxed G st ok) {c v : Nat} {w : Int}
    (hno : ¬ (keyAt st v > w ∧ ¬ vis st v)) :
    Relaxed G st (fun a x y => ok a x y ∨ (a = c ∧ x = v ∧ y = w)) := by
  intro x hxn a y ha hxe hok
  rcases hok with hok | ⟨_, rfl, rfl⟩
  · exact hrel x hxn a y ha hxe hok
  · by_contra hc
    exact hno ⟨by omega, hxn⟩

theorem relax_spec {V : Nat} {G : List Edge} {F : List Edge} (hv : ValidEdges V G) {c : Nat} :
    ∀ (todo done : List (Nat × Int)) (st : State), PCore V G st F →
      Relaxed G st (okOf c done) → vis st c → (∀ q ∈ todo, HasEdge G c q.1 q.2) →
      ∃ st', relax c todo st = some st' ∧ PCore V G st' F ∧
        Relaxed G st' (okOf c (done ++ todo)) ∧ st'.visited = st.visited ∧
        st'.pq.length ≤ st.pq.length + todo.length := by
  intro todo
  induction todo with
  | nil =>
    intro done st hcore hrel _ _
    exact ⟨st, rfl, hcore, by simpa using hrel, rfl, by simp⟩
  | cons q todo ih =>
    intro done st hcore hrel hc hedge
    obtain ⟨v, w⟩ := q
    have he : HasEdge G c v w := hedge (v, w) (List.mem_cons_self _ _)
    have hvV : v < V := (he.valid hv).2
    have hedge' : ∀ q ∈ todo, HasEdge G c q.1 q.2 :=
      fun q hq => hedge q (List.mem_cons_of_mem _ hq)
    have hk : st.key[v]? = some (keyAt st v) :=
      getElem?_of_lt (by rw [hcore.klen]; exact hvV) _
    obtain ⟨b, hb⟩ : ∃ b, st.visited[v]? = some b :=
      ⟨_, List.getElem?_eq_getElem (by rw [hcore.vlen]; exact hvV)⟩
    have hweak : ∀ a x y, HasEdge G a x y → okOf c (done ++ [(v, w)]) a x y →
        okOf c done a x y ∨ (a = c ∧ x = v ∧ y = w) := by
      intro a x y _ h
      unfold okOf at h ⊢
      by_cases hac : a = c
      · rcases h with h | h
        · exact absurd hac h
        · rcases List.mem_append.1 h with h | h
          · exact Or.inl (Or.inr h)
          · simp only [List.mem_singleton, Prod.mk.injEq] at h
            exact Or.inr ⟨hac, h.1, h.2⟩
      · exact Or.inl (Or.inl hac)
    have hvb : vis st v ↔ b = true := by
      unfold vis; rw [hb]; simp
    by_cases hcond : keyAt st v > w ∧ b = false
    · have hnv : ¬ vis st v := by rw [hvb, hcond.2]; simp
      obtain ⟨st1, hst1⟩ : ∃ st1 : State, st1 =
          { key := st.key.set v w, parent := st.parent.set v (c : Int),
            visited := st.visited, pq := (w, v) :: st.pq, edges := st.edges } := ⟨_, rfl⟩
      have hupd : PCore V G st1 F ∧
          Relaxed G st1 (fun a x y => okOf c done a x y ∨ (a = c ∧ x = v ∧ y = w)) :=
        relax_update hcore hrel hc he hvV hcond.1 hnv (by rw [hst1]) (by rw [hst1])
          (by rw [hst1]) (by rw [hst1]) (by rw [hst1])
      obtain ⟨hcore', hrel'⟩ := hupd
      obtain ⟨st', hr, hcore'', hrel'', hvis, hlen⟩ :=
        ih (done ++ [(v, w)]) st1 hcore' (hrel'.weaken hweak)
          ((vis_congr (by rw [hst1]) c).2 hc) hedge'
      rw [hst1] at hr hvis hlen
      refine ⟨st', ?_, hcore'', by simpa using hrel'', hvis, ?_⟩
      · simp only [relax, hk, hb]
        rw [if_pos hcond]
        exact hr
      · simp only [List.length_cons] at hlen ⊢
        omega
    · have hno : ¬ (keyAt st v > w ∧ ¬ vis st v) := by
        rw [hvb]
        intro h
        exact hcond ⟨h.1, by simpa using h.2⟩
      obtain ⟨st', hr, hcore'', hrel'', hvis, hlen⟩ :=
        ih (done ++ [(v, w)]) st hcore ((relax_keep hrel hno).weaken hweak) hc hedge'
      refine ⟨st', ?_, hcore'', by simpa using hrel'', hvis, ?_⟩
      · simp only [relax, hk, hb]
        rw [if_neg hcond]
        exact hr
      · simp only [List.length_cons]
        omega

/-! ## Termination measure -/

theorem sum_length_eq (adj : List (List (Nat × Int))) :
    (adj.map List.length).sum = ∑ v in Finset.range adj.length, (adj.getD v []).length := by
  induction adj with
  | nil => simp
  | cons a l ih =>
    rw [List.length_cons, Finset.sum_range_succ', List.map_cons, List.sum_cons, ih]
    simp [List.getD_eq_getElem?_getD, add_comm]

theorem pend_visit {adj : List (List (Nat × Int))} {V : Nat} {st st2 : State} {c : Nat}
    (hc : c < V) (hnv : ¬ vis st c) (hvs : ∀ v, vis st2 v ↔ v = c ∨ vis st v) :
    pend adj V st2 + (adj.getD c []).length = pend adj V st := by
  unfold pend
  have hmem : c ∈ Finset.range V := Finset.mem_range.2 hc
  rw [← Finset.add_sum_erase _ _ hmem, ← Finset.add_sum_erase (Finset.range V) _ hmem]
  have h1 : (if vis st2 c then 0 else (adj.getD c []).length) = 0 := by
    rw [if_pos ((hvs c).2 (Or.inl rfl))]
  have h2 : (if vis st c then 0 else (adj.getD c []).length) = (adj.getD c []).length := by
    rw [if_neg hnv]
  have h3 : ∑ x in (Finset.range V).erase c, (if vis st2 x then 0 else (adj.getD x []).length) =
      ∑ x in (Finset.range V).erase c, (if vis st x then 0 else (adj.getD x []).length) := by
    refine Finset.sum_congr rfl (fun x hx => ?_)
    have hxc : x ≠ c := (Finset.mem_erase.1 hx).1
    have : vis st2 x ↔ vis st x := by rw [hvs x]; simp [hxc]
    simp only [this]
  rw [h1, h2, h3]
  omega

theorem pend_congr {adj : List (List (Nat × Int))} {V : Nat} {st st' : State}
    (h : st'.visited = st.visited) : pend adj V st' = pend adj V st := by
  unfold pend
  refine Finset.sum_congr rfl (fun x _ => ?_)
  simp only [vis_congr h]

/-! ## The `while` loop -/

theorem loop_spec {V : Nat} {G : List Edge} {adj : List (List (Nat × Int))}
    (hv : ValidEdges V G) (hadj : AdjOK V G adj) :
    ∀ (fuel : Nat) (st : State) (F : List Edge), PCore V G st F →
      Relaxed G st (fun _ _ _ => True) → loopMeasure adj V st ≤ fuel →
      ∃ st' F', loop adj fuel st = some st' ∧ PCore V G st' F' ∧
        Relaxed G st' (fun _ _ _ => True) ∧ st'.pq = [] := by
  intro fuel
  induction fuel with
  | zero =>
    intro st F hcore hrel hm
    have hpq : st.pq = [] := by
      unfold loopMeasure at hm
      exact List.length_eq_zero.1 (by omega)
    exact ⟨st, F, by simp [loop, hpq], hcore, hrel, hpq⟩
  | succ fuel ih =>
    intro st F hcore hrel hm
    cases htop : pqTop st.pq with
    | none =>
      exact ⟨st, F, by simp [loop, htop], hcore, hrel, pqTop_eq_none htop⟩
    | some top =>
      obtain ⟨hmem, _⟩ := pqTop_spec htop
      obtain ⟨hcV, _, _⟩ := hcore.queue top hmem
      have hlen : (st.pq.erase top).length + 1 = st.pq.length := by
        rw [List.length_erase_of_mem hmem]
        have := List.length_pos_of_mem hmem
        omega
      obtain ⟨b, hb⟩ : ∃ b, st.visited[top.2]? = some b :=
        ⟨_, List.getElem?_eq_getElem (by rw [hcore.vlen]; exact hcV)⟩
      cases b with
      | true =>
        have hskip : PCore V G { st with pq := st.pq.erase top } F ∧
            Relaxed G { st with pq := st.pq.erase top } (fun _ _ _ => True) :=
          skip_spec hcore hrel hb rfl rfl rfl rfl rfl
        obtain ⟨hcore1, hrel1⟩ := hskip
        have hm1 : loopMeasure adj V { st with pq := st.pq.erase top } ≤ fuel := by
          unfold loopMeasure at hm ⊢
          have : pend adj V { st with pq := st.pq.erase top } = pend adj V st :=
            pend_congr rfl
          simp only [this]
          omega
        obtain ⟨st', F', hl, h1, h2, h3⟩ := ih _ F hcore1 hrel1 hm1
        exact ⟨st', F', by simp [loop, htop, hb, hl], h1, h2, h3⟩
      | false =>
        have hnv : ¬ vis st top.2 := by unfold vis; rw [hb]; simp
        obtain ⟨st2, hst2⟩ : ∃ st2 : State, st2 =
            { key := st.key, parent := st.parent, visited := st.visited.set top.2 true,
              pq := st.pq.erase top, edges := st.edges + 1 } := ⟨_, rfl⟩
        have hvisit : ∃ p : Nat, PCore V G st2 (⟨p, top.2, keyAt st top.2⟩ :: F) ∧
            Relaxed G st2 (fun a _ _ => a ≠ top.2) :=
          visit_spec hcore hrel hv htop hnv (by rw [hst2]) (by rw [hst2]) (by rw [hst2])
            (by rw [hst2]) (by rw [hst2])
        obtain ⟨p, hcore2, hrel2⟩ := hvisit
        have hvs : ∀ v, vis st2 v ↔ v = top.2 ∨ vis st v :=
          vis_set (by rw [hcore.vlen]; exact hcV) (by rw [hst2])
        obtain ⟨nbrs, hn⟩ : ∃ nbrs, adj[top.2]? = some nbrs :=
          ⟨_, List.getElem?_eq_getElem (by rw [hadj.len]; exact hcV)⟩
        obtain ⟨st3, hr, hcore3, hrel3, hvis3, hlen3⟩ := relax_spec hv nbrs [] _ hcore2
          (hrel2.weaken (fun a x y _ h => by
            unfold okOf at h
            simpa using h))
          ((hvs top.2).2 (Or.inl rfl))
          (fun q hq => (hadj.mem _ _ hn q.1 q.2).1 hq)
        have hrel3' : Relaxed G st3 (fun _ _ _ => True) :=
          hrel3.weaken (fun a x y he _ => by
            unfold okOf
            by_cases hac : a = top.2
            · subst hac
              exact Or.inr (by simpa using (hadj.mem _ _ hn x y).2 he)
            · exact Or.inl hac)
        have hdeg : (adj.getD top.2 []).length = nbrs.length := by
          simp [List.getD_eq_getElem?_getD, hn]
        have hm3 : loopMeasure adj V st3 ≤ fuel := by
          unfold loopMeasure at hm ⊢
          have h1 : pend adj V st2 + (adj.getD top.2 []).length = pend adj V st :=
            pend_visit hcV hnv hvs
          have h2 : pend adj V st3 = pend adj V st2 := pend_congr hvis3
          have h4 : st2.pq.length + 1 = st.pq.length := by rw [hst2]; exact hlen
          rw [h2]
          rw [hdeg] at h1
          omega
        obtain ⟨st', F', hl, h1, h2, h3⟩ := ih _ _ hcore3 hrel3' hm3
        refine ⟨st', F', ?_, h1, h2, h3⟩
        rw [hst2] at hr
        simp [loop, htop, hb, hn, hr, hl]

/-! ## The first iteration -/

theorem vis_rootState {V : Nat} (hV : 0 < V) (v : Nat) : vis (rootState V) v ↔ v = 0 := by
  unfold vis rootState
  simp only [List.getElem?_set, List.length_replicate, List.getElem?_replicate]
  by_cases hv : 0 = v
  · subst hv; simp [hV]
  · simp only [hv, if_false]
    constructor
    · intro h
      split at h <;> simp at h
    · intro h
      exact absurd h.symm hv

theorem keyAt_rootState {V : Nat} (hV : 0 < V) (v : Nat) :
    keyAt (rootState V) v = if v = 0 then 0 else INF := by
  unfold keyAt rootState
  rw [getD_set_eq]
  by_cases hv : 0 = v
  · subst hv; simp [hV]
  · simp only [hv, Ne.symm hv, false_and, if_false, List.getD_eq_getElem?_getD,
      List.getElem?_replicate]
    split <;> rfl

theorem rootState_core {V : Nat} (G : List Edge) (hV : 0 < V) :
    PCore V G (rootState V) [] ∧ Relaxed G (rootState V) (okOf 0 []) := by
  have hvs := vis_rootState hV
  have hka := keyAt_rootState hV
  constructor
  · refine
      { klen := by simp [rootState]
        plen := by simp [rootState]
        vlen := by simp [rootState]
        root := (hvs 0).2 rfl
        rootKey := by rw [hka]; simp
        forest := SeqForest.nil
        tree := fun e he => by simp at he
        cover := fun v hv h0 => absurd ((hvs v).1 hv) h0
        nodup := by simp
        conn := fun v hv => by rw [(hvs v).1 hv]; exact Conn.refl _ _
        count := by simp [rootState]
        keyLe := fun v => by
          rw [hka]
          have := INF_pos
          split_ifs <;> omega
        pending := fun v _ hn => Or.inl (by
          rw [hka, if_neg (fun h => hn ((hvs v).2 h))])
        queue := fun q hq => by simp [rootState] at hq
        cut := fun a b t ha hb _ _ => by
          rw [(hvs a).1 ha, (hvs b).1 hb]; exact Conn.refl _ _
        cyc := fun a b w ha hb _ => by
          rw [(hvs a).1 ha, (hvs b).1 hb]; exact Conn.refl _ _ }
  · intro v _ a w ha _ hok
    unfold okOf at hok
    rcases hok with h | h
    · exact absurd ((hvs a).1 ha) h
    · simp at h

/-- The search succeeds on a valid graph with `V ≥ 1`; afterwards the queue is empty and
the invariant holds. -/
theorem search_spec {V : Nat} {G : List Edge} {adj : List (List (Nat × Int))}
    (hv : ValidEdges V G) (hadj : AdjOK V G adj) (hV : 0 < V) :
    ∃ st F, search V adj = some st ∧ PCore V G st F ∧
      Relaxed G st (fun _ _ _ => True) ∧ st.pq = [] := by
  obtain ⟨hcore2, hrel2⟩ := rootState_core G hV
  have hvs := vis_rootState hV
  obtain ⟨nbrs, hn⟩ : ∃ nbrs, adj[0]? = some nbrs :=
    ⟨_, List.getElem?_eq_getElem (by rw [hadj.len]; exact hV)⟩
  obtain ⟨st3, hr, hcore3, hrel3, hvis3, hlen3⟩ := relax_spec hv nbrs [] _ hcore2 hrel2
    ((hvs 0).2 rfl) (fun q hq => (hadj.mem _ _ hn q.1 q.2).1 hq)
  have hrel3' : Relaxed G st3 (fun _ _ _ => True) :=
    hrel3.weaken (fun a x y he _ => by
      unfold okOf
      by_cases hac : a = 0
      · subst hac
        exact Or.inr (by simpa using (hadj.mem _ _ hn x y).2 he)
      · exact Or.inl hac)
  have hdeg : (adj.getD 0 []).length = nbrs.length := by
    simp [List.getD_eq_getElem?_getD, hn]
  have hm3 : loopMeasure adj V st3 ≤ (adj.map List.length).sum := by
    unfold loopMeasure
    rw [sum_length_eq, hadj.len, pend_congr hvis3]
    have h0 : (0 : Nat) ∈ Finset.range V := Finset.mem_range.2 hV
    unfold pend
    rw [← Finset.add_sum_erase _ _ h0, ← Finset.add_sum_erase (Finset.range V) _ h0]
    rw [if_pos ((hvs 0).2 rfl), hdeg]
    have hle : ∑ x in (Finset.range V).erase 0,
        (if vis (rootState V) x then 0 else (adj.getD x []).length) ≤
        ∑ x in (Finset.range V).erase 0, (adj.getD x []).length :=
      Finset.sum_le_sum (fun x _ => by split_ifs <;> omega)
    have hpq : (rootState V).pq.length = 0 := by simp [rootState]
    omega
  obtain ⟨st', F', hl, h1, h2, h3⟩ := loop_spec hv hadj _ st3 _ hcore3 hrel3' hm3
  refine ⟨st', F', ?_, h1, h2, h3⟩
  have hvis0 : (List.replicate V false)[0]? = some false := by
    simp [List.getElem?_replicate, hV]
  unfold rootState at hr
  simp [search, initState, hV, loop, pqTop, hvis0, hn, hr, hl]

/-! ## The final state -/

theorem getElem?_visited {V : Nat} {G : List Edge} {st : State} {F : List Edge}
    (hcore : PCore V G st F) {i : Nat} (hi : i < V) :
    st.visited[i]? = some (decide (vis st i)) := by
  obtain ⟨b, hb⟩ : ∃ b, st.visited[i]? = some b :=
    ⟨_, List.getElem?_eq_getElem (by rw [hcore.vlen]; exact hi)⟩
  unfold vis
  simp only [hb]
  cases b <;> simp

theorem parent_of_visited {V : Nat} {G : List Edge} {st : State} {F : List Edge}
    (hcore : PCore V G st F) {v : Nat} (hv : vis st v) (h0 : v ≠ 0) :
    ∃ p : Nat, parAt st v = (p : Int) ∧ p < V ∧ vis st p ∧ HasEdge G p v (keyAt st v) := by
  obtain ⟨e, he, rfl⟩ := hcore.cover v hv h0
  obtain ⟨_, _, h3, h4, h5, h6⟩ := hcore.tree e he
  exact ⟨e.u, h4, by have := vis_lt h3; rw [hcore.vlen] at this; exact this, h3, by rw [h5]; exact h6⟩

theorem collect_spec {V : Nat} {G : List Edge} {st : State} {F : List Edge}
    (hcore : PCore V G st F) : ∀ (is : List Nat), (∀ i ∈ is, i < V) →
    collect st is = some ((is.filter (fun v => decide (v ≠ 0 ∧ vis st v))).map
      (fun v => (parAt st v, v))) := by
  intro is
  induction is with
  | nil => intro _; rfl
  | cons i is ih =>
    intro hlt
    have hi : i < V := hlt i (List.mem_cons_self _ _)
    have ih' := ih (fun j hj => hlt j (List.mem_cons_of_mem _ hj))
    have hvi := getElem?_visited hcore hi
    by_cases hcond : i ≠ 0 ∧ vis st i
    · obtain ⟨p, hp, hpV, hpv, _⟩ := parent_of_visited hcore hcond.2 hcond.1
      have hpar : st.parent[i]? = some (p : Int) := by
        rw [getElem?_of_lt (by rw [hcore.plen]; exact hi) NIL]
        exact congrArg some hp
      have hvp := getElem?_visited hcore hpV
      have hneg : ¬ (p : Int) < 0 := by omega
      simp only [collect, hvi, hpar, hneg, if_false, Int.toNat_ofNat, hvp, ih',
        List.filter_cons]
      simp [hcond, hpv, hp]
    · simp only [collect, hvi, ih', List.filter_cons]
      simp only [decide_eq_true_eq]
      rw [if_neg hcond]
      simp [hcond]

theorem treePairs_perm {V : Nat} {G : List Edge} {st : State} {F : List Edge}
    (hcore : PCore V G st F) :
    ((List.range V).filter (fun v => decide (v ≠ 0 ∧ vis st v))).Perm (F.map Edge.v) := by
  refine (List.perm_ext_iff_of_nodup ((List.nodup_range V).filter _) hcore.nodup).2 (fun a => ?_)
  simp only [List.mem_filter, List.mem_range, decide_eq_true_eq, List.mem_map]
  constructor
  · rintro ⟨_, h0, hv⟩
    exact hcore.cover a hv h0
  · rintro ⟨e, he, rfl⟩
    obtain ⟨h1, h2, _⟩ := hcore.tree e he
    exact ⟨by have := vis_lt h2; rw [hcore.vlen] at this; exact this, h1, h2⟩

theorem length_treePairs {V : Nat} {G : List Edge} {st : State} {F : List Edge}
    (hcore : PCore V G st F) : (treePairs st V).length = F.length := by
  unfold treePairs
  rw [List.length_map, (treePairs_perm hcore).length_eq, List.length_map]

/-! ## Results of a whole run -/

theorem list_sum_eq_sum_range (l : List Int) (d : Int) :
    l.sum = ∑ v in Finset.range l.length, l.getD v d := by
  induction l with
  | nil => simp
  | cons a l ih =>
    rw [List.length_cons, Finset.sum_range_succ', List.sum_cons, ih]
    simp [List.getD_eq_getElem?_getD, add_comm]

theorem foldl_wrap32 (l : List Int) (a : Int) :
    l.foldl (fun acc k => wrap32 (acc + k)) (wrap32 a) = wrap32 (a + l.sum) := by
  induction l generalizing a with
  | nil => simp
  | cons k l ih =>
    rw [List.foldl_cons, wrap32_add_left, ih, List.sum_cons, add_assoc]

/-- The cost loop yields the exact sum of the keys, reduced to the 32-bit range. -/
theorem sumKeys_eq (key : List Int) : sumKeys key = wrap32 key.sum := by
  have h := foldl_wrap32 key 0
  rw [zero_add] at h
  exact h

/-- A run of the constructor and of `PrimMST` on a valid graph with `V ≥ 1`. -/
theorem prim_run (sortP : List (Int × Nat) → List (Int × Nat)) {V : Nat} {edges : List Edge}
    (hV : 0 < V) (hv : ValidEdges V edges) :
    ∃ adj st F, buildAdj V edges = some adj ∧ search V adj = some st ∧
      PCore V edges st F ∧ Relaxed edges st (fun _ _ _ => True) ∧ st.pq = [] ∧
      PrimMST sortP V edges = some ⟨sumKeys st.key, st.edges, sortP (treePairs st V)⟩ := by
  obtain ⟨adj, hb, hadj⟩ := buildAdj_spec hv
  obtain ⟨st, F, hs, hcore, hrel, hpq⟩ := search_spec hv hadj hV
  refine ⟨adj, st, F, hb, hs, hcore, hrel, hpq, ?_⟩
  have hc := collect_spec hcore (List.range V) (fun i hi => List.mem_range.1 hi)
  simp [PrimMST, hb, primOn, hs, hc, treePairs]

/-- With an empty queue and weights below `INF`, the visited set is closed under edges. -/
theorem visited_closed {V : Nat} {G : List Edge} {st : State} {F : List Edge}
    (hv : ValidEdges V G) (hw : ∀ e ∈ G, e.w < INF)
    (hcore : PCore V G st F) (hrel : Relaxed G st (fun _ _ _ => True)) (hpq : st.pq = [])
    {a z : Nat} {w : Int} (ha : vis st a) (he : HasEdge G a z w) : vis st z := by
  by_contra hz
  have hk := hrel z hz a w ha he trivial
  have hwlt : w < INF := by
    obtain ⟨e, hmem, hew, _⟩ := he
    rw [← hew]; exact hw e hmem
  rcases hcore.pending z (he.valid hv).2 hz with h | ⟨_, _, _, _, hq⟩
  · omega
  · rw [hpq] at hq
    simp at hq

theorem vis_iff_conn {V : Nat} {G : List Edge} {st : State} {F : List Edge}
    (hv : ValidEdges V G) (hw : ∀ e ∈ G, e.w < INF)
    (hcore : PCore V G st F) (hrel : Relaxed G st (fun _ _ _ => True)) (hpq : st.pq = [])
    (v : Nat) : vis st v ↔ Conn G 0 v := by
  constructor
  · intro h
    exact Conn.le_of_conn (fun e he => (hcore.tree e he).2.2.2.2.2.toConn) (hcore.conn v h)
  · intro h
    have key : vis st 0 ↔ vis st v := by
      refine Conn.le_of_edges (R := fun a b => vis st a ↔ vis st b) (fun _ => Iff.rfl)
        (fun _ _ h => h.symm) (fun _ _ _ h₁ h₂ => h₁.trans h₂) (fun e he => ?_) h
      exact ⟨fun h => visited_closed hv hw hcore hrel hpq h (HasEdge.of_mem he),
        fun h => visited_closed hv hw hcore hrel hpq h (HasEdge.of_mem he).swap⟩
    exact key.1 hcore.root

/-- The visited set as a finite set: the root and the children of the tree edges. -/
theorem visited_finset {V : Nat} {G : List Edge} {st : State} {F : List Edge}
    (hcore : PCore V G st F) :
    (∀ v, v ∈ insert 0 (F.map Edge.v).toFinset ↔ vis st v) ∧
      (insert 0 (F.map Edge.v).toFinset).card = F.length + 1 := by
  have h0 : (0 : Nat) ∉ (F.map Edge.v).toFinset := by
    simp only [List.mem_toFinset, List.mem_map, not_exists, not_and]
    intro e he h
    exact (hcore.tree e he).1 h
  refine ⟨fun v => ?_, ?_⟩
  · simp only [Finset.mem_insert, List.mem_toFinset, List.mem_map]
    constructor
    · rintro (rfl | ⟨e, he, rfl⟩)
      · exact hcore.root
      · exact (hcore.tree e he).2.1
    · intro h
      by_cases hv0 : v = 0
      · exact Or.inl hv0
      · exact Or.inr (hcore.cover v h hv0)
  · rw [Finset.card_insert_of_not_mem h0, List.toFinset_card_of_nodup hcore.nodup,
      List.length_map]

/-- When every vertex is visited, the sum of all keys is the weight of the tree. -/
theorem key_sum_eq_weight {V : Nat} {G : List Edge} {st : State} {F : List Edge}
    (hcore : PCore V G st F) (hall : ∀ v < V, vis st v) : st.key.sum = weight F := by
  obtain ⟨hmem, _⟩ := visited_finset hcore
  have hset : Finset.range V = insert 0 (F.map Edge.v).toFinset := by
    ext v
    rw [hmem v, Finset.mem_range]
    exact ⟨hall v, fun h => by have := vis_lt h; rw [hcore.vlen] at this; exact this⟩
  have h0 : (0 : Nat) ∉ (F.map Edge.v).toFinset := by
    simp only [List.mem_toFinset, List.mem_map, not_exists, not_and]
    intro e he h
    exact (hcore.tree e he).1 h
  rw [list_sum_eq_sum_range st.key INF, hcore.klen, hset, Finset.sum_insert h0,
    List.sum_toFinset _ hcore.nodup]
  have hroot : st.key.getD 0 INF = 0 := hcore.rootKey
  rw [hroot, zero_add, List.map_map]
  unfold weight
  congr 1
  refine List.map_congr_left (fun e he => ?_)
  exact (hcore.tree e he).2.2.2.2.1

theorem upTo_mono_conn {F : List Edge} {w t : Int} (h : w ≤ t) {x y : Nat}
    (hc : Conn (upTo w F) x y) : Conn (upTo t F) x y :=
  Conn.mono (fun _ he => mem_upTo.2 ⟨(mem_upTo.1 he).1, (mem_upTo.1 he).2.trans h⟩) hc

/-- When every vertex is visited, the tree of `PrimMST` is threshold-spanning. -/
theorem prim_thresholdSpanning {V : Nat} {G : List Edge} {st : State} {F : List Edge}
    (hv : ValidEdges V G) (hcore : PCore V G st F) (hall : ∀ v < V, vis st v) :
    ThresholdSpanning G F := by
  intro t x y h
  refine Conn.le_of_conn (fun e he => ?_) h
  obtain ⟨hmem, hle⟩ := mem_upTo.1 he
  obtain ⟨hu, hw⟩ := hv e hmem
  exact upTo_mono_conn hle (hcore.cyc e.u e.v e.w (hall _ hu) (hall _ hw) (HasEdge.of_mem hmem))

theorem connected_graphC : Connected 2 graphC := by
  have h01 : Conn graphC 0 1 := Conn.of_edge (e := ⟨0, 1, 10000000⟩) (by simp [graphC])
  intro x hx y hy
  interval_cases x <;> interval_cases y
  · exact Conn.refl _ _
  · exact h01
  · exact h01.symm
  · exact Conn.refl _ _

theorem connected_graphD : Connected 2 graphD := by
  have h01 : Conn graphD 0 1 := Conn.of_edge (e := ⟨0, 1, 20000000⟩) (by simp [graphD])
  intro x hx y hy
  interval_cases x <;> interval_cases y
  · exact Conn.refl _ _
  · exact h01
  · exact h01.symm
  · exact Conn.refl _ _

theorem connected_graphA : Connected 4 graphA := by
  have h01 : Conn graphA 0 1 := Conn.of_edge (e := ⟨0, 1, 10⟩) (by simp [graphA])
  have h02 : Conn graphA 0 2 := Conn.of_edge (e := ⟨0, 2, 6⟩) (by simp [graphA])
  have h03 : Conn graphA 0 3 := Conn.of_edge (e := ⟨0, 3, 5⟩) (by simp [graphA])
  have h0 : ∀ x < 4, Conn graphA 0 x := by
    intro x hx
    interval_cases x
    · exact Conn.refl _ _
    · exact h01
    · exact h02
    · exact h03
  intro x hx y hy
  exact (h0 x hx).symm.trans (h0 y hy)

/-! ## Properties of `PrimMST` and the comparison of the two builders -/

/-- C10: on every valid graph with `V ≥ 1` (any weights), `PrimMST` succeeds and the pairs
it writes are exactly the pairs `(parent[v], v)` of the visited vertices `v ≠ 0`, each once
and none with child `0`, sorted ascending by `(parent, child)`; for each such `v`,
`parent[v]` is a visited vertex of `[0, V)` (never `NIL`) and `(parent[v], v)` is an edge of
the graph of weight `key[v]`; the reported edge count is the number of pairs written. -/
theorem prim_tree_pairs (sortP : List (Int × Nat) → List (Int × Nat))
    (hP : IsStdSort pairLt sortP) (V : Nat) (edges : List Edge) (hV : 1 ≤ V)
    (hv : ValidEdges V edges) :
    ∃ adj st out, buildAdj V edges = some adj ∧ search V adj = some st ∧
      PrimMST sortP V edges = some out ∧
      out.lines.Perm (treePairs st V) ∧ (treePairs st V).Nodup ∧
      (∀ q ∈ out.lines, q.2 ≠ 0) ∧
      out.lines.Pairwise (fun a b => a.1 < b.1 ∨ (a.1 = b.1 ∧ a.2 ≤ b.2)) ∧
      (∀ v < V, v ≠ 0 → vis st v → ∃ (p : Nat) (k : Int),
        st.parent[v]? = some (p : Int) ∧ st.key[v]? = some k ∧ p < V ∧ vis st p ∧
          HasEdge edges p v k) ∧
      out.edges = out.lines.length := by
  obtain ⟨adj, st, F, hb, hs, hcore, _, _, hout⟩ := prim_run sortP hV hv
  have hperm := (hP (treePairs st V)).1
  refine ⟨adj, st, _, hb, hs, hout, hperm, ?_, ?_, ?_, ?_, ?_⟩
  · refine List.Nodup.of_map Prod.snd ?_
    unfold treePairs
    rw [List.map_map]
    have : (Prod.snd ∘ fun v => (parAt st v, v)) = id := rfl
    rw [this, List.map_id]
    exact (List.nodup_range V).filter _
  · intro q hq
    have hq' := hperm.mem_iff.1 hq
    unfold treePairs at hq'
    simp only [List.mem_map, List.mem_filter, decide_eq_true_eq] at hq'
    obtain ⟨v, ⟨_, h0, _⟩, rfl⟩ := hq'
    exact h0
  · refine (hP (treePairs st V)).2.imp (fun {a b} hab => ?_)
    unfold pairLt at hab
    split_ifs at hab <;> omega
  · intro v hvV h0 hvis
    obtain ⟨p, hp, hpV, hpv, he⟩ := parent_of_visited hcore hvis h0
    refine ⟨p, keyAt st v, ?_, getElem?_of_lt (by rw [hcore.klen]; exact hvV) INF, hpV, hpv, he⟩
    rw [getElem?_of_lt (by rw [hcore.plen]; exact hvV) NIL]
    exact congrArg some hp
  · simp only [hperm.length_eq, length_treePairs hcore, hcore.count]

/-- Witness for C10: the first scenario of the specification. -/
theorem prim_tree_pairs_witness :
    IsStdSort pairLt (stdSort pairLt) ∧ 1 ≤ 4 ∧ ValidEdges 4 graphA ∧
    ∃ adj st out, buildAdj 4 graphA = some adj ∧ search 4 adj = some st ∧
      PrimMST (stdSort pairLt) 4 graphA = some out ∧
      out.lines.Perm (treePairs st 4) ∧ (treePairs st 4).Nodup ∧
      (∀ q ∈ out.lines, q.2 ≠ 0) ∧
      out.lines.Pairwise (fun a b => a.1 < b.1 ∨ (a.1 = b.1 ∧ a.2 ≤ b.2)) ∧
      (∀ v < 4, v ≠ 0 → vis st v → ∃ (p : Nat) (k : Int),
        st.parent[v]? = some (p : Int) ∧ st.key[v]? = some k ∧ p < 4 ∧ vis st p ∧
          HasEdge graphA p v k) ∧
      out.edges = out.lines.length :=
  ⟨stdSort_pairLt, by decide, by decide,
    prim_tree_pairs (stdSort pairLt) stdSort_pairLt 4 graphA (by decide) (by decide)⟩

/-- C6, as amended: on every valid graph with `V ≥ 1` whose weights are all below the
sentinel `INF = 10^7`, the vertices `PrimMST` marks visited are exactly the connected
component of vertex `0`, the reported edge count is the size of that component minus one,
and it is `V - 1` when the graph is connected. -/
theorem prim_visits_component (sortP : List (Int × Nat) → List (Int × Nat)) (V : Nat)
    (edges : List Edge) (hV : 1 ≤ V) (hv : ValidEdges V edges)
    (hw : ∀ e ∈ edges, e.w < INF) :
    ∃ adj st out, buildAdj V edges = some adj ∧ search V adj = some st ∧
      PrimMST sortP V edges = some out ∧
      (∀ v < V, vis st v ↔ Conn edges 0 v) ∧
      (∃ comp : Finset Nat, (∀ v, v ∈ comp ↔ v < V ∧ Conn edges 0 v) ∧
        out.edges + 1 = comp.card) ∧
      (Connected V edges → out.edges = (V : Int) - 1) := by
  obtain ⟨adj, st, F, hb, hs, hcore, hrel, hpq, hout⟩ := prim_run sortP hV hv
  have hiff := vis_iff_conn hv hw hcore hrel hpq
  obtain ⟨hmem, hcard⟩ := visited_finset hcore
  have hlt : ∀ v, vis st v → v < V := fun v h => by
    have := vis_lt h; rw [hcore.vlen] at this; exact this
  refine ⟨adj, st, _, hb, hs, hout, fun v _ => hiff v,
    ⟨insert 0 (F.map Edge.v).toFinset, fun v => ?_, ?_⟩, fun hc => ?_⟩
  · rw [hmem v, hiff v]
    exact ⟨fun h => ⟨hlt v ((hiff v).2 h), h⟩, fun h => h.2⟩
  · simp only [hcore.count, hcard]
    push_cast
    ring
  · have hset : insert 0 (F.map Edge.v).toFinset = Finset.range V := by
      ext v
      rw [hmem v, Finset.mem_range]
      exact ⟨hlt v, fun h => (hiff v).2 (hc 0 hV v h)⟩
    rw [hset, Finset.card_range] at hcard
    simp only [hcore.count]
    omega

/-- Witness for the amended C6: the first scenario of the specification. -/
theorem prim_visits_component_witness :
    1 ≤ 4 ∧ ValidEdges 4 graphA ∧ (∀ e ∈ graphA, e.w < INF) ∧
    ∃ adj st out, buildAdj 4 graphA = some adj ∧ search 4 adj = some st ∧
      PrimMST (stdSort pairLt) 4 graphA = some out ∧
      (∀ v < 4, vis st v ↔ Conn graphA 0 v) ∧
      (∃ comp : Finset Nat, (∀ v, v ∈ comp ↔ v < 4 ∧ Conn graphA 0 v) ∧
        out.edges + 1 = comp.card) ∧
      (Connected 4 graphA → out.edges = ((4 : Nat) : Int) - 1) :=
  ⟨by decide, by decide, by decide,
    prim_visits_component (stdSort pairLt) 4 graphA (by decide) (by decide) (by decide)⟩

/-- Counterexample to C6 as stated: a connected graph on two vertices whose edge weighs
`INF`; `PrimMST` never visits vertex `1` and reports `0` edges instead of `V - 1 = 1`. -/
theorem prim_visits_component_counterexample :
    1 ≤ 2 ∧ ValidEdges 2 graphC ∧ Connected 2 graphC ∧
    ∃ adj st out, buildAdj 2 graphC = some adj ∧ search 2 adj = some st ∧
      PrimMST (stdSort pairLt) 2 graphC = some out ∧
      Conn graphC 0 1 ∧ ¬ vis st 1 ∧ out.edges ≠ 2 - 1 :=
  ⟨by decide, by decide, connected_graphC,
    [[(1, 10000000)], [(0, 10000000)]],
    ⟨[0, 10000000], [-1, -1], [true, false], [], 0⟩,
    ⟨10000000, 0, []⟩, rfl, rfl, rfl, connected_graphC 0 (by decide) 1 (by decide),
    by decide, by decide⟩

/-- C5, evaluated on the disconnected scenario of the specification (`V = 4`, edges
`(0,1,3)` and `(2,3,7)`): `PrimMST` reports cost `20000003 = 3 + 2 * INF` (the keys of the two
unvisited vertices are added) and edge count `1`, while `KruskalMST` reports cost `10` and
`2` edges. -/
theorem prim_cost_adds_sentinels :
    PrimMST (stdSort pairLt) 4 graphB = some ⟨20000003, 1, [(0, 1)]⟩ ∧
    Kruskal.KruskalMST (stdSort Edge.ltW) (stdSort Edge.ltUV) 4 graphB =
      some ⟨10, 2, [(0, 1), (2, 3)]⟩ ∧
    (20000003 : Int) = 3 + 2 * INF :=
  ⟨rfl, rfl, rfl⟩

/-- C1, as amended: on every connected graph with `V ≥ 1` vertices, valid endpoints and
signed integer weights all below the sentinel `INF = 10^7` (not necessarily positive or
distinct), both builders succeed and the total cost computed by `KruskalMST` equals the
total cost computed by `PrimMST` (rooted at vertex `0`) on the same edge list. -/
theorem kruskal_cost_eq_prim_cost (sortW sortUV : List Edge → List Edge)
    (sortP : List (Int × Nat) → List (Int × Nat)) (hW : IsStdSort Edge.ltW sortW)
    (V : Nat) (edges : List Edge) (hV : 1 ≤ V) (hv : ValidEdges V edges)
    (hc : Connected V edges) (hw : ∀ e ∈ edges, e.w < INF) :
    ∃ ko po, Kruskal.KruskalMST sortW sortUV V edges = some ko ∧
      PrimMST sortP V edges = some po ∧ ko.minCost = po.minCost := by
  obtain ⟨S, c, tree, hsel, inv⟩ := Kruskal.select_spec hW hv
  obtain ⟨adj, st, F, hb, hs, hcore, hrel, hpq, hout⟩ := prim_run sortP hV hv
  have hall : ∀ v < V, vis st v :=
    fun v h => (vis_iff_conn hv hw hcore hrel hpq v).2 (hc 0 hV v h)
  refine ⟨_, _, Kruskal.KruskalMST_of_select hsel, hout, ?_⟩
  simp only [inv.cost, sumKeys_eq, key_sum_eq_weight hcore hall]
  congr 1
  have hFG : ∀ e ∈ F, HasEdge edges e.u e.v e.w := fun e he => (hcore.tree e he).2.2.2.2.2
  have hTG : ∀ e ∈ tree, HasEdge edges e.u e.v e.w := fun e he => HasEdge.of_mem (inv.sub e he)
  have hFspan : ∀ x y, Conn edges x y → Conn F x y := by
    intro x y hxy
    rcases Conn.lt_of_valid hv hxy with rfl | ⟨hx, hy⟩
    · exact Conn.refl _ _
    · exact (hcore.conn x (hall x hx)).symm.trans (hcore.conn y (hall y hy))
  apply le_antisymm
  · exact weight_le_of_thresholdSpanning hv hTG inv.tree_acyclic.seqForest inv.spanning hFG
      hcore.forest hFspan
  · exact weight_le_of_thresholdSpanning hv hFG hcore.forest
      (prim_thresholdSpanning hv hcore hall) hTG inv.tree_acyclic.seqForest
      (fun x y h => (inv.conn_iff x y).2 h)

/-- Witness for the amended C1: the first scenario of the specification. -/
theorem kruskal_cost_eq_prim_cost_witness :
    IsStdSort Edge.ltW (stdSort Edge.ltW) ∧ 1 ≤ 4 ∧ ValidEdges 4 graphA ∧
    Connected 4 graphA ∧ (∀ e ∈ graphA, e.w < INF) ∧
    ∃ ko po, Kruskal.KruskalMST (stdSort Edge.ltW) (stdSort Edge.ltUV) 4 graphA = some ko ∧
      PrimMST (stdSort pairLt) 4 graphA = some po ∧ ko.minCost = po.minCost :=
  ⟨stdSort_ltW, by decide, by decide, connected_graphA, by decide,
    kruskal_cost_eq_prim_cost (stdSort Edge.ltW) (stdSort Edge.ltUV) (stdSort pairLt)
      stdSort_ltW 4 graphA (by decide) (by decide) connected_graphA (by decide)⟩

/-- Counterexample to C1 as stated: on a connected graph on two vertices whose edge weighs
`2 * 10^7`, `KruskalMST` reports cost `20000000` and `PrimMST` reports cost `10000000`. -/
theorem kruskal_cost_eq_prim_cost_counterexample :
    1 ≤ 2 ∧ ValidEdges 2 graphD ∧ Connected 2 graphD ∧
    ∃ ko po, Kruskal.KruskalMST (stdSort Edge.ltW) (stdSort Edge.ltUV) 2 graphD = some ko ∧
      PrimMST (stdSort pairLt) 2 graphD = some po ∧ ko.minCost ≠ po.minCost :=
  ⟨by decide, by decide, connected_graphD, ⟨20000000, 1, [(0, 1)]⟩, ⟨10000000, 0, []⟩,
    rfl, rfl, by decide⟩

end Prim

namespace Kruskal

/-! ## The exact effect of `unionSet` and `findSet` -/

/-- The state that `unionSet(x, y)` returns, in terms of the two representatives, their
ranks and the state `S₂` left by the two `findSet` calls. -/
theorem unionSet_detail {n : Nat} {S : DSU} (hS : S.WF n) {x y : Nat} (hx : x < n)
    (hy : y < n) :
    ∃ (s1 s2 : Nat) (S₂ : DSU) (r1 r2 : Int), RootOf S.parent x s1 ∧ RootOf S.parent y s2 ∧
      s1 < n ∧ s2 < n ∧ Compresses S S₂ ∧ S.rank[s1]? = some r1 ∧ S.rank[s2]? = some r2 ∧
      S.unionSet x y = some
        (if s1 = s2 then S₂
         else if r1 < r2 then { parent := S₂.parent.set s1 (s2 : Int), rank := S₂.rank }
         else if r2 < r1 then { parent := S₂.parent.set s2 (s1 : Int), rank := S₂.rank }
         else { parent := S₂.parent.set s2 (s1 : Int), rank := S₂.rank.set s1 (r1 + 1) }) := by
  obtain ⟨s1, S₁, hf1, hr1, hc1⟩ := findSet_spec hS hx
  have hS₁ := hc1.wf_of hS
  obtain ⟨s2, S₂, hf2, hr2, hc2⟩ := findSet_spec hS₁ hy
  have hc := hc1.comp hc2
  have hr2' : RootOf S.parent y s2 := hc1.rootOf_inv hr2
  have hs1 : s1 < n := (hS.root_lt hr1 hx).1
  have hs2 : s2 < n := (hS.root_lt hr2' hy).1
  obtain ⟨r1, hrk1⟩ : ∃ r1, S.rank[s1]? = some r1 :=
    ⟨_, List.getElem?_eq_getElem (by rw [hS.rlen]; exact hs1)⟩
  obtain ⟨r2, hrk2⟩ : ∃ r2, S.rank[s2]? = some r2 :=
    ⟨_, List.getElem?_eq_getElem (by rw [hS.rlen]; exact hs2)⟩
  have hrk1' : S₂.rank[s1]? = some r1 := by rw [hc.1]; exact hrk1
  have hrk2' : S₂.rank[s2]? = some r2 := by rw [hc.1]; exact hrk2
  refine ⟨s1, s2, S₂, r1, r2, hr1, hr2', hs1, hs2, hc, hrk1, hrk2, ?_⟩
  by_cases heq : s1 = s2
  · simp [DSU.unionSet, hf1, hf2, heq]
  · by_cases hlt : r1 < r2
    · simp [DSU.unionSet, hf1, hf2, heq, hrk1', hrk2', hlt]
    · by_cases hgt : r2 < r1
      · simp [DSU.unionSet, hf1, hf2, heq, hrk1', hrk2', hlt, hgt]
      · simp [DSU.unionSet, hf1, hf2, heq, hrk1', hrk2', hlt, hgt]

theorem getElem?_of_rootOf_lt {S : DSU} {x : Nat} (h : ∃ p, S.parent[x]? = some p) :
    x < S.parent.length := by
  by_contra hc
  obtain ⟨p, hp⟩ := h
  rw [List.getElem?_eq_none (by omega)] at hp
  cases hp

theorem step_unique {S : DSU} {a b c : Nat} (h₁ : S.Step a b) (h₂ : S.Step a c) : b = c := by
  unfold DSU.Step at h₁ h₂
  rw [h₁] at h₂
  simpa using h₂

theorem reach_head_iff {S : DSU} {x q v : Nat} (hq : S.Step x q) :
    Relation.ReflTransGen S.Step x v ↔ v = x ∨ Relation.ReflTransGen S.Step q v := by
  constructor
  · intro h
    rcases Relation.ReflTransGen.cases_head h with h | ⟨c, hc, hcv⟩
    · exact Or.inl h.symm
    · rw [step_unique hq hc]
      exact Or.inr hcv
  · rintro (rfl | h)
    · exact Relation.ReflTransGen.refl
    · exact Relation.ReflTransGen.head hq h

theorem reach_root {S : DSU} {x v : Nat} (hx : S.parent[x]? = some (-1))
    (h : Relation.ReflTransGen S.Step x v) : v = x := by
  rcases Relation.ReflTransGen.cases_head h with h | ⟨c, hc, _⟩
  · exact h.symm
  · unfold DSU.Step at hc
    rw [hx] at hc
    simp only [Option.some.injEq] at hc
    omega

/-- What a successful `findSet` call does to the parent vector: the vertices on the parent
chain of `x`, except the returned root, now point to the root; every other entry and the
length are kept. -/
theorem findSetFuel_path : ∀ (fuel : Nat) (S : DSU) (x r : Nat) (S' : DSU),
    S.findSetFuel fuel x = some (r, S') →
    S'.parent.length = S.parent.length ∧
      (∀ v, Relation.ReflTransGen S.Step x v → v ≠ r → S'.parent[v]? = some (r : Int)) ∧
      (∀ v, ¬ Relation.ReflTransGen S.Step x v → S'.parent[v]? = S.parent[v]?) := by
  intro fuel
  induction fuel with
  | zero =>
    intro S x r S' h
    simp [DSU.findSetFuel] at h
  | succ fuel ih =>
    intro S x r S' h
    cases hp : S.parent[x]? with
    | none => simp [DSU.findSetFuel, hp] at h
    | some p =>
      by_cases hroot : p = -1
      · subst hroot
        simp only [DSU.findSetFuel, hp, if_true, Option.some.injEq, Prod.mk.injEq] at h
        obtain ⟨rfl, rfl⟩ := h
        exact ⟨rfl, fun v hv hne => absurd (reach_root hp hv) hne, fun _ _ => rfl⟩
      · by_cases hneg : p < 0
        · simp [DSU.findSetFuel, hp, hroot, hneg] at h
        · cases hrec : S.findSetFuel fuel p.toNat with
          | none => simp [DSU.findSetFuel, hp, hroot, hneg, hrec] at h
          | some res =>
            obtain ⟨r₁, S₁⟩ := res
            simp only [DSU.findSetFuel, hp, hroot, hneg, if_false, hrec, Option.some.injEq,
              Prod.mk.injEq] at h
            obtain ⟨rfl, rfl⟩ := h
            obtain ⟨hlen, hon, hoff⟩ := ih S p.toNat r₁ S₁ hrec
            have hstep : S.Step x p.toNat := by
              unfold DSU.Step
              rw [hp, Int.toNat_of_nonneg (by omega)]
            have hxl : x < S₁.parent.length := by
              rw [hlen]
              exact getElem?_of_rootOf_lt ⟨p, hp⟩
            refine ⟨by simp [hlen], fun v hv hne => ?_, fun v hv => ?_⟩
            · simp only
              by_cases hvx : x = v
              · subst hvx
                rw [List.getElem?_set_self hxl]
              · rw [List.getElem?_set_ne hvx]
                rcases (reach_head_iff hstep).1 hv with h | h
                · exact absurd h.symm hvx
                · exact hon v h hne
            · simp only
              have hvx : x ≠ v := fun h => hv (h ▸ Relation.ReflTransGen.refl)
              rw [List.getElem?_set_ne hvx]
              exact hoff v (fun h => hv ((reach_head_iff hstep).2 (Or.inr h)))

/-- More fuel does not change the result of `findSet`. -/
theorem findSetFuel_succ : ∀ (fuel : Nat) (S : DSU) (x : Nat) (res : Nat × DSU),
    S.findSetFuel fuel x = some res → S.findSetFuel (fuel + 1) x = some res := by
  intro fuel
  induction fuel with
  | zero =>
    intro S x res h
    simp [DSU.findSetFuel] at h
  | succ fuel ih =>
    intro S x res h
    cases hp : S.parent[x]? with
    | none => simp [DSU.findSetFuel, hp] at h
    | some p =>
      by_cases hroot : p = -1
      · subst hroot
        simp only [DSU.findSetFuel, hp, if_true] at h ⊢
        exact h
      · by_cases hneg : p < 0
        · simp [DSU.findSetFuel, hp, hroot, hneg] at h
        · cases hrec : S.findSetFuel fuel p.toNat with
          | none => simp [DSU.findSetFuel, hp, hroot, hneg, hrec] at h
          | some res₁ =>
            have h2 := ih S p.toNat res₁ hrec
            rw [DSU.findSetFuel] at h ⊢
            simp only [hp, hroot, hneg, if_false, hrec] at h
            simp only [hp, hroot, hneg, if_false, h2]
            exact h

theorem findSetFuel_mono {S : DSU} {x : Nat} {res : Nat × DSU} {fuel fuel' : Nat}
    (h : S.findSetFuel fuel x = some res) (hle : fuel ≤ fuel') :
    S.findSetFuel fuel' x = some res := by
  induction hle with
  | refl => exact h
  | step _ ih => exact findSetFuel_succ _ S x res ih

/-! ## Ranks -/

theorem rankPos_new (n : Nat) : (DSU.new n).RankPos n := by
  intro i hi
  simp [DSU.new, List.getD_eq_getElem?_getD, List.getElem?_replicate, hi]

theorem DSU.Reachable.rankPos {n : Nat} {S : DSU} (h : DSU.Reachable n S) : S.RankPos n := by
  induction h with
  | init => exact rankPos_new n
  | @find S S' x r hS hx hf ih =>
    obtain ⟨r', S'', hf', _, hc⟩ := findSet_spec hS.wellFormed hx
    rw [hf] at hf'
    simp only [Option.some.injEq, Prod.mk.injEq] at hf'
    rw [hf'.2]
    intro i hi
    rw [hc.1]
    exact ih i hi
  | @union S S' x y hS hx hy hu ih =>
    obtain ⟨s1, s2, S₂, r1, r2, _, _, hs1, _, hc, hrk1, _, hu'⟩ :=
      unionSet_detail hS.wellFormed hx hy
    rw [hu] at hu'
    simp only [Option.some.injEq] at hu'
    have hrank : S₂.rank = S.rank := hc.1
    have hr1 : 1 ≤ r1 := by
      have := ih s1 hs1
      rw [getD_of_getElem? hrk1] at this
      exact this
    intro i hi
    rw [hu']
    split_ifs
    · rw [hrank]; exact ih i hi
    · simp only [hrank]; exact ih i hi
    · simp only [hrank]; exact ih i hi
    · simp only [hrank]
      by_cases his : i = s1
      · subst his
        rw [getD_set_self (by rw [hS.wellFormed.rlen]; exact hi)]
        omega
      · rw [getD_set_ne his]
        exact ih i hi

/-- Ranks grow by at least one at every parent-pointer step. -/
theorem rootOf_steps {n : Nat} {S : DSU} (hS : S.WF n) {x r : Nat} (h : RootOf S.parent x r)
    (hx : x < n) :
    ∃ d : Nat, S.StepsTo d x r ∧ S.rank.getD x 0 + (d : Int) ≤ S.rank.getD r 0 := by
  induction h with
  | root _ => exact ⟨0, DSU.StepsTo.zero, by simp⟩
  | @step x p r hs _ ih =>
    rcases hS.valid x hx with h1 | ⟨q, hq, h2, hlt⟩
    · rw [h1] at hs
      simp only [Option.some.injEq] at hs
      omega
    · rw [h2] at hs
      simp only [Option.some.injEq, Nat.cast_inj] at hs
      subst hs
      obtain ⟨d, hd, hle⟩ := ih hq
      refine ⟨d + 1, DSU.StepsTo.succ h2 hd, ?_⟩
      push_cast
      omega

theorem step_rank_lt {n : Nat} {S : DSU} (hS : S.WF n) {a b : Nat} (h : S.Step a b) :
    a < n ∧ b < n ∧ S.rank.getD a 0 < S.rank.getD b 0 := by
  have ha : a < n := by
    rw [← hS.plen]
    exact getElem?_of_rootOf_lt ⟨_, h⟩
  rcases hS.valid a ha with h1 | ⟨q, hq, h2, hlt⟩
  · unfold DSU.Step at h
    rw [h1] at h
    simp only [Option.some.injEq] at h
    omega
  · have : q = b := step_unique h2 h
    subst this
    exact ⟨ha, hq, hlt⟩

theorem transGen_rank_lt {n : Nat} {S : DSU} (hS : S.WF n) {a b : Nat}
    (h : Relation.TransGen S.Step a b) : S.rank.getD a 0 < S.rank.getD b 0 := by
  induction h with
  | single h => exact (step_rank_lt hS h).2.2
  | tail _ h ih => exact lt_trans ih (step_rank_lt hS h).2.2

theorem step_wellFounded {n : Nat} {S : DSU} (hS : S.WF n) :
    WellFounded (fun b a => S.Step a b) := by
  refine Subrelation.wf (r := InvImage (· < ·) (chainBound n S)) ?_
    (InvImage.wf _ Nat.lt_wfRel.wf)
  intro b a h
  obtain ⟨ha, _, hlt⟩ := step_rank_lt hS h
  exact chainBound_lt ha hlt

theorem stepsTo_rank {n : Nat} {S : DSU} (hS : S.WF n) {d x z : Nat} (h : S.StepsTo d x z) :
    S.rank.getD x 0 + (d : Int) ≤ S.rank.getD z 0 := by
  induction h with
  | zero => simp
  | succ hs _ ih =>
    have := (step_rank_lt hS hs).2.2
    push_cast
    omega

/-- C15: in every reachable state and for `x`, `y` in `[0, n)` with representatives
`s1 = findSet(x)` and `s2 = findSet(y)` of ranks `r1` and `r2`, `unionSet(x, y)` succeeds and,
when `s1 != s2`: if `r1 < r2` then `s1` gets parent `s2`, `s2` stays a root and no rank
changes; if `r2 < r1` then `s2` gets parent `s1`, `s1` stays a root and no rank changes; if
`r1 = r2` then `s2` gets parent `s1`, `s1` stays a root, `rank[s1]` becomes `r1 + 1` and the
rank of every other vertex is unchanged. -/
theorem unionSet_links_by_rank (n : Nat) (S : DSU) (hS : DSU.Reachable n S) (x y : Nat)
    (hx : x < n) (hy : y < n) :
    ∃ (s1 s2 : Nat) (r1 r2 : Int) (S' : DSU), S.rep x = some s1 ∧ S.rep y = some s2 ∧
      S.rank[s1]? = some r1 ∧ S.rank[s2]? = some r2 ∧ S.unionSet x y = some S' ∧
      (s1 ≠ s2 →
        (r1 < r2 → S'.parent[s1]? = some (s2 : Int) ∧ S'.IsRoot s2 ∧ S'.rank = S.rank) ∧
        (r2 < r1 → S'.parent[s2]? = some (s1 : Int) ∧ S'.IsRoot s1 ∧ S'.rank = S.rank) ∧
        (r1 = r2 → S'.parent[s2]? = some (s1 : Int) ∧ S'.IsRoot s1 ∧
          S'.rank[s1]? = some (r1 + 1) ∧ ∀ i, i ≠ s1 → S'.rank[i]? = S.rank[i]?)) := by
  have hwf := hS.wellFormed
  obtain ⟨s1, s2, S₂, r1, r2, hr1, hr2, hs1, hs2, hc, hrk1, hrk2, hu⟩ :=
    unionSet_detail hwf hx hy
  have hl1 : s1 < S₂.parent.length := by rw [hc.2.1, hwf.plen]; exact hs1
  have hl2 : s2 < S₂.parent.length := by rw [hc.2.1, hwf.plen]; exact hs2
  have hroot1 : S₂.parent[s1]? = some (-1) := (hc.isRoot_iff s1).2 hr1.isRoot
  have hroot2 : S₂.parent[s2]? = some (-1) := (hc.isRoot_iff s2).2 hr2.isRoot
  refine ⟨s1, s2, r1, r2, _, rep_eq_of_rootOf hwf hx hr1, rep_eq_of_rootOf hwf hy hr2, hrk1,
    hrk2, hu, fun hne => ⟨fun hlt => ?_, fun hgt => ?_, fun heq => ?_⟩⟩
  · rw [if_neg hne, if_pos hlt]
    refine ⟨List.getElem?_set_self hl1, ?_, hc.1⟩
    unfold DSU.IsRoot
    simp only
    rw [List.getElem?_set_ne hne]
    exact hroot2
  · rw [if_neg hne, if_neg (by omega), if_pos hgt]
    refine ⟨List.getElem?_set_self hl2, ?_, hc.1⟩
    unfold DSU.IsRoot
    simp only
    rw [List.getElem?_set_ne (Ne.symm hne)]
    exact hroot1
  · rw [if_neg hne, if_neg (by omega), if_neg (by omega)]
    refine ⟨List.getElem?_set_self hl2, ?_, ?_, fun i hi => ?_⟩
    · unfold DSU.IsRoot
      simp only
      rw [List.getElem?_set_ne (Ne.symm hne)]
      exact hroot1
    · simp only
      rw [List.getElem?_set_self (by rw [hc.1, hwf.rlen]; exact hs1)]
    · simp only
      rw [List.getElem?_set_ne (Ne.symm hi), hc.1]

/-- Witness for C15: `unionSet(1, 2)` in the state after `unionSet(0, 1)` on `DSU(3)`. -/
theorem unionSet_links_by_rank_witness :
    DSU.Reachable 3 stateA ∧ 1 < 3 ∧ 2 < 3 ∧
    ∃ (s1 s2 : Nat) (r1 r2 : Int) (S' : DSU), stateA.rep 1 = some s1 ∧
      stateA.rep 2 = some s2 ∧
      stateA.rank[s1]? = some r1 ∧ stateA.rank[s2]? = some r2 ∧
      stateA.unionSet 1 2 = some S' ∧
      (s1 ≠ s2 →
        (r1 < r2 → S'.parent[s1]? = some (s2 : Int) ∧ S'.IsRoot s2 ∧ S'.rank = stateA.rank) ∧
        (r2 < r1 → S'.parent[s2]? = some (s1 : Int) ∧ S'.IsRoot s1 ∧ S'.rank = stateA.rank) ∧
        (r1 = r2 → S'.parent[s2]? = some (s1 : Int) ∧ S'.IsRoot s1 ∧
          S'.rank[s1]? = some (r1 + 1) ∧ ∀ i, i ≠ s1 → S'.rank[i]? = stateA.rank[i]?)) :=
  ⟨stateA_reachable, by decide, by decide,
    unionSet_links_by_rank 3 stateA stateA_reachable 1 2 (by decide) (by decide)⟩

/-- C16: in every reachable state and for every `x` in `[0, n)`, `findSet(x)` succeeds with
the root `r` of `x`; afterwards every vertex other than `r` that lay on the parent-pointer
path from `x` to `r` before the call (`x` included, if `x != r`) has parent exactly `r`, the
root keeps `parent[r] == -1`, and the parent entry of every vertex not on that path is
unchanged. -/
theorem findSet_compresses_path_only (n : Nat) (S : DSU) (hS : DSU.Reachable n S) (x : Nat)
    (hx : x < n) :
    ∃ r S', S.findSet x = some (r, S') ∧ S.IsRoot r ∧ Relation.ReflTransGen S.Step x r ∧
      (∀ v, Relation.ReflTransGen S.Step x v → v ≠ r → S'.parent[v]? = some (r : Int)) ∧
      S'.parent[r]? = some (-1) ∧
      (∀ v, ¬ Relation.ReflTransGen S.Step x v → S'.parent[v]? = S.parent[v]?) ∧
      S'.parent.length = S.parent.length := by
  have hwf := hS.wellFormed
  obtain ⟨r, S', hf, hr, hc⟩ := findSet_spec hwf hx
  obtain ⟨hlen, hon, hoff⟩ := findSetFuel_path _ S x r S' hf
  exact ⟨r, S', hf, hr.isRoot, hr.reach, hon, (hc.isRoot_iff r).2 hr.isRoot, hoff, hlen⟩

/-- Witness for C16: `findSet(2)` in the state after `unionSet(0, 1)`, `unionSet(1, 2)` on
`DSU(3)`. -/
theorem findSet_compresses_path_only_witness :
    DSU.Reachable 3 stateB ∧ 2 < 3 ∧
    ∃ r S', stateB.findSet 2 = some (r, S') ∧ stateB.IsRoot r ∧
      Relation.ReflTransGen stateB.Step 2 r ∧
      (∀ v, Relation.ReflTransGen stateB.Step 2 v → v ≠ r → S'.parent[v]? = some (r : Int)) ∧
      S'.parent[r]? = some (-1) ∧
      (∀ v, ¬ Relation.ReflTransGen stateB.Step 2 v → S'.parent[v]? = stateB.parent[v]?) ∧
      S'.parent.length = stateB.parent.length :=
  ⟨stateB_reachable, by decide,
    findSet_compresses_path_only 3 stateB stateB_reachable 2 (by decide)⟩

/-- C17: in every state reachable from `DSU(n)`, for every vertex `x` in `[0, n)` whose
representative is `r`: `rank[r] >= 1`, `x` reaches `r` by parent-pointer steps, and every
number `d` of parent-pointer steps leading from `x` to `r` satisfies `d <= rank[r] - 1`. -/
theorem rank_bounds_depth (n : Nat) (S : DSU) (hS : DSU.Reachable n S) (x r : Nat)
    (hx : x < n) (hr : S.rep x = some r) :
    ∃ k : Int, S.rank[r]? = some k ∧ 1 ≤ k ∧ (∃ d, S.StepsTo d x r) ∧
      ∀ d, S.StepsTo d x r → (d : Int) ≤ k - 1 := by
  have hwf := hS.wellFormed
  obtain ⟨r', h1, hrn, hroot⟩ := rep_spec hwf hx
  rw [hr] at h1
  simp only [Option.some.injEq] at h1
  subst h1
  have hk : S.rank[r]? = some (S.rank.getD r 0) := by
    rw [List.getD_eq_getElem?_getD, List.getElem?_eq_getElem (by rw [hwf.rlen]; exact hrn)]
    simp
  obtain ⟨d₀, hd₀, _⟩ := rootOf_steps hwf hroot hx
  refine ⟨_, hk, hS.rankPos r hrn, ⟨d₀, hd₀⟩, fun d hd => ?_⟩
  have h1 := stepsTo_rank hwf hd
  have h2 := hS.rankPos x hx
  omega

/-- Witness for C17: vertex `1` in the state after `unionSet(0, 1)` on `DSU(3)`. -/
theorem rank_bounds_depth_witness :
    DSU.Reachable 3 stateA ∧ 1 < 3 ∧ stateA.rep 1 = some 0 ∧
    ∃ k : Int, stateA.rank[0]? = some k ∧ 1 ≤ k ∧ (∃ d, stateA.StepsTo d 1 0) ∧
      ∀ d, stateA.StepsTo d 1 0 → (d : Int) ≤ k - 1 :=
  ⟨stateA_reachable, by decide, by decide,
    rank_bounds_depth 3 stateA stateA_reachable 1 0 (by decide) (by decide)⟩

/-- C18: in every state reachable from `DSU(n)` by calls with arguments in `[0, n)`, the
parent vector has length `n`, every parent entry is `-1` or an index in `[0, n)`, the parent
pointers contain no cycle and the parent relation is well founded; consequently `findSet(x)`
returns for every `x` in `[0, n)` without reading outside the vector, with a root in
`[0, n)`, and a recursion depth of `n` is always enough (any larger budget gives the same
result). -/
theorem findSet_terminates_in_range (n : Nat) (S : DSU) (hS : DSU.Reachable n S) :
    S.parent.length = n ∧
    (∀ i < n, ∃ p : Int, S.parent[i]? = some p ∧ (p = -1 ∨ (0 ≤ p ∧ p < n))) ∧
    (∀ x, ¬ Relation.TransGen S.Step x x) ∧
    WellFounded (fun b a => S.Step a b) ∧
    ∀ x < n, ∃ r S', S.findSet x = some (r, S') ∧ r < n ∧
      ∀ fuel, n ≤ fuel → S.findSetFuel fuel x = some (r, S') := by
  have hwf := hS.wellFormed
  refine ⟨hwf.plen, fun i hi => ?_, fun x hcyc => ?_, step_wellFounded hwf, fun x hx => ?_⟩
  · rcases hwf.valid i hi with h | ⟨p, hp, h, _⟩
    · exact ⟨-1, h, Or.inl rfl⟩
    · exact ⟨p, h, Or.inr ⟨by omega, by omega⟩⟩
  · exact lt_irrefl _ (transGen_rank_lt hwf hcyc)
  · obtain ⟨r, S', hf, hr, _⟩ := findSet_spec hwf hx
    refine ⟨r, S', hf, (hwf.root_lt hr hx).1, fun fuel hfuel => ?_⟩
    exact findSetFuel_mono hf (by rw [hwf.plen]; exact hfuel)

/-- Witness for C18: the state after `unionSet(0, 1)`, `unionSet(1, 2)` on `DSU(3)`. -/
theorem findSet_terminates_in_range_witness :
    DSU.Reachable 3 stateB ∧
    (stateB.parent.length = 3 ∧
    (∀ i < 3, ∃ p : Int, stateB.parent[i]? = some p ∧ (p = -1 ∨ (0 ≤ p ∧ p < 3))) ∧
    (∀ x, ¬ Relation.TransGen stateB.Step x x) ∧
    WellFounded (fun b a => stateB.Step a b) ∧
    ∀ x < 3, ∃ r S', stateB.findSet x = some (r, S') ∧ r < 3 ∧
      ∀ fuel, 3 ≤ fuel → stateB.findSetFuel fuel x = some (r, S')) :=
  ⟨stateB_reachable, findSet_terminates_in_range 3 stateB stateB_reachable⟩

end Kruskal

/-! ## Reordering the input of `KruskalMST` -/

theorem hasEdge_mono_of_forall₂ {es es' : List Edge}
    (h : List.Forall₂ (fun e e' => e' = e ∨ e' = e.swap) es es') {a b : Nat} {w : Int} :
    HasEdge es a b w ↔ HasEdge es' a b w := by
  induction h with
  | nil => exact Iff.rfl
  | @cons e e' l l' hee' _ ih =>
    rw [Prim.hasEdge_cons, Prim.hasEdge_cons, ih]
    rcases hee' with rfl | rfl
    · exact Iff.rfl
    · simp only [Edge.swap]
      constructor
      · rintro (⟨hw, h | h⟩ | h)
        · exact Or.inl ⟨hw, Or.inr h.symm⟩
        · exact Or.inl ⟨hw, Or.inl h.symm⟩
        · exact Or.inr h
      · rintro (⟨hw, h | h⟩ | h)
        · exact Or.inl ⟨hw, Or.inr h.symm⟩
        · exact Or.inl ⟨hw, Or.inl h.symm⟩
        · exact Or.inr h

theorem hasEdge_perm_iff {es es' : List Edge} (h : es.Perm es') {a b : Nat} {w : Int} :
    HasEdge es a b w ↔ HasEdge es' a b w := by
  unfold HasEdge
  constructor
  · rintro ⟨e, he, h'⟩
    exact ⟨e, h.mem_iff.1 he, h'⟩
  · rintro ⟨e, he, h'⟩
    exact ⟨e, h.mem_iff.2 he, h'⟩

theorem Reordered.hasEdge_iff {es es' : List Edge} (h : Reordered es es') {a b : Nat}
    {w : Int} : HasEdge es a b w ↔ HasEdge es' a b w := by
  obtain ⟨mid, hp, hf⟩ := h
  exact (hasEdge_perm_iff hp).trans (hasEdge_mono_of_forall₂ hf)

theorem Reordered.of_permutation {es es' : List Edge} (h : es.Perm es') : Reordered es es' :=
  ⟨es', h, List.forall₂_same.2 (fun _ _ => Or.inl rfl)⟩

theorem validEdges_of_hasEdge {V : Nat} {G G' : List Edge} (hv : ValidEdges V G)
    (h : ∀ a b w, HasEdge G' a b w → HasEdge G a b w) : ValidEdges V G' :=
  fun _ he => (h _ _ _ (HasEdge.of_mem he)).valid hv

theorem conn_of_hasEdge_imp {G G' : List Edge}
    (h : ∀ a b w, HasEdge G a b w → HasEdge G' a b w) {x y : Nat} (hc : Conn G x y) :
    Conn G' x y :=
  Conn.le_of_conn (fun _ he => (h _ _ _ (HasEdge.of_mem he)).toConn) hc

namespace Kruskal

theorem tree_weight_le_of_hasEdge_iff {V : Nat}
    {G G' : List Edge} (hv : ValidEdges V G) (h : ∀ a b w, HasEdge G a b w ↔ HasEdge G' a b w)
    {S S' : DSU} {c c' : Int} {tree tree' : List Edge} (inv : ScanInv V G S c tree)
    (inv' : ScanInv V G' S' c' tree') : weight tree ≤ weight tree' := by
  exact weight_le_of_thresholdSpanning hv (fun e he => HasEdge.of_mem (inv.sub e he))
    inv.tree_acyclic.seqForest inv.spanning
    (fun e he => (h _ _ _).2 (HasEdge.of_mem (inv'.sub e he))) inv'.tree_acyclic.seqForest
    (fun x y hc => inv'.spanning.conn (conn_of_hasEdge_imp (fun a b w => (h a b w).1) hc))

/-- Two edge lists with the same undirected weighted edges give the same cost. -/
theorem cost_eq_of_hasEdge_iff {sortW sortW' : List Edge → List Edge}
    (hW : IsStdSort Edge.ltW sortW) (hW' : IsStdSort Edge.ltW sortW')
    (sortUV sortUV' : List Edge → List Edge) {V : Nat}
    {G G' : List Edge} (hv : ValidEdges V G)
    (h : ∀ a b w, HasEdge G a b w ↔ HasEdge G' a b w) :
    ∃ out out', KruskalMST sortW sortUV V G = some out ∧
      KruskalMST sortW' sortUV' V G' = some out' ∧ out'.minCost = out.minCost := by
  have hv' : ValidEdges V G' := validEdges_of_hasEdge hv (fun a b w => (h a b w).2)
  obtain ⟨S, c, tree, hsel, inv⟩ := select_spec hW hv
  obtain ⟨S', c', tree', hsel', inv'⟩ := select_spec hW' hv'
  refine ⟨_, _, KruskalMST_of_select hsel, KruskalMST_of_select hsel', ?_⟩
  simp only [inv.cost, inv'.cost]
  congr 1
  exact le_antisymm
    (tree_weight_le_of_hasEdge_iff hv'
      (fun a b w => (h a b w).symm) inv' inv)
    (tree_weight_le_of_hasEdge_iff hv h inv inv')

/-- With pairwise distinct weights the weight sort has only one possible result. -/
theorem sortW_unique {sortW sortW' : List Edge → List Edge} (hW : IsStdSort Edge.ltW sortW)
    (hW' : IsStdSort Edge.ltW sortW') {edges edges' : List Edge} (hp : edges.Perm edges')
    (hd : (edges.map Edge.w).Nodup) :
    sortW edges = sortW' edges' ∧ (sortW edges).Pairwise (fun a b => a.w < b.w) := by
  have key : ∀ l : List Edge, l.Perm edges → l.Pairwise (fun a b => ¬ Edge.ltW b a) →
      l.Pairwise (fun a b => a.w < b.w) := by
    intro l hl hs
    have hnd : (l.map Edge.w).Nodup := (hl.map Edge.w).nodup_iff.2 hd
    have hne : l.Pairwise (fun a b => a.w ≠ b.w) := by
      rw [List.Nodup, List.pairwise_map] at hnd
      exact hnd
    refine (hs.and hne).imp ?_
    rintro a b ⟨h1, h2⟩
    unfold Edge.ltW at h1
    omega
  have h1 := key _ (hW edges).1 (hW edges).2
  have h2 := key _ ((hW' edges').1.trans hp.symm) (hW' edges').2
  haveI : IsAntisymm Edge (fun a b => a.w < b.w) :=
    ⟨fun a b hab hba => absurd hab (not_lt.2 (le_of_lt hba))⟩
  exact ⟨List.eq_of_perm_of_sorted ((hW edges).1.trans (hp.trans (hW' edges').1.symm)) h1 h2, h1⟩

/-- C11: for every graph with valid endpoints the cost reported by `KruskalMST` is
unchanged by reordering the input edge list and by swapping the endpoints of any of its
edges (also when the two runs resolve weight ties differently); in particular a run on the
edge list as reordered by the weight sort of a previous run reports the same cost. -/
theorem kruskal_cost_order_invariant (sortW sortW' sortUV sortUV' : List Edge → List Edge)
    (hW : IsStdSort Edge.ltW sortW) (hW' : IsStdSort Edge.ltW sortW') (V : Nat)
    (edges edges' : List Edge) (hv : ValidEdges V edges) (h : Reordered edges edges') :
    ∃ out out' out₂, KruskalMST sortW sortUV V edges = some out ∧
      KruskalMST sortW' sortUV' V edges' = some out' ∧
      KruskalMST sortW' sortUV' V (sortW edges) = some out₂ ∧
      out'.minCost = out.minCost ∧ out₂.minCost = out.minCost := by
  obtain ⟨out, out', h1, h2, h3⟩ :=
    cost_eq_of_hasEdge_iff hW hW' sortUV sortUV' hv (fun _ _ _ => h.hasEdge_iff)
  obtain ⟨out₀, out₂, h4, h5, h6⟩ :=
    cost_eq_of_hasEdge_iff hW hW' sortUV sortUV' hv
      (fun _ _ _ => (Reordered.of_permutation (hW edges).1.symm).hasEdge_iff)
  rw [h1] at h4
  simp only [Option.some.injEq] at h4
  subst h4
  exact ⟨out, out', out₂, h1, h2, h5, h3, h6⟩

/-- Witness for C11: the first scenario of the specification against the same graph with
its edges listed in another order and three of them written with swapped endpoints. -/
theorem kruskal_cost_order_invariant_witness :
    IsStdSort Edge.ltW (stdSort Edge.ltW) ∧ ValidEdges 4 graphA ∧ Reordered graphA graphG ∧
    ∃ out out' out₂, KruskalMST (stdSort Edge.ltW) (stdSort Edge.ltUV) 4 graphA = some out ∧
      KruskalMST (stdSort Edge.ltW) (stdSort Edge.ltUV) 4 graphG = some out' ∧
      KruskalMST (stdSort Edge.ltW) (stdSort Edge.ltUV) 4 (stdSort Edge.ltW graphA)
        = some out₂ ∧
      out'.minCost = out.minCost ∧ out₂.minCost = out.minCost :=
  have hr : Reordered graphA graphG :=
    ⟨[⟨2, 3, 4⟩, ⟨0, 1, 10⟩, ⟨1, 3, 15⟩, ⟨0, 2, 6⟩, ⟨0, 3, 5⟩], by decide, by
      simp [graphG, Edge.swap]⟩
  ⟨stdSort_ltW, by decide, hr,
    kruskal_cost_order_invariant (stdSort Edge.ltW) (stdSort Edge.ltW) (stdSort Edge.ltUV)
      (stdSort Edge.ltUV) stdSort_ltW stdSort_ltW 4 graphA graphG (by decide) hr⟩

/-- Counterexample for C12: the triangle with three edges of weight `1`, listed in two
orders.  The weight sort leaves both lists as they are (ties are not ordered by `(u, v)`),
and the two runs report different edge lists. -/
theorem kruskal_tie_order_counterexample :
    graphE.Perm graphF ∧ ValidEdges 3 graphE ∧
    stdSort Edge.ltW graphE = graphE ∧ stdSort Edge.ltW graphF = graphF ∧
    KruskalMST (stdSort Edge.ltW) (stdSort Edge.ltUV) 3 graphE
      = some ⟨2, 2, [(0, 1), (1, 2)]⟩ ∧
    KruskalMST (stdSort Edge.ltW) (stdSort Edge.ltUV) 3 graphF
      = some ⟨2, 2, [(0, 1), (0, 2)]⟩ ∧
    KruskalMST (stdSort Edge.ltW) (stdSort Edge.ltUV) 3 graphE
      ≠ KruskalMST (stdSort Edge.ltW) (stdSort Edge.ltUV) 3 graphF := by
  decide

/-- C12 (amended): `KruskalMST` scans the edges in ascending weight order, ties being left
to the sort routine.  For every graph with valid endpoints whose edge weights are pairwise
distinct and every permutation of its input edge list, the scan order is the same strictly
ascending list, and `KruskalMST` reports the same cost, count and sorted tree-edge list. -/
theorem kruskal_output_order_independent (sortW sortW' sortUV : List Edge → List Edge)
    (hW : IsStdSort Edge.ltW sortW) (hW' : IsStdSort Edge.ltW sortW') (V : Nat)
    (edges edges' : List Edge) (hv : ValidEdges V edges) (hp : edges.Perm edges')
    (hd : (edges.map Edge.w).Nodup) :
    sortW edges = sortW' edges' ∧ (sortW edges).Pairwise (fun a b => a.w < b.w) ∧
    ∃ out, KruskalMST sortW sortUV V edges = some out ∧
      KruskalMST sortW' sortUV V edges' = some out := by
  obtain ⟨heq, hs⟩ := sortW_unique hW hW' hp hd
  obtain ⟨S, c, tree, hsel, _⟩ := select_spec hW hv
  have hsel' : select sortW' V edges' = some (S, c, tree) := by
    unfold select at hsel ⊢
    rw [← heq]
    exact hsel
  exact ⟨heq, hs, _, KruskalMST_of_select hsel, KruskalMST_of_select hsel'⟩

/-- Witness for C12 (amended): the first scenario of the specification, whose weights are
pairwise distinct, against a permutation of its edge list. -/
theorem kruskal_output_order_independent_witness :
    IsStdSort Edge.ltW (stdSort Edge.ltW) ∧ ValidEdges 4 graphA ∧
    graphA.Perm graphA.reverse ∧ (graphA.map Edge.w).Nodup ∧
    (stdSort Edge.ltW graphA = stdSort Edge.ltW graphA.reverse ∧
    (stdSort Edge.ltW graphA).Pairwise (fun a b => a.w < b.w) ∧
    ∃ out, KruskalMST (stdSort Edge.ltW) (stdSort Edge.ltUV) 4 graphA = some out ∧
      KruskalMST (stdSort Edge.ltW) (stdSort Edge.ltUV) 4 graphA.reverse = some out) :=
  ⟨stdSort_ltW, by decide, (List.reverse_perm graphA).symm, by decide,
    kruskal_output_order_independent (stdSort Edge.ltW) (stdSort Edge.ltW)
      (stdSort Edge.ltUV) stdSort_ltW stdSort_ltW 4 graphA graphA.reverse (by decide)
      (List.reverse_perm graphA).symm (by decide)⟩

end Kruskal

/-! ## Boundary graphs -/

theorem IsStdSort.nil {α : Type} {lt : α → α → Prop} {sort : List α → List α}
    (h : IsStdSort lt sort) : sort [] = [] :=
  List.perm_nil.1 (h []).1

namespace Prim

/-- C13: on the graph with `V = 1` and `E = 0`, with any sort routines meeting the contract
of `std::sort`, `KruskalMST` and `PrimMST` both run to completion (no out-of-range access)
and report cost `0`, edge count `0` and an empty edge list. -/
theorem single_vertex_zero_result (sortW sortUV : List Edge → List Edge)
    (sortP : List (Int × Nat) → List (Int × Nat)) (hW : IsStdSort Edge.ltW sortW)
    (hUV : IsStdSort Edge.ltUV sortUV) (hP : IsStdSort pairLt sortP) :
    Kruskal.KruskalMST sortW sortUV 1 [] = some ⟨0, 0, []⟩ ∧
    PrimMST sortP 1 [] = some ⟨0, 0, []⟩ := by
  constructor
  · simp [Kruskal.KruskalMST, Kruskal.select, hW.nil, Kruskal.scan, hUV.nil]
  · have h : PrimMST sortP 1 [] = some ⟨0, 0, sortP []⟩ := rfl
    rw [h, hP.nil]

/-- Witness for C13: the concrete stable sort. -/
theorem single_vertex_zero_result_witness :
    IsStdSort Edge.ltW (stdSort Edge.ltW) ∧ IsStdSort Edge.ltUV (stdSort Edge.ltUV) ∧
    IsStdSort pairLt (stdSort pairLt) ∧
    Kruskal.KruskalMST (stdSort Edge.ltW) (stdSort Edge.ltUV) 1 [] = some ⟨0, 0, []⟩ ∧
    PrimMST (stdSort pairLt) 1 [] = some ⟨0, 0, []⟩ :=
  ⟨stdSort_ltW, stdSort_ltUV, stdSort_pairLt,
    single_vertex_zero_result (stdSort Edge.ltW) (stdSort Edge.ltUV) (stdSort pairLt)
      stdSort_ltW stdSort_ltUV stdSort_pairLt⟩

/-- C14, evaluated on the empty graph (`V = 0`, `E = 0`): `KruskalMST` reports cost `0` and
`0` edges, but `PrimMST` does not run to completion: the vectors `key` and `visited` are
empty, so the seeding `key[root] = 0` with `root = 0` is an access outside the vector. -/
theorem prim_empty_graph_out_of_range :
    Kruskal.KruskalMST (stdSort Edge.ltW) (stdSort Edge.ltUV) 0 [] = some ⟨0, 0, []⟩ ∧
    (List.replicate 0 INF)[0]? = none ∧ (List.replicate 0 false)[0]? = none ∧
    initState 0 = none ∧
    ∀ sortP : List (Int × Nat) → List (Int × Nat), PrimMST sortP 0 [] = none :=
  ⟨rfl, rfl, rfl, rfl, fun _ => rfl⟩

end Prim

namespace Prufer

/-- C20, evaluated on the path `1 → 0 → 2` rooted at `2` (`size = 3`, parent array
`2 0 -1`): the only leaf is vertex `1`, but the first step of `PruferCoding` picks vertex
`0`, which still has the child `1`; the sequence written is `2 0`. -/
theorem prufer_removes_non_leaf :
    pathTree.length = 3 ∧
    minLeaf pathTree (List.replicate 3 true) (List.range 3) INF = some 0 ∧
    ¬ IsLeaf 3 pathTree (List.replicate 3 true) 0 ∧
    IsLeaf 3 pathTree (List.replicate 3 true) 1 ∧
    (∀ j < 3, IsLeaf 3 pathTree (List.replicate 3 true) j → j = 1) ∧
    PruferCoding 3 pathTree = some [2, 0] := by
  decide

end Prufer

namespace Huffmann

set_option maxRecDepth 100000 in
/-- C19, evaluated on the one-letter text `a`: `HuffmanCoding` writes the symbol count `1`,
the table line `a 1` and an empty bit string (the loop `while (--letters)` does not run, so
the code of `a` is empty); `HuffmannDecoding` applied to this output writes the empty text,
not `a`.  The same happens for `aaa`.  On `abracadabra` decoding returns the text. -/
theorem huffman_single_symbol_lost :
    HuffmanCoding ['a'] = some ⟨1, [('a', 1)], []⟩ ∧
    HuffmannDecoding ⟨1, [('a', 1)], []⟩ = some [] ∧
    (HuffmanCoding ['a']).bind HuffmannDecoding ≠ some ['a'] ∧
    HuffmanCoding ['a', 'a', 'a'] = some ⟨1, [('a', 3)], []⟩ ∧
    HuffmannDecoding ⟨1, [('a', 3)], []⟩ = some [] ∧
    (HuffmanCoding "abracadabra".toList).bind HuffmannDecoding = some "abracadabra".toList := by
  decide

end Huffmann
